import Mathlib

/-!
Elcom catalog matching engine.

A shallow embedding of `internal/util/text.go`, `internal/util/qty.go`,
`internal/catalog/index.go` and `internal/pipeline/match.go`, and of the
removal of the quantity in `internal/pipeline/extract.go`.

Conventions of the embedding:

* a Go `string` is a Lean `String`, read as the sequence of runes that a Go
  `range` loop decodes from it; byte lengths (`len(s)`) are the UTF-8 sizes;
* a Go `float64` is the rational number (`ℚ`) it stands for: every conversion
  to `float64` and every arithmetic operation of the sources on it is followed
  by IEEE 754 rounding to the nearest float64 (`roundFloat64`), and
  `strconv.ParseFloat` returns the float64 nearest to the text or fails beyond
  the range; the confidences `0.99`, `0.95`, `0.80`, `0.78` and `0.7` that
  `Match` assigns are written as these decimals, each standing for the float64
  nearest to it, and the test `Confidence > 0.7` has the same outcome on every
  float64 for the decimal as for its nearest float64
  (`float64_gt_seven_tenths`);
* a Go `map[K]V` is a list of key/value pairs with distinct keys, looked up by
  key; the order in which a `range` loop visits a map is not fixed by Go, so
  every function that ranges over a map takes the visiting order as an
  explicit argument (`RangeOrder`);
* a nil pointer is `none`.
-/

namespace Elcom

/-! ## Go library functions used by the sources -/

/-- Upper-casing of one rune, `unicode.ToUpper`, on every rune whose upper
case is a Latin capital `A`-`Z` or a Cyrillic capital of `Ѐ`-`Я`: the letters
`a`-`z`, `а`-`я` and `ѐ`-`џ`, dotless `ı`, long `ſ`, and the seven old
Cyrillic letter forms U+1C80 to U+1C86 (upper case `В`, `Д`, `О`, `С`, `Т`,
`Т`, `Ъ`). Every other rune is returned unchanged: either it is its own upper
case, or neither the rune nor its upper case is a letter, a digit or a mark
that `text.go` tells apart from other runes (`NormalizeHeader` blanks both and
`NormalizeCode` drops both). -/
def toUpperRune (c : Char) : Char :=
  if 'a' ≤ c ∧ c ≤ 'z' then Char.ofNat (c.toNat - 32)
  else if 'а' ≤ c ∧ c ≤ 'я' then Char.ofNat (c.toNat - 32)
  else if 'ѐ' ≤ c ∧ c ≤ 'џ' then Char.ofNat (c.toNat - 80)
  else if c = 'ı' then 'I'
  else if c = 'ſ' then 'S'
  else if c = Char.ofNat 0x1C80 then 'В'
  else if c = Char.ofNat 0x1C81 then 'Д'
  else if c = Char.ofNat 0x1C82 then 'О'
  else if c = Char.ofNat 0x1C83 then 'С'
  else if c = Char.ofNat 0x1C84 then 'Т'
  else if c = Char.ofNat 0x1C85 then 'Т'
  else if c = Char.ofNat 0x1C86 then 'Ъ'
  else c

/-- The runes `unicode.IsSpace` accepts (what `strings.TrimSpace` removes). -/
def isSpaceRune (c : Char) : Bool :=
  c = '\t' || c = '\n' || c = Char.ofNat 0x0B || c = Char.ofNat 0x0C || c = '\r' || c = ' '
    || c = Char.ofNat 0x85 || c = Char.ofNat 0xA0 || c = Char.ofNat 0x1680
    || (0x2000 ≤ c.toNat && c.toNat ≤ 0x200A)
    || c = Char.ofNat 0x2028 || c = Char.ofNat 0x2029 || c = Char.ofNat 0x202F
    || c = Char.ofNat 0x205F || c = Char.ofNat 0x3000

/-- The regular-expression class `\s` of Go's `regexp`: tab, newline, form
feed, carriage return and space. -/
def isReSpace (c : Char) : Bool :=
  c = '\t' || c = '\n' || c = Char.ofNat 0x0C || c = '\r' || c = ' '

/-- Rune-level `strings.TrimSpace`. -/
def trimSpaceRunes (s : List Char) : List Char :=
  ((s.dropWhile isSpaceRune).reverse.dropWhile isSpaceRune).reverse

/-- Replacement pass of `strings.NewReplacer(...).Replace` and of
`strings.ReplaceAll`: the text is scanned left to right; at each position the
first pair (in argument order) whose old string starts there is applied and
the scan resumes after it. The first argument counts the runes still to be
skipped after a replacement. -/
def replaceRunes (pairs : List (List Char × List Char)) : Nat → List Char → List Char
  | _, [] => []
  | skip + 1, _ :: cs => replaceRunes pairs skip cs
  | 0, c :: cs =>
    match pairs.find? (fun p => p.1.isPrefixOf (c :: cs)) with
    | some p => p.2 ++ replaceRunes pairs (p.1.length - 1) cs
    | none => c :: replaceRunes pairs 0 cs

/-- Replacement of every match of `\s+` by one space; the flag tells whether
the previous rune already belonged to the current run of whitespace. -/
def collapseSpaces : Bool → List Char → List Char
  | _, [] => []
  | inRun, c :: cs =>
    if isReSpace c then
      if inRun then collapseSpaces true cs else ' ' :: collapseSpaces true cs
    else c :: collapseSpaces false cs

/-- Rune-level `strings.Split(s, " ")`. -/
def splitOnSpace : List Char → List (List Char)
  | [] => [[]]
  | c :: cs =>
    if c = ' ' then [] :: splitOnSpace cs
    else
      match splitOnSpace cs with
      | [] => [[c]]
      | p :: ps => (c :: p) :: ps

/-- Byte length `len(s)` of the UTF-8 encoding of a rune sequence. -/
def byteLen (s : List Char) : Nat := (s.map Char.utf8Size).sum

/-! ## The type `float64` -/

/-- Number of binary digits of `n`, found in at most `fuel` halvings. -/
def bitLenAux : ℕ → ℕ → ℕ
  | 0, _ => 0
  | fuel + 1, n => if n = 0 then 0 else bitLenAux fuel (n / 2) + 1

/-- Number of binary digits of `n`. -/
def bitLen (n : ℕ) : ℕ := bitLenAux n n

/-- The exponent `e` with `2 ^ e ≤ x < 2 ^ (e + 1)`, for a positive `x`. -/
def binade (x : ℚ) : ℤ :=
  let k : ℤ := (bitLen x.num.natAbs : ℤ) - (bitLen x.den : ℤ)
  if (2 : ℚ) ^ k ≤ x then k else k - 1

/-- Nearest integer, a tie going to the even one. -/
def roundHalfEven (x : ℚ) : ℤ :=
  let f := Rat.floor x
  if x - f < 1 / 2 then f
  else if 1 / 2 < x - f then f + 1
  else if f % 2 = 0 then f else f + 1

/-- The float64 nearest to `x` (IEEE 754 binary64, round to nearest, ties to
even, subnormals included), with no bound on the exponent from above. -/
def roundFloat64 (x : ℚ) : ℚ :=
  if x = 0 then 0
  else
    let a : ℚ := if x < 0 then -x else x
    let e : ℤ := max (binade a) (-1022)
    let r : ℚ := (roundHalfEven (a / 2 ^ (e - 52)) : ℚ) * 2 ^ (e - 52)
    if x < 0 then -r else r

/-- Result of `strconv.ParseFloat(s, 64)` for a text worth `x`: the nearest
float64, and `none` for `ErrRange` when that is beyond the largest float64. -/
def roundToFloat64 (x : ℚ) : Option ℚ :=
  if roundFloat64 x < 2 ^ 1024 ∧ -(2 ^ 1024) < roundFloat64 x then some (roundFloat64 x)
  else none

/-! ## `internal/util/text.go` -/

/-- Character class of `reQuotes`. -/
def isQuote (c : Char) : Bool :=
  c = '"' || c = Char.ofNat 0x27 || c = Char.ofNat 0x60 || c = '«' || c = '»'

/-- Character class that `reNonAllowed` negates: the letters `A`-`Z` and `А`-`Я`,
the digits, `X`, the hyphen, the slash, the whitespace class and the dot. -/
def isAllowed (c : Char) : Bool :=
  ('A' ≤ c && c ≤ 'Z') || ('А' ≤ c && c ≤ 'Я') || ('0' ≤ c && c ≤ '9') || c = 'X'
    || c = '-' || c = '/' || isReSpace c || c = '.'

/-- The replacer table of `NormalizeHeader`. -/
def headerReplacements : List (List Char × List Char) :=
  [("×".data, "X".data), ("Х".data, "X".data), ("х".data, "X".data), ("*".data, "X".data),
   ("ММ²".data, "MM2".data), ("КВ.ММ".data, "MM2".data), ("КВ ММ".data, "MM2".data),
   ("MM²".data, "MM2".data)]

/-- The replacer table of `NormalizeCode`. -/
def codeReplacements : List (List Char × List Char) :=
  [("×".data, "X".data), ("Х".data, "X".data), ("х".data, "X".data), ("*".data, "X".data)]

/-- Rune-level body of `NormalizeHeader`. -/
def normalizeHeaderRunes (input : List Char) : List Char :=
  let s := input.map toUpperRune
  let s := replaceRunes [("Ё".data, "Е".data)] 0 s
  let s := replaceRunes headerReplacements 0 s
  let s := s.map (fun c => if isQuote c then ' ' else c)
  let s := s.map (fun c => if isAllowed c then c else ' ')
  let s := collapseSpaces false s
  trimSpaceRunes s

/-- `NormalizeHeader` of `text.go`. -/
def NormalizeHeader (input : String) : String :=
  String.mk (normalizeHeaderRunes input.data)

/-- The runes `NormalizeCode` keeps. -/
def isCodeRune (r : Char) : Bool :=
  ('A' ≤ r && r ≤ 'Z') || ('А' ≤ r && r ≤ 'Я') || ('0' ≤ r && r ≤ '9')
    || r = '-' || r = '_' || r = '/' || r = '.'

/-- Rune-level body of `NormalizeCode`. -/
def normalizeCodeRunes (input : List Char) : List Char :=
  let s := input.map toUpperRune
  let s := replaceRunes codeReplacements 0 s
  let s := replaceRunes [(" ".data, [])] 0 s
  s.filter isCodeRune

/-- `NormalizeCode` of `text.go`. -/
def NormalizeCode (input : String) : String :=
  String.mk (normalizeCodeRunes input.data)

/-- Rune-level body of `Tokenize`, applied to the normalized header. -/
def tokenizeRunes (norm : List Char) : List (List Char) :=
  ((splitOnSpace norm).map trimSpaceRunes).filter (fun p => 2 ≤ p.length)

/-- `Tokenize` of `text.go`. -/
def Tokenize (input : String) : List String :=
  (tokenizeRunes (NormalizeHeader input).data).map String.mk

/-- `LooksLikeCode` of `text.go`; the length test is on bytes, as `len` is. -/
def LooksLikeCode (input : String) : Bool :=
  if byteLen (trimSpaceRunes input.data) < 3 then false
  else
    let hasLetter := input.data.any (fun r =>
      ('A' ≤ r && r ≤ 'Z') || ('a' ≤ r && r ≤ 'z') || ('А' ≤ r && r ≤ 'Я') || ('а' ≤ r && r ≤ 'я'))
    let hasDigit := input.data.any (fun r => '0' ≤ r && r ≤ '9')
    hasLetter && hasDigit

/-- The `pairs` closure of `DiceCoefficient`: the adjacent rune pairs. -/
def pairs (s : String) : List String :=
  let r := s.data
  if r.length < 2 then []
  else (List.zipWith (fun x y => String.mk [x, y]) r r.tail)

/-- Lookup `m[k]` in a Go map, with the zero value `dflt` for a missing key. -/
def mapGet {κ ν : Type} [DecidableEq κ] (dflt : ν) : List (κ × ν) → κ → ν
  | [], _ => dflt
  | (k1, v) :: m, k => if k1 = k then v else mapGet dflt m k

/-- Assignment `m[k] = v` in a Go map. -/
def mapSet {κ ν : Type} [DecidableEq κ] : List (κ × ν) → κ → ν → List (κ × ν)
  | [], k, v => [(k, v)]
  | (k1, v1) :: m, k, v => if k1 = k then (k1, v) :: m else (k1, v1) :: mapSet m k v

/-- Insertion `s[id] = struct{}{}` into a Go set `map[K]struct{}`, kept as the
list of its keys. -/
def setAdd {κ : Type} [DecidableEq κ] (s : List κ) (k : κ) : List κ :=
  if k ∈ s then s else s ++ [k]

/-- The counting loop of `DiceCoefficient`: for each pair of `a` that still
has a positive count, count it and decrement. -/
def diceInter : List String → List (String × Nat) → Nat → Nat
  | [], _, inter => inter
  | p :: ps, bCount, inter =>
    if mapGet 0 bCount p > 0 then diceInter ps (mapSet bCount p (mapGet 0 bCount p - 1)) (inter + 1)
    else diceInter ps bCount inter

/-- `DiceCoefficient` of `text.go`; the two conversions `float64(...)` and the
division round to float64. -/
def DiceCoefficient (a b : String) : ℚ :=
  if a = "" ∨ b = "" then 0
  else if a = b then 1
  else
    let aPairs := pairs a
    let bPairs := pairs b
    if aPairs.length = 0 ∨ bPairs.length = 0 then 0
    else
      let bCount := bPairs.foldl (fun m p => mapSet m p (mapGet 0 m p + 1)) []
      let inter := diceInter aPairs bCount 0
      roundFloat64 (roundFloat64 ((2 * inter : Nat) : ℚ) /
        roundFloat64 ((aPairs.length + bPairs.length : Nat) : ℚ))

/-- Test `_, ok := m[k]` on a Go map. -/
def mapHas {κ ν : Type} [DecidableEq κ] (m : List (κ × ν)) (k : κ) : Bool :=
  m.any (fun e => e.1 = k)

/-- An order in which `range` visits the keys of a Go map: any rearrangement
of the keys. -/
structure RangeOrder where
  run : List Int → List Int
  perm : ∀ keys, (run keys).Perm keys

/-- The visiting order that follows the stored order of the keys. -/
def RangeOrder.stored : RangeOrder := ⟨fun keys => keys, fun _ => List.Perm.refl _⟩

/-- The visiting order that goes from the largest key to the smallest. -/
def RangeOrder.descending : RangeOrder :=
  ⟨fun keys => keys.insertionSort (fun a b => a ≥ b), fun keys => List.perm_insertionSort _ keys⟩

/-! ## `internal/types.go` -/

inductive MatchStatus where
  | MatchOK
  | MatchReview
  | MatchNotFound
  deriving DecidableEq, Repr

inductive MatchReason where
  | ReasonCode
  | ReasonHeader
  | ReasonFuzzy
  | ReasonNone
  deriving DecidableEq, Repr

open MatchStatus MatchReason

structure ProductFlatCodes where
  Elcom : Option String
  Manufacturer : Option String
  Raec : Option String
  PC : Option String
  Etm : Option String
  deriving DecidableEq, Repr

structure ProductRecord where
  ID : Int
  SyncUID : Option String
  Header : String
  Articul : Option String
  UnitHeader : Option String
  ManufacturerHeader : Option String
  MultiplicityOrder : Option ℚ
  AnalogCodes : List String
  FlatCodes : ProductFlatCodes
  UpdatedAt : Option String
  RawJSON : String
  deriving DecidableEq, Repr

/-- The zero value of `ProductRecord`, what a Go map returns for a missing key. -/
def ProductRecord.zero : ProductRecord :=
  { ID := 0, SyncUID := none, Header := "", Articul := none, UnitHeader := none,
    ManufacturerHeader := none, MultiplicityOrder := none, AnalogCodes := [],
    FlatCodes := ⟨none, none, none, none, none⟩, UpdatedAt := none, RawJSON := "" }

/-- `ExtractionItem` of `types.go`, without its free-form `Meta` map, which the
matcher never reads. -/
structure ExtractionItem where
  LineNo : Int
  Source : String
  RawLine : String
  NameOrCode : Option String
  Qty : Option ℚ
  Unit : Option String
  deriving DecidableEq, Repr

structure MatchCandidate where
  ID : Int
  SyncUID : Option String
  Header : String
  Score : ℚ
  deriving DecidableEq, Repr

structure MatchProduct where
  ID : Option Int
  SyncUID : Option String
  Header : Option String
  Articul : Option String
  UnitHeader : Option String
  FlatCodes : ProductFlatCodes
  deriving DecidableEq, Repr

structure MatchResult where
  Status : MatchStatus
  Confidence : ℚ
  Reason : MatchReason
  Product : Option MatchProduct
  Candidates : List MatchCandidate
  deriving DecidableEq, Repr

/-! ## `internal/config/config.go` -/

/-- The three matching thresholds of `Config`; its other fields (paths,
credentials, listener settings) play no part in matching. -/
structure Config where
  MatchOKThreshold : ℚ
  MatchReviewThreshold : ℚ
  MatchGapThreshold : ℚ
  deriving DecidableEq, Repr

/-- The thresholds `Load` uses when the environment sets none: the float64
nearest to `0.90`, `0.72` and `0.08`. -/
def Config.defaults : Config := ⟨roundFloat64 0.90, roundFloat64 0.72, roundFloat64 0.08⟩

/-! ## `internal/catalog/index.go` -/

structure Index where
  ProductsByID : List (Int × ProductRecord)
  ByCode : List (String × List ProductRecord)
  ByHeader : List (String × List ProductRecord)
  TokenToProductIDs : List (String × List Int)
  NormalizedHeaderByID : List (Int × String)
  deriving DecidableEq, Repr

/-- The closure `addCode` of `BuildIndex`, acting on the code map. -/
def addCode (p : ProductRecord) (byCode : List (String × List ProductRecord))
    (code : Option String) : List (String × List ProductRecord) :=
  match code with
  | none => byCode
  | some c =>
    let norm := NormalizeCode c
    if norm = "" then byCode
    else mapSet byCode norm (mapGet [] byCode norm ++ [p])

/-- The code fields of a product in the order `BuildIndex` adds them. -/
def codeFields (p : ProductRecord) : List (Option String) :=
  [p.Articul, p.SyncUID, p.FlatCodes.Elcom, p.FlatCodes.Manufacturer, p.FlatCodes.Raec,
   p.FlatCodes.PC, p.FlatCodes.Etm] ++ p.AnalogCodes.map some

/-- The token loop of `BuildIndex` for one product. -/
def addTokens (p : ProductRecord) (tokenToProductIDs : List (String × List Int)) :
    List (String × List Int) :=
  (Tokenize p.Header).foldl (fun t token =>
    let t := if mapHas t token then t else mapSet t token []
    mapSet t token (setAdd (mapGet [] t token) p.ID)) tokenToProductIDs

/-- One iteration of the product loop of `BuildIndex`. -/
def indexProduct (idx : Index) (p : ProductRecord) : Index :=
  let normHeader := NormalizeHeader p.Header
  { ProductsByID := mapSet idx.ProductsByID p.ID p
    NormalizedHeaderByID := mapSet idx.NormalizedHeaderByID p.ID normHeader
    ByHeader := mapSet idx.ByHeader normHeader (mapGet [] idx.ByHeader normHeader ++ [p])
    ByCode := (codeFields p).foldl (addCode p) idx.ByCode
    TokenToProductIDs := addTokens p idx.TokenToProductIDs }

/-- `BuildIndex` of `index.go`. -/
def BuildIndex (products : List ProductRecord) : Index :=
  products.foldl indexProduct ⟨[], [], [], [], []⟩

/-! ## `internal/pipeline/normalize.go` and `match.go` -/

structure NormalizedItem extends ExtractionItem where
  NormalizedNameOrCode : String
  deriving DecidableEq, Repr

structure Matcher where
  cfg : Config
  index : Index

/-- `NewMatcher` of `match.go`. -/
def NewMatcher (cfg : Config) (products : List ProductRecord) : Matcher :=
  ⟨cfg, BuildIndex products⟩

/-- `scoreHeader` of `match.go`. The constants `0.65` and `0.35` are the
float64 nearest to these decimals, and the conversions, the division, the two
products and the sum are each rounded to float64, one operation at a time (no
fused multiply-add, as the compiler emits on amd64). -/
def scoreHeader (query candidate : String) (queryTokens candidateTokens : List String) : ℚ :=
  let dice := DiceCoefficient query candidate
  if queryTokens.length = 0 ∨ candidateTokens.length = 0 then dice
  else
    let set := candidateTokens.foldl setAdd []
    let overlap := (queryTokens.filter (fun t => t ∈ set)).length
    let tokenScore :=
      roundFloat64 (roundFloat64 (overlap : ℚ) / roundFloat64 (queryTokens.length : ℚ))
    roundFloat64 (roundFloat64 (roundFloat64 0.65 * dice) +
      roundFloat64 (roundFloat64 0.35 * tokenScore))

/-- `toMatchProduct` of `match.go`. -/
def toMatchProduct (p : ProductRecord) : MatchProduct :=
  { ID := some p.ID, SyncUID := p.SyncUID, Header := some p.Header, Articul := p.Articul,
    UnitHeader := p.UnitHeader, FlatCodes := p.FlatCodes }

/-- `toCandidates` of `match.go`. -/
def toCandidates (products : List ProductRecord) (score : ℚ) : List MatchCandidate :=
  let limit := if products.length > 5 then 5 else products.length
  (products.take limit).map (fun p => ⟨p.ID, p.SyncUID, p.Header, score⟩)

/-- The call `sort.Slice(out, func(i, j) { return out[i].Score > out[j].Score })`:
the insertion sort that `sort.Slice` runs on slices of up to 12 elements, which
leaves candidates of equal score in their incoming order. -/
def sortByScore (out : List MatchCandidate) : List MatchCandidate :=
  out.insertionSort (fun a b => a.Score ≥ b.Score)

/-- The candidate identifiers collected by `rankCandidates`: the union of the
postings of the query tokens or, when that is empty, the first 1500 keys that
the range over `ProductsByID` visits. -/
def Matcher.candidateIDs (m : Matcher) (ord : RangeOrder) (queryTokens : List String) : List Int :=
  let ids := queryTokens.foldl (fun ids token =>
    (ord.run (mapGet [] m.index.TokenToProductIDs token)).foldl setAdd ids) []
  if ids.length = 0 then
    ((ord.run (m.index.ProductsByID.map Prod.fst)).take 1500).foldl setAdd ids
  else ids

/-- `Matcher.rankCandidates` of `match.go`. -/
def Matcher.rankCandidates (m : Matcher) (ord : RangeOrder) (query : String) :
    List MatchCandidate :=
  let queryTokens := Tokenize query
  let ids := m.candidateIDs ord queryTokens
  let out := (ord.run ids).map (fun id =>
    let product := mapGet ProductRecord.zero m.index.ProductsByID id
    let candidateHeader := mapGet "" m.index.NormalizedHeaderByID id
    let score := scoreHeader query candidateHeader queryTokens (Tokenize candidateHeader)
    (⟨product.ID, product.SyncUID, product.Header, score⟩ : MatchCandidate))
  let out := sortByScore out
  if out.length > 5 then out.take 5 else out

/-- `Matcher.adjustForInvalidQty` of `match.go`. -/
def Matcher.adjustForInvalidQty (_m : Matcher) (item : NormalizedItem) (base : MatchResult) :
    MatchResult :=
  match item.Qty with
  | some q =>
    if q > 0 then base
    else { base with Status := MatchReview,
                     Confidence := if base.Confidence > 0.7 then 0.7 else base.Confidence }
  | none => { base with Status := MatchReview,
                        Confidence := if base.Confidence > 0.7 then 0.7 else base.Confidence }

/-- The query string `normalized` computed at the start of `Match`. -/
def normalizedQuery (item : NormalizedItem) : String :=
  if item.NormalizedNameOrCode = "" then NormalizeHeader item.RawLine
  else item.NormalizedNameOrCode

/-- The code tier of `Match` (lines 33-54): `none` when control falls through
to the header tier. -/
def Matcher.codeTier (m : Matcher) (item : NormalizedItem) : Option MatchResult :=
  let nameOrCode := item.NameOrCode.getD ""
  let codeCandidate := NormalizeCode nameOrCode
  if LooksLikeCode nameOrCode ∧ codeCandidate ≠ "" then
    match mapGet [] m.index.ByCode codeCandidate with
    | [] => none
    | [p] =>
      some (m.adjustForInvalidQty item
        { Status := MatchOK, Confidence := 0.99, Reason := ReasonCode,
          Product := some (toMatchProduct p),
          Candidates := [⟨p.ID, p.SyncUID, p.Header, 0.99⟩] })
    | p :: q :: rest =>
      some { Status := MatchReview, Confidence := 0.80, Reason := ReasonCode, Product := none,
             Candidates := toCandidates (p :: q :: rest) 0.80 }
  else none

/-- The header tier of `Match` (lines 56-75): `none` when control falls through
to the ranker. -/
def Matcher.headerTier (m : Matcher) (item : NormalizedItem) : Option MatchResult :=
  match mapGet [] m.index.ByHeader (normalizedQuery item) with
  | [] => none
  | [p] =>
    some (m.adjustForInvalidQty item
      { Status := MatchOK, Confidence := 0.95, Reason := ReasonHeader,
        Product := some (toMatchProduct p),
        Candidates := [⟨p.ID, p.SyncUID, p.Header, 0.95⟩] })
  | p :: q :: rest =>
    some { Status := MatchReview, Confidence := 0.78, Reason := ReasonHeader, Product := none,
           Candidates := toCandidates (p :: q :: rest) 0.78 }

/-- The fuzzy tier of `Match` (lines 77-98). -/
def Matcher.fuzzyTier (m : Matcher) (ord : RangeOrder) (item : NormalizedItem) : MatchResult :=
  match m.rankCandidates ord (normalizedQuery item) with
  | [] => { Status := MatchNotFound, Confidence := 0, Reason := ReasonNone, Product := none,
            Candidates := [] }
  | top1 :: rest =>
    let gap := match rest with
      | [] => top1.Score
      | second :: _ => roundFloat64 (top1.Score - second.Score)
    let best := mapGet ProductRecord.zero m.index.ProductsByID top1.ID
    let result : MatchResult :=
      if top1.Score ≥ m.cfg.MatchOKThreshold ∧ gap ≥ m.cfg.MatchGapThreshold then
        { Status := MatchOK, Confidence := top1.Score, Reason := ReasonFuzzy,
          Product := some (toMatchProduct best), Candidates := top1 :: rest }
      else if top1.Score ≥ m.cfg.MatchReviewThreshold then
        { Status := MatchReview, Confidence := top1.Score, Reason := ReasonFuzzy,
          Product := some (toMatchProduct best), Candidates := top1 :: rest }
      else
        { Status := MatchNotFound, Confidence := top1.Score, Reason := ReasonNone,
          Product := none, Candidates := top1 :: rest }
    m.adjustForInvalidQty item result

/-- `Matcher.Match` of `match.go`. -/
def Matcher.Match (m : Matcher) (ord : RangeOrder) (item : NormalizedItem) : MatchResult :=
  match m.codeTier item with
  | some r => r
  | none =>
    match m.headerTier item with
    | some r => r
    | none => m.fuzzyTier ord item

/-! ## Vocabulary for the properties

Names for parts of `Match` and `BuildIndex` that the statements below refer to. -/

/-- The single candidate attached to a unique code or header hit. -/
def hitCandidate (p : ProductRecord) (score : ℚ) : MatchCandidate :=
  ⟨p.ID, p.SyncUID, p.Header, score⟩

/-- The score margin `gap` of the fuzzy tier: the lead of the best candidate
over the second one, a float64 subtraction, or the best score when there is no
second one. -/
def fuzzyGap (top1 : MatchCandidate) (rest : List MatchCandidate) : ℚ :=
  match rest with
  | [] => top1.Score
  | second :: _ => roundFloat64 (top1.Score - second.Score)

/-- The result built by the fuzzy tier before the quantity override. -/
def fuzzyResult (m : Matcher) (top1 : MatchCandidate) (rest : List MatchCandidate) : MatchResult :=
  let gap := fuzzyGap top1 rest
  let best := mapGet ProductRecord.zero m.index.ProductsByID top1.ID
  if top1.Score ≥ m.cfg.MatchOKThreshold ∧ gap ≥ m.cfg.MatchGapThreshold then
    { Status := MatchOK, Confidence := top1.Score, Reason := ReasonFuzzy,
      Product := some (toMatchProduct best), Candidates := top1 :: rest }
  else if top1.Score ≥ m.cfg.MatchReviewThreshold then
    { Status := MatchReview, Confidence := top1.Score, Reason := ReasonFuzzy,
      Product := some (toMatchProduct best), Candidates := top1 :: rest }
  else
    { Status := MatchNotFound, Confidence := top1.Score, Reason := ReasonNone,
      Product := none, Candidates := top1 :: rest }

/-- The hits of the code tier: the entry of the code map under the normalized
name-or-code when that looks like a code, and nothing otherwise. -/
def Matcher.codeHits (m : Matcher) (item : NormalizedItem) : List ProductRecord :=
  if LooksLikeCode (item.NameOrCode.getD "") ∧ NormalizeCode (item.NameOrCode.getD "") ≠ "" then
    mapGet [] m.index.ByCode (NormalizeCode (item.NameOrCode.getD ""))
  else []

/-- The hits of the header tier: the entry of the header map under the query. -/
def Matcher.headerHits (m : Matcher) (item : NormalizedItem) : List ProductRecord :=
  mapGet [] m.index.ByHeader (normalizedQuery item)

/-- The copies of `p` that `BuildIndex` files under the key `k`: one for each
code field of `p` whose normalized code is `k`. -/
def codeEntries (p : ProductRecord) (k : String) : List ProductRecord :=
  ((codeFields p).filter (fun c => c.map NormalizeCode = some k)).map (fun _ => p)

/-- Number of code fields of `p` (articul, sync identifier, flat codes, analog
codes) whose normalized code is `k`. -/
def codeFieldCount (p : ProductRecord) (k : String) : Nat :=
  ((codeFields p).filter (fun c => c.map NormalizeCode = some k)).length

/-- The identifiers gathered from the postings of the query tokens. -/
def Matcher.postedIDs (m : Matcher) (ord : RangeOrder) (queryTokens : List String)
    (init : List Int) : List Int :=
  queryTokens.foldl (fun ids token =>
    (ord.run (mapGet [] m.index.TokenToProductIDs token)).foldl setAdd ids) init

/-- The candidate that `rankCandidates` builds for an identifier. -/
def Matcher.candidateOf (m : Matcher) (query : String) (id : Int) : MatchCandidate :=
  let product := mapGet ProductRecord.zero m.index.ProductsByID id
  let candidateHeader := mapGet "" m.index.NormalizedHeaderByID id
  let score := scoreHeader query candidateHeader (Tokenize query) (Tokenize candidateHeader)
  ⟨product.ID, product.SyncUID, product.Header, score⟩

instance scoreGe_total : IsTotal MatchCandidate (fun a b => a.Score ≥ b.Score) :=
  ⟨fun a b => le_total b.Score a.Score⟩

instance scoreGe_trans : IsTrans MatchCandidate (fun a b => a.Score ≥ b.Score) :=
  ⟨fun _ _ _ hab hbc => le_trans hbc hab⟩

/-! ## Sample catalogs and items -/

/-- A product with the given identifier, header and articul, and no other data. -/
def sampleProduct (id : Int) (header : String) (articul : Option String) : ProductRecord :=
  { ProductRecord.zero with ID := id, Header := header, Articul := articul }

/-- An item extracted from a text line, with its name-or-code normalized as
`NormalizeItems` does. -/
def sampleItem (nameOrCode : String) (qty : Option ℚ) : NormalizedItem :=
  { LineNo := 1, Source := "email_text", RawLine := nameOrCode, NameOrCode := some nameOrCode,
    Qty := qty, Unit := none, NormalizedNameOrCode := NormalizeHeader nameOrCode }

/-- An item whose text is a product name, with no explicit name-or-code. -/
def lineItem (rawLine : String) (qty : Option ℚ) : NormalizedItem :=
  { LineNo := 1, Source := "email_text", RawLine := rawLine, NameOrCode := none,
    Qty := qty, Unit := none, NormalizedNameOrCode := NormalizeHeader rawLine }

/-- Two products with distinct articuls and distinct headers. -/
def cableCatalog : List ProductRecord :=
  [sampleProduct 1 "Кабель ВВГнг 3x2.5" (some "ELC0100203802"),
   sampleProduct 2 "Кабель ВВГнг 3x4" (some "ELC0100203803")]

/-- Two products whose articuls have the same normalized code `ELC100`. -/
def ambiguousCatalog : List ProductRecord :=
  [sampleProduct 1 "Кабель ВВГнг 3x2.5" (some "ELC100"),
   sampleProduct 2 "Кабель ВВГнг 3x4" (some "elc 100")]

/-- A catalog whose two headers score 0.91 and 0.80 against `fuzzyQuery`
(the float64 values nearest to these decimals). -/
def fuzzyCatalogClear : List ProductRecord :=
  [sampleProduct 1 "БЕЛЫЙ АВВГ ГОСТ ЭКРАН КРУГЛЫЙ КАБЕЛЬ" none,
   sampleProduct 2 "БЕЛЫЙ КРУГЛЫЙ ПВС ЭКРАН КАБЕЛЬ БЕЛЫЙ" none]

/-- A catalog whose two headers score 0.91 and 0.85 against `fuzzyQuery`
(the float64 values nearest to these decimals). -/
def fuzzyCatalogClose : List ProductRecord :=
  [sampleProduct 1 "БЕЛЫЙ АВВГ ГОСТ ЭКРАН КРУГЛЫЙ КАБЕЛЬ" none,
   sampleProduct 3 "КАБЕЛЬ АВВГ БЕЛЫЙ КРУГЛЫЙ ШВВП ЭКРАН ВВГ КГ БЕЛЫЙ" none]

/-- A query that matches no header of the two fuzzy catalogs exactly. -/
def fuzzyQuery : NormalizedItem := lineItem "КАБЕЛЬ КРУГЛЫЙ ЭКРАН БЕЛЫЙ АВВГ" (some 3)

/-- Two products whose headers score the same against the query `Кабель ВВГ`. -/
def tiedCatalog : List ProductRecord :=
  [sampleProduct 1 "Кабель ВВГ 3x1.5" none, sampleProduct 2 "Кабель ВВГ 3x2.5" none]

/-- A product whose header differs from `thresholdQuery` in its last rune. -/
def thresholdCatalog : List ProductRecord :=
  [sampleProduct 1 "ABCDEFGHIJKL MNOPQRSTUVWX YZABCDEFGHIJ KLMNOPQRSTUVWY" none]

/-- A query of 53 runes and four tokens. -/
def thresholdQuery : NormalizedItem :=
  lineItem "ABCDEFGHIJKL MNOPQRSTUVWX YZABCDEFGHIJ KLMNOPQRSTUVWX" (some 1)

/-! ## Vocabulary of the Dice coefficient -/

/-- The adjacent rune pairs of a rune sequence, as the specification describes
them: one pair for each position but the last. -/
def bigramsOfRunes : List Char → List String
  | x :: y :: rest => String.mk [x, y] :: bigramsOfRunes (y :: rest)
  | _ => []

/-- The list `bigrams(s)` of the specification. -/
def bigrams (s : String) : List String := bigramsOfRunes s.data

/-- The size of the multiset intersection of two lists as the specification
describes it: for each distinct element, the minimum of its two occurrence
counts, summed. -/
def bagIntersectionSize (xs ys : List String) : Nat :=
  (((xs ++ ys).dedup).map (fun p => min (xs.count p) (ys.count p))).sum

/-- The map `bCount` of `DiceCoefficient` after its first loop. -/
def countPairs (bPairs : List String) (m0 : List (String × Nat)) : List (String × Nat) :=
  bPairs.foldl (fun m p => mapSet m p (mapGet 0 m p + 1)) m0

/-! ## Go's `regexp`, as far as `qty.go` uses it -/

/-- Lower-casing of one rune, `unicode.ToLower`, on the Latin and Cyrillic
capitals and on the Kelvin sign; every other rune is returned unchanged. -/
def toLowerRune (c : Char) : Char :=
  if 'A' ≤ c ∧ c ≤ 'Z' then Char.ofNat (c.toNat + 32)
  else if 'А' ≤ c ∧ c ≤ 'Я' then Char.ofNat (c.toNat + 32)
  else if 'Ѐ' ≤ c ∧ c ≤ 'Џ' then Char.ofNat (c.toNat + 80)
  else if c = Char.ofNat 0x212A then 'k'
  else c

/-- Regular expressions: the constructs of Go's `regexp` syntax that the
patterns of `qty.go` are made of. -/
inductive Re where
  | empty : Re
  | bol : Re
  | eol : Re
  | rune (p : Char → Bool) : Re
  | seq (a b : Re) : Re
  | alt (a b : Re) : Re
  | star (a : Re) : Re
  | group (i : Nat) (a : Re) : Re

/-- State of a match attempt: whether the position is the start of the text,
the text still to read, and the text of the capture groups closed so far. -/
structure ReState where
  atStart : Bool
  rest : List Char
  caps : List (Nat × List Char)
  deriving DecidableEq, Repr

/-- Greedy iteration of `a*`: one more round of the body first, the exit
second; a round that reads nothing is not repeated. -/
def starLoop (body : ReState → (ReState → Option ReState) → Option ReState) :
    Nat → ReState → (ReState → Option ReState) → Option ReState
  | 0, s, k => k s
  | fuel + 1, s, k =>
    match body s (fun s1 =>
        if s1.rest.length < s.rest.length then starLoop body fuel s1 k else none) with
    | some r => some r
    | none => k s

/-- Backtracking match of a regular expression from a state, with the rest of
the pattern as continuation: alternatives are tried left to right and the
first success is returned, which is the match Go's `regexp` reports
(leftmost-first). -/
def matchRe : Re → ReState → (ReState → Option ReState) → Option ReState
  | .empty, s, k => k s
  | .bol, s, k => if s.atStart then k s else none
  | .eol, s, k => if s.rest = [] then k s else none
  | .rune p, s, k =>
    match s.rest with
    | [] => none
    | c :: t => if p c then k { s with atStart := false, rest := t } else none
  | .seq a b, s, k => matchRe a s (fun s1 => matchRe b s1 k)
  | .alt a b, s, k =>
    match matchRe a s k with
    | some r => some r
    | none => matchRe b s k
  | .star a, s, k => starLoop (matchRe a) s.rest.length s k
  | .group i a, s, k =>
    matchRe a s (fun s1 =>
      k { s1 with caps := mapSet s1.caps i (s.rest.take (s.rest.length - s1.rest.length)) })

/-- One match attempt of a pattern at the current position. -/
def matchHere (re : Re) (atStart : Bool) (text : List Char) : Option ReState :=
  matchRe re ⟨atStart, text, []⟩ (fun s => some s)

/-- `FindAllStringSubmatch(text, -1)`: the capture groups of the successive
non-overlapping matches, found left to right. The first argument counts the
runes of the last match still to be passed over. -/
def findAllSubmatch (re : Re) : Nat → Bool → List Char → List (List (Nat × List Char))
  | _, atStart, [] =>
    match matchHere re atStart [] with
    | some r => [r.caps]
    | none => []
  | skip + 1, _, _ :: t => findAllSubmatch re skip false t
  | 0, atStart, c :: t =>
    match matchHere re atStart (c :: t) with
    | some r => r.caps :: findAllSubmatch re ((c :: t).length - r.rest.length - 1) false t
    | none => findAllSubmatch re 0 false t

/-- `FindStringSubmatch(text)`: the capture groups of the leftmost match. -/
def findSubmatch (re : Re) : Bool → List Char → Option (List (Nat × List Char))
  | atStart, [] => (matchHere re atStart []).map (fun r => r.caps)
  | atStart, c :: t =>
    match matchHere re atStart (c :: t) with
    | some r => some r.caps
    | none => findSubmatch re false t

/-- `MatchString(text)`. -/
def matchString (re : Re) (text : List Char) : Bool := (findSubmatch re true text).isSome

/-- The pattern `a+`. -/
def Re.plus (a : Re) : Re := .seq a (.star a)

/-- The pattern `a?`. -/
def Re.opt (a : Re) : Re := .alt a .empty

/-- The runes a letter of a case-insensitive pattern matches: the letter, its
capital, and the other members of its Unicode case orbit. -/
def foldOrbit (p : Char) : List Char :=
  if p = 'k' then ['k', 'K', Char.ofNat 0x212A]
  else if p = 's' then ['s', 'S', Char.ofNat 0x17F]
  else if p = 'т' then ['т', 'Т', Char.ofNat 0x1C84, Char.ofNat 0x1C85]
  else if p = 'о' then ['о', 'О', Char.ofNat 0x1C82]
  else [p, toUpperRune p]

/-- A literal of a pattern compiled with the flag `(?i)`. -/
def Re.foldLit : List Char → Re
  | [] => .empty
  | [p] => .rune (fun c => c ∈ foldOrbit p)
  | p :: ps => .seq (.rune (fun c => c ∈ foldOrbit p)) (Re.foldLit ps)

/-! ## `internal/util/qty.go` -/

/-- The class `\d`. -/
def isDigitRune (c : Char) : Bool := '0' ≤ c && c ≤ '9'

/-- The class `[\s.,]`. -/
def isGroupSep (c : Char) : Bool := isReSpace c || c = '.' || c = ','

/-- The class `[.,]`. -/
def isDecimalSep (c : Char) : Bool := c = '.' || c = ','

/-- The class `[^0-9.,]`. -/
def isNotNumeric (c : Char) : Bool := !(isDigitRune c || c = '.' || c = ',')

/-- The pattern `\d`. -/
def reDigit : Re := .rune isDigitRune

/-- The pattern `\d{1,3}`. -/
def reDigits1to3 : Re := .seq reDigit (Re.opt (.seq reDigit (Re.opt reDigit)))

/-- The pattern `\d{1,3}(?:S\d{3})+` for a separator class `S`. -/
def reGrouped (sep : Char → Bool) : Re :=
  .seq reDigits1to3 (Re.plus (.seq (.rune sep) (.seq reDigit (.seq reDigit reDigit))))

/-- The number pattern `\d{1,3}(?:[\s.,]\d{3})+|\d+(?:[.,]\d+)?`. -/
def reNumber : Re :=
  .alt (reGrouped isGroupSep)
    (.seq (Re.plus reDigit) (Re.opt (.seq (.rune isDecimalSep) (Re.plus reDigit))))

/-- The unit pattern `шт|штук|pcs|pc|м\.?|метр|kg|кг|уп\.?|компл\.?`. -/
def reUnit : Re :=
  .alt (Re.foldLit "шт".data) (.alt (Re.foldLit "штук".data) (.alt (Re.foldLit "pcs".data)
  (.alt (Re.foldLit "pc".data) (.alt (.seq (Re.foldLit "м".data) (Re.opt (.rune (fun c => c = '.'))))
  (.alt (Re.foldLit "метр".data) (.alt (Re.foldLit "kg".data) (.alt (Re.foldLit "кг".data)
  (.alt (.seq (Re.foldLit "уп".data) (Re.opt (.rune (fun c => c = '.'))))
    (.seq (Re.foldLit "компл".data) (Re.opt (.rune (fun c => c = '.'))))))))))))

/-- The guard `(?:^|[^0-9.,])` in front of a number. -/
def reNumberGuard : Re := .alt .bol (.rune isNotNumeric)

/-- `unitPattern` of `qty.go`. -/
def unitPattern : Re := .group 1 reUnit

/-- `numberPattern` of `qty.go`. -/
def numberPattern : Re := .seq reNumberGuard (.group 1 reNumber)

/-- The pattern `withUnit` of `ParseQty`. -/
def withUnit : Re :=
  .seq reNumberGuard (.seq (.group 1 reNumber) (.seq (.star (.rune isReSpace)) (.group 2 reUnit)))

structure ParsedQty where
  Qty : Option ℚ
  Unit : Option String
  QtyRaw : Option String
  deriving DecidableEq, Repr

/-- `normalizeUnit` of `qty.go`. -/
def normalizeUnit (unit : String) : String :=
  let u := String.mk ((trimSpaceRunes unit.data).map toLowerRune)
  if u = "шт" ∨ u = "штук" ∨ u = "pcs" ∨ u = "pc" then "шт"
  else if u = "м" ∨ u = "м." ∨ u = "метр" then "м"
  else if u = "kg" ∨ u = "кг" then "кг"
  else if u = "уп" ∨ u = "уп." then "уп"
  else u

/-- `normalizeNumericToken` of `qty.go`. -/
def normalizeNumericToken (token : List Char) : List Char :=
  let compact := replaceRunes [(" ".data, [])] 0 token
  if matchString (.seq .bol (.seq (reGrouped (fun c => c = '.')) .eol)) compact then
    replaceRunes [(".".data, [])] 0 compact
  else if matchString (.seq .bol (.seq (reGrouped (fun c => c = ',')) .eol)) compact then
    replaceRunes [(",".data, [])] 0 compact
  else if ',' ∈ compact ∧ '.' ∉ compact then
    replaceRunes [(",".data, ".".data)] 0 compact
  else compact

/-- Value of a run of decimal digits. -/
def digitsValue (ds : List Char) : Nat :=
  ds.foldl (fun n d => 10 * n + (d.toNat - '0'.toNat)) 0

/-- `strconv.ParseFloat(s, 64)` on the strings a numeric token can spell: an
unsigned decimal numeral, digits with at most one dot, is read as the float64
nearest to its value, and is an error (`ErrRange`) when that lies beyond the
largest float64; every other such string (a comma, a second dot, a blank
inside) is an error. -/
def parseFloat (s : List Char) : Option ℚ :=
  let ip := s.takeWhile isDigitRune
  let after := s.dropWhile isDigitRune
  match after with
  | [] => if ip = [] then none else roundToFloat64 (digitsValue ip : ℚ)
  | c :: fp =>
    if c = '.' ∧ fp.all isDigitRune ∧ (ip ≠ [] ∨ fp ≠ []) then
      roundToFloat64 ((digitsValue ip : ℚ) + (digitsValue fp : ℚ) / (10 : ℚ) ^ fp.length)
    else none

/-- Text of capture group `i` of a match (empty when the group took no part). -/
def capture (m : List (Nat × List Char)) (i : Nat) : List Char := mapGet [] m i

/-- `ParseQty` of `qty.go`. -/
def ParseQty (input : String) : ParsedQty :=
  let line := replaceRunes [([Char.ofNat 0xA0], " ".data)] 0 input.data
  let wm := findAllSubmatch withUnit 0 true line
  let found : List Char × List Char :=
    match wm.getLast? with
    | some last =>
      (trimSpaceRunes (capture last 1 ++ " ".data ++ capture last 2),
        trimSpaceRunes (capture last 1))
    | none =>
      match (findAllSubmatch numberPattern 0 true line).getLast? with
      | some last => (trimSpaceRunes (capture last 1), trimSpaceRunes (capture last 1))
      | none => ([], [])
  let qtyRaw := found.1
  let qtyToken := found.2
  let qtyPtr := if qtyToken ≠ [] then parseFloat (normalizeNumericToken qtyToken) else none
  let unitPtr := (findSubmatch unitPattern true line).map
    (fun um => normalizeUnit (String.mk (capture um 1)))
  let qtyRawPtr := if qtyRaw ≠ [] then some (String.mk qtyRaw) else none
  { Qty := qtyPtr, Unit := unitPtr, QtyRaw := qtyRawPtr }

/-! ## Vocabulary for the properties of `ParseQty` -/

/-- A way through a regular expression: `Steps re s s1` says that `re` can read
the text of state `s` up to state `s1`. -/
inductive Steps : Re → ReState → ReState → Prop where
  | empty (s : ReState) : Steps .empty s s
  | bol (s : ReState) (h : s.atStart = true) : Steps .bol s s
  | eol (s : ReState) (h : s.rest = []) : Steps .eol s s
  | rune (p : Char → Bool) (s : ReState) (c : Char) (t : List Char) (hs : s.rest = c :: t)
      (hp : p c = true) : Steps (.rune p) s { s with atStart := false, rest := t }
  | seq {a b : Re} {s s1 s2 : ReState} (h1 : Steps a s s1) (h2 : Steps b s1 s2) :
      Steps (.seq a b) s s2
  | altLeft {a b : Re} {s s1 : ReState} (h : Steps a s s1) : Steps (.alt a b) s s1
  | altRight {a b : Re} {s s1 : ReState} (h : Steps b s s1) : Steps (.alt a b) s s1
  | starDone {a : Re} (s : ReState) : Steps (.star a) s s
  | starMore {a : Re} {s s1 s2 : ReState} (h1 : Steps a s s1) (h2 : Steps (.star a) s1 s2) :
      Steps (.star a) s s2
  | group {i : Nat} {a : Re} {s s1 : ReState} (h : Steps a s s1) :
      Steps (.group i a) s
        { s1 with caps := mapSet s1.caps i (s.rest.take (s.rest.length - s1.rest.length)) }

/-- Every rune class of the pattern lies within `P`. -/
def Re.allRunes (P : Char → Prop) : Re → Prop
  | .empty => True
  | .bol => True
  | .eol => True
  | .rune p => ∀ c, p c = true → P c
  | .seq a b => Re.allRunes P a ∧ Re.allRunes P b
  | .alt a b => Re.allRunes P a ∧ Re.allRunes P b
  | .star a => Re.allRunes P a
  | .group _ a => Re.allRunes P a

/-- Every way through the pattern starts by reading a rune within `P`. -/
def Re.firstRune (P : Char → Prop) : Re → Prop
  | .empty => False
  | .bol => False
  | .eol => False
  | .rune p => ∀ c, p c = true → P c
  | .seq a _ => Re.firstRune P a
  | .alt a b => Re.firstRune P a ∧ Re.firstRune P b
  | .star _ => False
  | .group _ a => Re.firstRune P a

/-- The pattern has no capture group. -/
def Re.groupFree : Re → Prop
  | .empty => True
  | .bol => True
  | .eol => True
  | .rune _ => True
  | .seq a b => Re.groupFree a ∧ Re.groupFree b
  | .alt a b => Re.groupFree a ∧ Re.groupFree b
  | .star a => Re.groupFree a
  | .group _ _ => False

/-- A run of thousands groups: separator, three digits, and so on. -/
inductive GroupRun (sep : Char → Bool) : List Char → Prop where
  | nil : GroupRun sep []
  | cons (sp d1 d2 d3 : Char) (more : List Char) (hsp : sep sp = true)
      (h1 : isDigitRune d1 = true) (h2 : isDigitRune d2 = true) (h3 : isDigitRune d3 = true)
      (hmore : GroupRun sep more) : GroupRun sep (sp :: d1 :: d2 :: d3 :: more)

/-- The texts the number pattern can read: a thousands-grouped integer, or
digits with an optional decimal part. -/
inductive NumberText : List Char → Prop where
  | grouped (first : List Char) (sp d1 d2 d3 : Char) (more : List Char)
      (hne : first ≠ []) (hlen : first.length ≤ 3)
      (hfirst : ∀ c ∈ first, isDigitRune c = true) (hsp : isGroupSep sp = true)
      (h1 : isDigitRune d1 = true) (h2 : isDigitRune d2 = true) (h3 : isDigitRune d3 = true)
      (hmore : GroupRun isGroupSep more) :
      NumberText (first ++ sp :: d1 :: d2 :: d3 :: more)
  | whole (ip : List Char) (hne : ip ≠ []) (hip : ∀ c ∈ ip, isDigitRune c = true) :
      NumberText ip
  | decimal (ip : List Char) (sp : Char) (fp : List Char) (hne : ip ≠ [])
      (hip : ∀ c ∈ ip, isDigitRune c = true) (hsp : isDecimalSep sp = true)
      (hfne : fp ≠ []) (hfp : ∀ c ∈ fp, isDigitRune c = true) :
      NumberText (ip ++ sp :: fp)

/-- Every iteration of every star of the pattern reads at least one rune. -/
def Re.starsProgress : Re → Prop
  | .empty => True
  | .bol => True
  | .eol => True
  | .rune _ => True
  | .seq a b => Re.starsProgress a ∧ Re.starsProgress b
  | .alt a b => Re.starsProgress a ∧ Re.starsProgress b
  | .star a => Re.starsProgress a ∧ Re.firstRune (fun _ => True) a
  | .group _ a => Re.starsProgress a

/-- A text spells a pattern literal up to letter case. -/
def foldEq : List Char → List Char → Bool
  | [], [] => true
  | p :: ps, c :: cs => decide (c ∈ foldOrbit p) && foldEq ps cs
  | _, _ => false

/-- The unit tokens of `unitPattern`, the optional dots written out. -/
def unitSpellings : List (List Char) :=
  ["шт".data, "штук".data, "pcs".data, "pc".data, "м".data, "м.".data, "метр".data, "kg".data,
   "кг".data, "уп".data, "уп.".data, "компл".data, "компл.".data]

/-- The text is a recognised unit token, in any letter case. -/
def spellsUnit (u : List Char) : Bool := unitSpellings.any (fun pat => foldEq pat u)

/-- The letters that can occur in a unit token. -/
def unitLetters : List Char := "штукpcsмерkgгпол".data.flatMap foldOrbit

/-- The pattern `^X$`. -/
def Re.anchored (x : Re) : Re := .seq .bol (.seq x .eol)

/-! ## Sample catalogs for the index, the tiers and the ranker -/

/-- A product that carries the code `ABC123` and another one whose header is
that very text. -/
def codeAndHeaderCatalog : List ProductRecord :=
  [sampleProduct 1 "ABC123" none, sampleProduct 2 "Кабель ВВГнг 3x4" (some "abc 123")]

/-- A product whose header has single-rune words only, so that it yields no
token. -/
def tokenlessCatalog : List ProductRecord := [sampleProduct 1 "A B C" none]

/-- A product whose header is a dash, which `NormalizeHeader` blanks out. -/
def dashCatalog : List ProductRecord := [sampleProduct 1 "—" none]

/-- A product whose header is the area unit written with two spaces. -/
def areaUnitCatalog : List ProductRecord := [sampleProduct 1 "кв  мм" none]

/-- An uppercase Latin letter or a digit. -/
def isUpperLatinOrDigit (x : Char) : Bool := ('A' ≤ x && x ≤ 'Z') || ('0' ≤ x && x ≤ '9')

/-- `strings.LastIndex(s, sub)`: where the last occurrence of `sub` in `s`
starts, if there is one. -/
def lastIndexRunes (s sub : List Char) : Option Nat :=
  (List.range (s.length + 1)).reverse.find? (fun i => sub.isPrefixOf (s.drop i))

/-- The removal of the quantity from a line in `lineToExtractionItem`
(`extract.go`, lines 291 to 297), applied to a line whose whitespace is
already normalized: the last occurrence of the raw match is replaced by a
space, and the line is left as it is when the raw match does not occur. -/
def stripQtyRaw (compact : String) : String :=
  match (ParseQty compact).QtyRaw with
  | none => compact
  | some raw =>
    match lastIndexRunes compact.data raw.data with
    | none => compact
    | some idx =>
      String.mk (compact.data.take idx ++ " ".data ++ compact.data.drop (idx + raw.data.length))

/-! ## Vocabulary for the last number with a unit -/

/-- The line `ParseQty` works on: the input with every no-break space replaced
by a space (the local variable `line`). -/
def qtyLine (input : String) : List Char :=
  replaceRunes [([Char.ofNat 0xA0], " ".data)] 0 input.data

/-- The text starts with a unit token, in any letter case. -/
def startsWithUnit (t : List Char) : Bool :=
  unitSpellings.any (fun pat => foldEq pat (t.take pat.length))

/-- Some digit of the text is followed, after optional whitespace, by a unit
token: the text holds a number with a unit. -/
def hasUnitNumber : List Char → Bool
  | [] => false
  | d :: t => (isDigitRune d && startsWithUnit (t.dropWhile isReSpace)) || hasUnitNumber t

/-- The text ends in a digit and optional whitespace. -/
def endsInNumber (t : List Char) : Bool :=
  match t.reverse.dropWhile isReSpace with
  | d :: _ => isDigitRune d
  | [] => false

/-- The text ends in a digit, optional whitespace and a unit token: its last
rune closes the unit of a number. -/
def endsInUnitNumber (t : List Char) : Bool :=
  (List.range t.length).any (fun i => endsInNumber (t.take i) && spellsUnit (t.drop i))

/-- The text is a run of groups `[\s.,]\d{3}`. -/
def groupTail : List Char → Bool
  | [] => true
  | sp :: d1 :: d2 :: d3 :: rest =>
    isGroupSep sp && isDigitRune d1 && isDigitRune d2 && isDigitRune d3 && groupTail rest
  | _ => false

/-- The text is a thousands-grouped number `\d{1,3}(?:[\s.,]\d{3})+`. -/
def isGroupedNumber (t : List Char) : Bool :=
  decide (1 ≤ (t.takeWhile isDigitRune).length) && decide ((t.takeWhile isDigitRune).length ≤ 3)
    && !(t.dropWhile isDigitRune).isEmpty && groupTail (t.dropWhile isDigitRune)

/-- Scan of the text in front of a number `tok`; `ok` says whether a number
may start at the head of the text. -/
def joinsAux (tok : List Char) : Bool → List Char → Bool
  | _, [] => false
  | ok, c :: rest =>
    (ok && isGroupedNumber (c :: rest ++ tok)) || joinsAux tok (isNotNumeric c) rest

/-- The number `tok` behind the text `pre` is the end of a longer
thousands-grouped number: one that starts in `pre`, at the start of the line or
behind a rune other than a digit, dot or comma. -/
def joinsEarlierNumber (pre tok : List Char) : Bool := joinsAux tok true pre

/-! ## Properties of the quantity override -/

theorem adjust_of_pos (m : Matcher) (item : NormalizedItem) (base : MatchResult)
    (hq : ∃ q, item.Qty = some q ∧ 0 < q) : m.adjustForInvalidQty item base = base := by
  obtain ⟨q, hq, hpos⟩ := hq
  simp [Matcher.adjustForInvalidQty, hq, hpos]

theorem adjust_of_invalid (m : Matcher) (item : NormalizedItem) (base : MatchResult)
    (hq : item.Qty = none ∨ ∃ q, item.Qty = some q ∧ q ≤ 0) :
    m.adjustForInvalidQty item base =
      { base with Status := MatchReview,
                  Confidence := if base.Confidence > 0.7 then 0.7 else base.Confidence } := by
  rcases hq with hq | ⟨q, hq, hle⟩
  · simp [Matcher.adjustForInvalidQty, hq]
  · simp [Matcher.adjustForInvalidQty, hq, not_lt.mpr hle]

theorem adjust_confidence_le (m : Matcher) (item : NormalizedItem) (base : MatchResult)
    (hq : item.Qty = none ∨ ∃ q, item.Qty = some q ∧ q ≤ 0) :
    (m.adjustForInvalidQty item base).Confidence ≤ 0.7 := by
  rw [adjust_of_invalid m item base hq]
  show (if base.Confidence > 0.7 then (0.7 : ℚ) else base.Confidence) ≤ 0.7
  split
  · exact le_refl _
  · rename_i h
    exact not_lt.mp h

theorem fuzzyTier_nil (m : Matcher) (ord : RangeOrder) (item : NormalizedItem)
    (h : m.rankCandidates ord (normalizedQuery item) = []) :
    m.fuzzyTier ord item =
      { Status := MatchNotFound, Confidence := 0, Reason := ReasonNone, Product := none,
        Candidates := [] } := by
  simp [Matcher.fuzzyTier, h]

theorem fuzzyTier_cons (m : Matcher) (ord : RangeOrder) (item : NormalizedItem)
    (top1 : MatchCandidate) (rest : List MatchCandidate)
    (h : m.rankCandidates ord (normalizedQuery item) = top1 :: rest) :
    m.fuzzyTier ord item = m.adjustForInvalidQty item (fuzzyResult m top1 rest) := by
  simp only [Matcher.fuzzyTier, h, fuzzyResult, fuzzyGap]

theorem codeTier_eq (m : Matcher) (item : NormalizedItem) :
    m.codeTier item =
      match m.codeHits item with
      | [] => none
      | [p] => some (m.adjustForInvalidQty item
          { Status := MatchOK, Confidence := 0.99, Reason := ReasonCode,
            Product := some (toMatchProduct p), Candidates := [hitCandidate p 0.99] })
      | p :: q :: rest =>
        some { Status := MatchReview, Confidence := 0.80, Reason := ReasonCode, Product := none,
               Candidates := toCandidates (p :: q :: rest) 0.80 } := by
  unfold Matcher.codeTier Matcher.codeHits hitCandidate
  by_cases h : LooksLikeCode (item.NameOrCode.getD "") = true ∧
      NormalizeCode (item.NameOrCode.getD "") ≠ ""
  · simp only [h, and_self, if_true, ne_eq, not_false_eq_true]
  · simp only [h, if_false]

theorem headerTier_eq (m : Matcher) (item : NormalizedItem) :
    m.headerTier item =
      match m.headerHits item with
      | [] => none
      | [p] => some (m.adjustForInvalidQty item
          { Status := MatchOK, Confidence := 0.95, Reason := ReasonHeader,
            Product := some (toMatchProduct p), Candidates := [hitCandidate p 0.95] })
      | p :: q :: rest =>
        some { Status := MatchReview, Confidence := 0.78, Reason := ReasonHeader, Product := none,
               Candidates := toCandidates (p :: q :: rest) 0.78 } := by
  unfold Matcher.headerTier Matcher.headerHits hitCandidate
  rfl

/-- The result of `Match`, by the number of hits of each tier. -/
theorem match_eq (m : Matcher) (ord : RangeOrder) (item : NormalizedItem) :
    m.Match ord item =
      match m.codeHits item with
      | [p] => m.adjustForInvalidQty item
          { Status := MatchOK, Confidence := 0.99, Reason := ReasonCode,
            Product := some (toMatchProduct p), Candidates := [hitCandidate p 0.99] }
      | p :: q :: rest =>
        { Status := MatchReview, Confidence := 0.80, Reason := ReasonCode, Product := none,
          Candidates := toCandidates (p :: q :: rest) 0.80 }
      | [] =>
        match m.headerHits item with
        | [p] => m.adjustForInvalidQty item
            { Status := MatchOK, Confidence := 0.95, Reason := ReasonHeader,
              Product := some (toMatchProduct p), Candidates := [hitCandidate p 0.95] }
        | p :: q :: rest =>
          { Status := MatchReview, Confidence := 0.78, Reason := ReasonHeader, Product := none,
            Candidates := toCandidates (p :: q :: rest) 0.78 }
        | [] =>
          match m.rankCandidates ord (normalizedQuery item) with
          | [] => { Status := MatchNotFound, Confidence := 0, Reason := ReasonNone,
                    Product := none, Candidates := [] }
          | top1 :: rest => m.adjustForInvalidQty item (fuzzyResult m top1 rest) := by
  unfold Matcher.Match
  rw [codeTier_eq, headerTier_eq]
  rcases hc : m.codeHits item with _ | ⟨p, _ | ⟨q, rest⟩⟩
  · rcases hh : m.headerHits item with _ | ⟨p, _ | ⟨q, rest⟩⟩
    · rcases hr : m.rankCandidates ord (normalizedQuery item) with _ | ⟨top1, rest⟩
      · simp [fuzzyTier_nil m ord item hr]
      · simp [fuzzyTier_cons m ord item top1 rest hr]
    · simp
    · simp
  · simp
  · simp

/-! ## Rounding to float64 -/

theorem bitLenAux_spec : ∀ (fuel n : ℕ), n ≤ fuel →
    n < 2 ^ bitLenAux fuel n ∧ (0 < n → 2 ^ (bitLenAux fuel n - 1) ≤ n) := by
  intro fuel
  induction fuel with
  | zero =>
    intro n hn
    have : n = 0 := by omega
    subst this
    simp [bitLenAux]
  | succ fuel ih =>
    intro n hn
    by_cases h0 : n = 0
    · subst h0
      simp [bitLenAux]
    · have hhalf : n / 2 ≤ fuel := by omega
      obtain ⟨h1, h2⟩ := ih (n / 2) hhalf
      simp only [bitLenAux, h0, if_false, Nat.add_sub_cancel]
      constructor
      · rw [pow_succ]
        omega
      · intro _
        by_cases hq : n / 2 = 0
        · have : bitLenAux fuel (n / 2) = 0 := by
            rw [hq]
            cases fuel <;> simp [bitLenAux]
          rw [this]
          simp
          omega
        · have h3 := h2 (Nat.pos_of_ne_zero hq)
          have hb : bitLenAux fuel (n / 2) ≠ 0 := by
            intro hb
            rw [hb] at h1
            simp at h1
            exact hq h1
          obtain ⟨b, hb1⟩ := Nat.exists_eq_succ_of_ne_zero hb
          rw [hb1] at h3 ⊢
          simp only [Nat.succ_sub_one] at h3
          rw [pow_succ]
          omega

theorem bitLen_spec (n : ℕ) (hn : 0 < n) :
    2 ^ (bitLen n - 1) ≤ n ∧ n < 2 ^ bitLen n ∧ 1 ≤ bitLen n := by
  obtain ⟨h1, h2⟩ := bitLenAux_spec n n (le_refl n)
  refine ⟨h2 hn, h1, ?_⟩
  by_contra h
  have : bitLen n = 0 := by omega
  unfold bitLen at this
  rw [this] at h1
  simp at h1
  omega

theorem binade_spec (x : ℚ) (hx : 0 < x) :
    (2 : ℚ) ^ binade x ≤ x ∧ x < (2 : ℚ) ^ (binade x + 1) := by
  have hnum : 0 < x.num := Rat.num_pos.mpr hx
  have hp : 0 < x.num.natAbs := Int.natAbs_pos.mpr (ne_of_gt hnum)
  have hd : 0 < x.den := x.den_pos
  obtain ⟨p1, p2, p3⟩ := bitLen_spec _ hp
  obtain ⟨d1, d2, d3⟩ := bitLen_spec _ hd
  have hxeq : x = (x.num.natAbs : ℚ) / (x.den : ℚ) := by
    have h1 : (x.num.natAbs : ℚ) = (x.num : ℚ) := by
      rw [← Int.cast_natCast, Int.natAbs_of_nonneg (le_of_lt hnum)]
    rw [h1]
    exact (Rat.num_div_den x).symm
  have hdq : (0 : ℚ) < (x.den : ℚ) := by exact_mod_cast hd
  have two_pos : ∀ k : ℤ, (0 : ℚ) < 2 ^ k := fun k => zpow_pos (by norm_num) k
  -- bounds in ℚ
  have P1 : (2 : ℚ) ^ ((bitLen x.num.natAbs : ℤ) - 1) ≤ (x.num.natAbs : ℚ) := by
    have : ((2 ^ (bitLen x.num.natAbs - 1) : ℕ) : ℚ) ≤ (x.num.natAbs : ℚ) := by exact_mod_cast p1
    have e : ((bitLen x.num.natAbs : ℤ) - 1) = ((bitLen x.num.natAbs - 1 : ℕ) : ℤ) := by omega
    rw [e, zpow_natCast]
    exact_mod_cast p1
  have P2 : (x.num.natAbs : ℚ) < (2 : ℚ) ^ (bitLen x.num.natAbs : ℤ) := by
    rw [zpow_natCast]
    exact_mod_cast p2
  have D1 : (2 : ℚ) ^ ((bitLen x.den : ℤ) - 1) ≤ (x.den : ℚ) := by
    have e : ((bitLen x.den : ℤ) - 1) = ((bitLen x.den - 1 : ℕ) : ℤ) := by omega
    rw [e, zpow_natCast]
    exact_mod_cast d1
  have D2 : (x.den : ℚ) < (2 : ℚ) ^ (bitLen x.den : ℤ) := by
    rw [zpow_natCast]
    exact_mod_cast d2
  have upper : x < (2 : ℚ) ^ ((bitLen x.num.natAbs : ℤ) - (bitLen x.den : ℤ) + 1) := by
    have e : ((bitLen x.num.natAbs : ℤ) - (bitLen x.den : ℤ) + 1) =
        (bitLen x.num.natAbs : ℤ) - ((bitLen x.den : ℤ) - 1) := by ring
    rw [e, zpow_sub₀ (by norm_num : (2 : ℚ) ≠ 0)]
    calc x = (x.num.natAbs : ℚ) / (x.den : ℚ) := hxeq
      _ < _ := div_lt_div₀ P2 D1 (le_of_lt (two_pos _)) (two_pos _)
  have lower : (2 : ℚ) ^ ((bitLen x.num.natAbs : ℤ) - (bitLen x.den : ℤ) - 1) ≤ x := by
    have e : ((bitLen x.num.natAbs : ℤ) - (bitLen x.den : ℤ) - 1) =
        ((bitLen x.num.natAbs : ℤ) - 1) - (bitLen x.den : ℤ) := by ring
    rw [e, zpow_sub₀ (by norm_num : (2 : ℚ) ≠ 0)]
    have : (2 : ℚ) ^ ((bitLen x.num.natAbs : ℤ) - 1) / 2 ^ (bitLen x.den : ℤ) ≤
        (x.num.natAbs : ℚ) / (x.den : ℚ) :=
      div_le_div₀ (Nat.cast_nonneg _) P1 hdq (le_of_lt D2)
    exact le_trans this (le_of_eq hxeq.symm)
  unfold binade
  simp only
  split
  · rename_i h
    exact ⟨h, upper⟩
  · rename_i h
    refine ⟨lower, ?_⟩
    rw [sub_add_cancel]
    exact lt_of_not_le h

theorem binade_mono (x y : ℚ) (hx : 0 < x) (hxy : x ≤ y) : binade x ≤ binade y := by
  obtain ⟨h1, _⟩ := binade_spec x hx
  obtain ⟨_, h2⟩ := binade_spec y (lt_of_lt_of_le hx hxy)
  have : (2 : ℚ) ^ binade x < 2 ^ (binade y + 1) := lt_of_le_of_lt (le_trans h1 hxy) h2
  have := (zpow_lt_zpow_iff_right₀ (by norm_num : (1 : ℚ) < 2)).mp this
  omega

theorem roundHalfEven_intCast (n : ℤ) : roundHalfEven (n : ℚ) = n := by
  unfold roundHalfEven
  have : Rat.floor (n : ℚ) = n := by
    have h : ⌊(n : ℚ)⌋ = n := Int.floor_intCast n
    exact h
  simp [this]

theorem roundHalfEven_floor_le (x : ℚ) : Rat.floor x ≤ roundHalfEven x := by
  unfold roundHalfEven
  simp only
  split
  · exact le_refl _
  · split
    · omega
    · split <;> omega

theorem roundHalfEven_le_floor_succ (x : ℚ) : roundHalfEven x ≤ Rat.floor x + 1 := by
  unfold roundHalfEven
  simp only
  split
  · omega
  · split
    · omega
    · split <;> omega

theorem roundHalfEven_mono (x y : ℚ) (h : x ≤ y) : roundHalfEven x ≤ roundHalfEven y := by
  have hfl : Rat.floor x ≤ Rat.floor y := by
    rw [Rat.le_floor]
    exact le_trans (Rat.le_floor.mp (le_refl _)) h
  rcases lt_or_eq_of_le hfl with hlt | heq
  · calc roundHalfEven x ≤ Rat.floor x + 1 := roundHalfEven_le_floor_succ x
      _ ≤ Rat.floor y := hlt
      _ ≤ roundHalfEven y := roundHalfEven_floor_le y
  · unfold roundHalfEven
    simp only [heq]
    have hd : x - (Rat.floor y : ℚ) ≤ y - (Rat.floor y : ℚ) := by linarith
    by_cases h1 : x - (Rat.floor y : ℚ) < 1 / 2
    · rw [if_pos h1]
      split
      · exact le_refl _
      · split
        · omega
        · split <;> omega
    · rw [if_neg h1]
      by_cases h2 : 1 / 2 < x - (Rat.floor y : ℚ)
      · have h3 : ¬ y - (Rat.floor y : ℚ) < 1 / 2 := by linarith
        have h4 : 1 / 2 < y - (Rat.floor y : ℚ) := by linarith
        rw [if_pos h2, if_neg h3, if_pos h4]
      · rw [if_neg h2]
        have h3 : ¬ y - (Rat.floor y : ℚ) < 1 / 2 := by linarith
        rw [if_neg h3]
        by_cases h4 : 1 / 2 < y - (Rat.floor y : ℚ)
        · rw [if_pos h4]
          split <;> omega
        · rw [if_neg h4]

theorem roundFloat64_of_pos (x : ℚ) (hx : 0 < x) :
    roundFloat64 x = (roundHalfEven (x / 2 ^ (max (binade x) (-1022) - 52)) : ℚ) *
      2 ^ (max (binade x) (-1022) - 52) := by
  unfold roundFloat64
  simp [ne_of_gt hx, not_lt.mpr (le_of_lt hx)]

theorem roundFloat64_zero : roundFloat64 0 = 0 := by
  simp [roundFloat64]

theorem roundFloat64_mono_pos (x y : ℚ) (hx : 0 < x) (hxy : x ≤ y) :
    roundFloat64 x ≤ roundFloat64 y := by
  have hy : 0 < y := lt_of_lt_of_le hx hxy
  rw [roundFloat64_of_pos x hx, roundFloat64_of_pos y hy]
  have two_pos : ∀ k : ℤ, (0 : ℚ) < 2 ^ k := fun k => zpow_pos (by norm_num) k
  have hb := binade_mono x y hx hxy
  have hle : max (binade x) (-1022) ≤ max (binade y) (-1022) := max_le_max hb (le_refl _)
  rcases lt_or_eq_of_le hle with hlt | heq
  · -- different binades
    have hey : max (binade y) (-1022) = binade y := by
      apply max_eq_left
      by_contra hc
      have : max (binade y) (-1022) = -1022 := max_eq_right (by omega)
      rw [this] at hlt
      have := le_max_right (binade x) (-1022)
      omega
    obtain ⟨_, hx2⟩ := binade_spec x hx
    obtain ⟨hy1, _⟩ := binade_spec y hy
    set ex := max (binade x) (-1022) with hex
    rw [hey] at hlt ⊢
    have hxq : x / 2 ^ (ex - 52) ≤ ((2 ^ 53 : ℤ) : ℚ) := by
      rw [div_le_iff₀ (two_pos _)]
      have : (((2 : ℤ) ^ 53 : ℤ) : ℚ) * 2 ^ (ex - 52) = 2 ^ (ex + 1) := by
        have e : ex + 1 = 53 + (ex - 52) := by ring
        rw [e, zpow_add₀ (by norm_num : (2 : ℚ) ≠ 0)]
        norm_num
      rw [this]
      have h1 : (2 : ℚ) ^ (binade x + 1) ≤ 2 ^ (ex + 1) :=
        zpow_le_zpow_right₀ (by norm_num) (by have := le_max_left (binade x) (-1022); omega)
      exact le_of_lt (lt_of_lt_of_le hx2 h1)
    have hyq : ((2 ^ 52 : ℤ) : ℚ) ≤ y / 2 ^ (binade y - 52) := by
      rw [le_div_iff₀ (two_pos _)]
      have : (((2 : ℤ) ^ 52 : ℤ) : ℚ) * 2 ^ (binade y - 52) = 2 ^ binade y := by
        have e : binade y = 52 + (binade y - 52) := by ring
        nth_rewrite 2 [e]
        rw [zpow_add₀ (by norm_num : (2 : ℚ) ≠ 0)]
        norm_num
      rw [this]
      exact hy1
    have rx := roundHalfEven_mono _ _ hxq
    have ry := roundHalfEven_mono _ _ hyq
    rw [roundHalfEven_intCast] at rx ry
    have rxq : (roundHalfEven (x / 2 ^ (ex - 52)) : ℚ) ≤ 2 ^ 53 := by exact_mod_cast rx
    have ryq : (2 : ℚ) ^ 52 ≤ (roundHalfEven (y / 2 ^ (binade y - 52)) : ℚ) := by exact_mod_cast ry
    calc (roundHalfEven (x / 2 ^ (ex - 52)) : ℚ) * 2 ^ (ex - 52)
        ≤ 2 ^ 53 * 2 ^ (ex - 52) := mul_le_mul_of_nonneg_right rxq (le_of_lt (two_pos _))
      _ = 2 ^ (ex + 1) := by
        have e : ex + 1 = 53 + (ex - 52) := by ring
        rw [e, zpow_add₀ (by norm_num : (2 : ℚ) ≠ 0)]
        norm_num
      _ ≤ 2 ^ binade y := zpow_le_zpow_right₀ (by norm_num) (by omega)
      _ = 2 ^ 52 * 2 ^ (binade y - 52) := by
        have e : binade y = 52 + (binade y - 52) := by ring
        nth_rewrite 1 [e]
        rw [zpow_add₀ (by norm_num : (2 : ℚ) ≠ 0)]
        norm_num
      _ ≤ (roundHalfEven (y / 2 ^ (binade y - 52)) : ℚ) * 2 ^ (binade y - 52) :=
        mul_le_mul_of_nonneg_right ryq (le_of_lt (two_pos _))
  · rw [heq]
    have : x / 2 ^ (max (binade y) (-1022) - 52) ≤ y / 2 ^ (max (binade y) (-1022) - 52) :=
      div_le_div_of_nonneg_right hxy (le_of_lt (two_pos _))
    have := roundHalfEven_mono _ _ this
    exact mul_le_mul_of_nonneg_right (by exact_mod_cast this) (le_of_lt (two_pos _))

/-- Rounding to float64 keeps the order of non-negative numbers. -/
theorem roundFloat64_mono (x y : ℚ) (hx : 0 ≤ x) (hxy : x ≤ y) :
    roundFloat64 x ≤ roundFloat64 y := by
  rcases lt_or_eq_of_le hx with hpos | h0
  · exact roundFloat64_mono_pos x y hpos hxy
  · rw [← h0, roundFloat64_zero]
    rcases lt_or_eq_of_le (le_trans hx hxy) with hy | hy
    · rw [roundFloat64_of_pos y hy]
      apply mul_nonneg _ (le_of_lt (zpow_pos (by norm_num) _))
      have h1 : (0 : ℚ) ≤ y / 2 ^ (max (binade y) (-1022) - 52) :=
        div_nonneg (le_of_lt hy) (le_of_lt (zpow_pos (by norm_num) _))
      have := roundHalfEven_mono _ _ h1
      have h0 : roundHalfEven 0 = 0 := by exact_mod_cast roundHalfEven_intCast 0
      rw [h0] at this
      exact_mod_cast this
    · rw [← hy, roundFloat64_zero]

theorem roundFloat64_nonneg (x : ℚ) (hx : 0 ≤ x) : 0 ≤ roundFloat64 x := by
  have := roundFloat64_mono 0 x (le_refl _) hx
  rwa [roundFloat64_zero] at this

theorem roundFloat64_one : roundFloat64 1 = 1 := by decide!

/-- A number between 0 and 1 rounds to a float64 between 0 and 1. -/
theorem roundFloat64_unit (x : ℚ) (h0 : 0 ≤ x) (h1 : x ≤ 1) :
    0 ≤ roundFloat64 x ∧ roundFloat64 x ≤ 1 := by
  refine ⟨roundFloat64_nonneg x h0, ?_⟩
  have := roundFloat64_mono x 1 h0 h1
  rwa [roundFloat64_one] at this

/-- Natural numbers up to `2 ^ 53` are float64 values. -/
theorem roundFloat64_natCast (n : ℕ) (hn : n ≤ 2 ^ 53) : roundFloat64 (n : ℚ) = n := by
  rcases Nat.eq_zero_or_pos n with h0 | hpos
  · subst h0
    simp [roundFloat64]
  rcases Nat.lt_or_ge n (2 ^ 53) with hlt | hge
  · have hx : (0 : ℚ) < (n : ℚ) := by exact_mod_cast hpos
    rw [roundFloat64_of_pos _ hx]
    obtain ⟨b1, b2⟩ := binade_spec _ hx
    have hb0 : 0 ≤ binade (n : ℚ) := by
      by_contra hc
      have h1 : (n : ℚ) < 2 ^ (0 : ℤ) :=
        lt_of_lt_of_le b2 (zpow_le_zpow_right₀ (by norm_num) (by omega))
      simp at h1
      omega
    have hb52 : binade (n : ℚ) ≤ 52 := by
      by_contra hc
      have h1 : (2 : ℚ) ^ (53 : ℤ) ≤ (n : ℚ) :=
        le_trans (zpow_le_zpow_right₀ (by norm_num) (by omega)) b1
      have h2 : ((2 ^ 53 : ℕ) : ℚ) ≤ (n : ℚ) := by
        have : ((2 ^ 53 : ℕ) : ℚ) = (2 : ℚ) ^ (53 : ℤ) := by norm_num
        rw [this]
        exact h1
      have : 2 ^ 53 ≤ n := by exact_mod_cast h2
      omega
    have hmax : max (binade (n : ℚ)) (-1022) = binade (n : ℚ) := max_eq_left (by omega)
    rw [hmax]
    obtain ⟨k, hk⟩ : ∃ k : ℕ, binade (n : ℚ) - 52 = -(k : ℤ) :=
      ⟨(52 - binade (n : ℚ)).toNat, by omega⟩
    rw [hk, zpow_neg, zpow_natCast, div_inv_eq_mul]
    have : ((n : ℚ) * 2 ^ k) = ((n * 2 ^ k : ℕ) : ℤ) := by push_cast; rfl
    rw [this, roundHalfEven_intCast]
    push_cast
    field_simp
  · have : n = 2 ^ 53 := by omega
    subst this
    decide!

/-- The result of `ParseFloat` on a natural number up to `2 ^ 53` is that number. -/
theorem roundToFloat64_natCast (n : ℕ) (hn : n ≤ 2 ^ 53) :
    roundToFloat64 (n : ℚ) = some (n : ℚ) := by
  unfold roundToFloat64
  rw [roundFloat64_natCast n hn]
  have h1 : ((n : ℕ) : ℚ) ≤ ((2 ^ 53 : ℕ) : ℚ) := by exact_mod_cast hn
  have h2 : (((2 : ℕ) ^ 53 : ℕ) : ℚ) < 2 ^ 1024 := by norm_num
  have h3 : (0 : ℚ) ≤ (n : ℚ) := Nat.cast_nonneg n
  have h4 : -((2 : ℚ) ^ 1024) < 0 := by norm_num
  rw [if_pos ⟨lt_of_le_of_lt h1 h2, lt_of_lt_of_le h4 h3⟩]

theorem binade_unique (y : ℚ) (k : ℤ) (h1 : (2 : ℚ) ^ k ≤ y) (h2 : y < (2 : ℚ) ^ (k + 1)) :
    binade y = k := by
  have hy : 0 < y := lt_of_lt_of_le (zpow_pos (by norm_num) k) h1
  obtain ⟨b1, b2⟩ := binade_spec y hy
  have a1 : (2 : ℚ) ^ k < 2 ^ (binade y + 1) := lt_of_le_of_lt h1 b2
  have a2 : (2 : ℚ) ^ binade y < 2 ^ (k + 1) := lt_of_le_of_lt b1 h2
  have c1 := (zpow_lt_zpow_iff_right₀ (by norm_num : (1 : ℚ) < 2)).mp a1
  have c2 := (zpow_lt_zpow_iff_right₀ (by norm_num : (1 : ℚ) < 2)).mp a2
  omega

/-- An integer multiple `n * 2 ^ (e - 52)` with `n ≤ 2 ^ 53`, and `2 ^ 52 ≤ n`
unless `e = -1022`, is a float64. -/
theorem roundFloat64_of_multiple (n : ℤ) (e : ℤ) (he : -1022 ≤ e) (hn0 : 0 < n)
    (hn : n ≤ 2 ^ 53) (hnorm : 2 ^ 52 ≤ n ∨ e = -1022) :
    roundFloat64 ((n : ℚ) * 2 ^ (e - 52)) = (n : ℚ) * 2 ^ (e - 52) := by
  have two_pos : ∀ k : ℤ, (0 : ℚ) < 2 ^ k := fun k => zpow_pos (by norm_num) k
  have hnq : (0 : ℚ) < (n : ℚ) := by exact_mod_cast hn0
  have hpos : (0 : ℚ) < (n : ℚ) * 2 ^ (e - 52) := mul_pos hnq (two_pos _)
  rw [roundFloat64_of_pos _ hpos]
  have hsplit : ∀ j : ℤ, (2 : ℚ) ^ (j + (e - 52)) = 2 ^ j * 2 ^ (e - 52) := fun j =>
    zpow_add₀ (by norm_num : (2 : ℚ) ≠ 0) j (e - 52)
  rcases lt_or_eq_of_le hn with hlt | heq
  · -- n < 2 ^ 53: the exponent is `e`
    have hmax : max (binade ((n : ℚ) * 2 ^ (e - 52))) (-1022) = e := by
      have hup : (n : ℚ) * 2 ^ (e - 52) < 2 ^ (e + 1) := by
        have : (2 : ℚ) ^ (e + 1) = 2 ^ (53 : ℤ) * 2 ^ (e - 52) := by
          rw [← hsplit]; congr 1; ring
        rw [this]
        apply mul_lt_mul_of_pos_right _ (two_pos _)
        have h53 : (2 : ℚ) ^ (53 : ℤ) = ((2 ^ 53 : ℤ) : ℚ) := by norm_num
        rw [h53]
        exact_mod_cast hlt
      rcases hnorm with hge | he2
      · have hlow : (2 : ℚ) ^ e ≤ (n : ℚ) * 2 ^ (e - 52) := by
          have : (2 : ℚ) ^ e = 2 ^ (52 : ℤ) * 2 ^ (e - 52) := by
            rw [← hsplit]; congr 1; ring
          rw [this]
          apply mul_le_mul_of_nonneg_right _ (le_of_lt (two_pos _))
          have h52 : (2 : ℚ) ^ (52 : ℤ) = ((2 ^ 52 : ℤ) : ℚ) := by norm_num
          rw [h52]
          exact_mod_cast hge
        rw [binade_unique _ e hlow hup]
        exact max_eq_left he
      · have hb : binade ((n : ℚ) * 2 ^ (e - 52)) ≤ e := by
          obtain ⟨b1, _⟩ := binade_spec _ hpos
          have := lt_of_le_of_lt b1 hup
          have := (zpow_lt_zpow_iff_right₀ (by norm_num : (1 : ℚ) < 2)).mp this
          omega
        rw [he2] at hb ⊢
        exact max_eq_right hb
    rw [hmax, mul_div_assoc, div_self (ne_of_gt (two_pos _)), mul_one, roundHalfEven_intCast]
  · -- n = 2 ^ 53: the exponent is `e + 1`
    have hval : (n : ℚ) * 2 ^ (e - 52) = 2 ^ (e + 1) := by
      have h1 : (n : ℚ) = 2 ^ (53 : ℤ) := by rw [heq]; norm_num
      rw [h1, ← hsplit]
      congr 1
      ring
    have hb : binade ((n : ℚ) * 2 ^ (e - 52)) = e + 1 := by
      apply binade_unique
      · rw [hval]
      · rw [hval]
        exact zpow_lt_zpow_right₀ (by norm_num) (by omega)
    have hmax : max (binade ((n : ℚ) * 2 ^ (e - 52))) (-1022) = e + 1 := by
      rw [hb]
      exact max_eq_left (by omega)
    rw [hmax, hval]
    have hq : (2 : ℚ) ^ (e + 1) / 2 ^ (e + 1 - 52) = ((2 ^ 52 : ℤ) : ℚ) := by
      rw [div_eq_iff (ne_of_gt (two_pos _))]
      have : (((2 : ℤ) ^ 52 : ℤ) : ℚ) = 2 ^ (52 : ℤ) := by norm_num
      rw [this, ← zpow_add₀ (by norm_num : (2 : ℚ) ≠ 0)]
      congr 1
      ring
    rw [hq, roundHalfEven_intCast]
    have : (((2 : ℤ) ^ 52 : ℤ) : ℚ) = 2 ^ (52 : ℤ) := by norm_num
    rw [this, ← zpow_add₀ (by norm_num : (2 : ℚ) ≠ 0)]
    congr 1
    ring

/-- Rounding a float64 gives it back. -/
theorem roundFloat64_idem (x : ℚ) (hx : 0 ≤ x) :
    roundFloat64 (roundFloat64 x) = roundFloat64 x := by
  rcases lt_or_eq_of_le hx with hpos | h0
  swap
  · rw [← h0, roundFloat64_zero, roundFloat64_zero]
  have two_pos : ∀ k : ℤ, (0 : ℚ) < 2 ^ k := fun k => zpow_pos (by norm_num) k
  rw [roundFloat64_of_pos x hpos]
  set e := max (binade x) (-1022) with he
  have he1 : -1022 ≤ e := le_max_right _ _
  obtain ⟨b1, b2⟩ := binade_spec x hpos
  have hsplit : ∀ j : ℤ, (2 : ℚ) ^ (j + (e - 52)) = 2 ^ j * 2 ^ (e - 52) := fun j =>
    zpow_add₀ (by norm_num : (2 : ℚ) ≠ 0) j (e - 52)
  have hup : x / 2 ^ (e - 52) ≤ ((2 ^ 53 : ℤ) : ℚ) := by
    rw [div_le_iff₀ (two_pos _)]
    have : (((2 : ℤ) ^ 53 : ℤ) : ℚ) * 2 ^ (e - 52) = 2 ^ (e + 1) := by
      have h : (((2 : ℤ) ^ 53 : ℤ) : ℚ) = 2 ^ (53 : ℤ) := by norm_num
      rw [h, ← hsplit]
      congr 1
      ring
    rw [this]
    exact le_of_lt (lt_of_lt_of_le b2
      (zpow_le_zpow_right₀ (by norm_num) (by have := le_max_left (binade x) (-1022); omega)))
  have hn53 := roundHalfEven_mono _ _ hup
  rw [roundHalfEven_intCast] at hn53
  have hn0 : 0 ≤ roundHalfEven (x / 2 ^ (e - 52)) := by
    have h1 : (0 : ℚ) ≤ x / 2 ^ (e - 52) := div_nonneg hx (le_of_lt (two_pos _))
    have := roundHalfEven_mono _ _ h1
    have h0 : roundHalfEven 0 = 0 := by exact_mod_cast roundHalfEven_intCast 0
    rwa [h0] at this
  rcases lt_or_eq_of_le hn0 with hnpos | hnz
  swap
  · rw [← hnz]
    simp [roundFloat64_zero]
  apply roundFloat64_of_multiple _ e he1 hnpos hn53
  by_cases hclip : e = -1022
  · exact Or.inr hclip
  · left
    have hbe : e = binade x := by
      rcases max_choice (binade x) (-1022) with h | h
      · rw [he, h]
      · exact absurd (he.trans h) hclip
    have hlow : ((2 ^ 52 : ℤ) : ℚ) ≤ x / 2 ^ (e - 52) := by
      rw [le_div_iff₀ (two_pos _)]
      have : (((2 : ℤ) ^ 52 : ℤ) : ℚ) * 2 ^ (e - 52) = 2 ^ e := by
        have h : (((2 : ℤ) ^ 52 : ℤ) : ℚ) = 2 ^ (52 : ℤ) := by norm_num
        rw [h, ← hsplit]
        congr 1
        ring
      rw [this, hbe]
      exact b1
    have := roundHalfEven_mono _ _ hlow
    rwa [roundHalfEven_intCast] at this

/-- No float64 lies between the float64 nearest to 0.7 and 0.7 itself: on a
float64 the test `> 0.7` has the same outcome for the decimal and for the
float64 constant that the compiler puts in its place. -/
theorem float64_gt_seven_tenths (x : ℚ) (hx : 0 ≤ x) :
    roundFloat64 x > 0.7 ↔ roundFloat64 x > roundFloat64 0.7 := by
  have hc : roundFloat64 0.7 < 0.7 := by decide!
  constructor
  · intro h
    exact lt_trans hc h
  · intro h
    by_contra hle
    have hle1 : roundFloat64 x ≤ 0.7 := le_of_not_lt hle
    have := roundFloat64_mono _ _ (roundFloat64_nonneg x hx) hle1
    rw [roundFloat64_idem x hx] at this
    exact absurd h (not_lt.mpr this)

/-! ## A string that looks like a code has a non-empty normalized code -/

theorem charLe_iff (a b : Char) : a ≤ b ↔ a.toNat ≤ b.toNat := Iff.rfl

theorem toUpperRune_of_toNat_lt (x : Char) (h : x.toNat < 97) : toUpperRune x = x := by
  have ea : ('a' : Char).toNat = 97 := rfl
  have eb : ('а' : Char).toNat = 1072 := rfl
  have ec : ('ѐ' : Char).toNat = 1104 := rfl
  have n1 : ¬ ('a' ≤ x ∧ x ≤ 'z') := by rw [charLe_iff]; omega
  have n2 : ¬ ('а' ≤ x ∧ x ≤ 'я') := by rw [charLe_iff]; omega
  have n3 : ¬ ('ѐ' ≤ x ∧ x ≤ 'џ') := by rw [charLe_iff]; omega
  have far : ∀ y : Char, 97 ≤ y.toNat → x ≠ y := by
    intro y hy e
    rw [e] at h
    omega
  have n4 : x ≠ 'ı' := far _ (by decide)
  have n5 : x ≠ 'ſ' := far _ (by decide)
  have n6 : x ≠ Char.ofNat 0x1C80 := far _ (by decide)
  have n7 : x ≠ Char.ofNat 0x1C81 := far _ (by decide)
  have n8 : x ≠ Char.ofNat 0x1C82 := far _ (by decide)
  have n9 : x ≠ Char.ofNat 0x1C83 := far _ (by decide)
  have n10 : x ≠ Char.ofNat 0x1C84 := far _ (by decide)
  have n11 : x ≠ Char.ofNat 0x1C85 := far _ (by decide)
  have n12 : x ≠ Char.ofNat 0x1C86 := far _ (by decide)
  simp [toUpperRune, n1, n2, n3, n4, n5, n6, n7, n8, n9, n10, n11, n12]

theorem toUpperRune_digit (d : Char) (h0 : '0' ≤ d) (h9 : d ≤ '9') : toUpperRune d = d := by
  have e9 : ('9' : Char).toNat = 57 := rfl
  rw [charLe_iff] at h9
  exact toUpperRune_of_toNat_lt d (by omega)

/-- A rune that occurs in no old string of the table survives the replacement pass. -/
theorem mem_replaceRunes (pairs : List (List Char × List Char)) (c : Char)
    (hkeys : ∀ p ∈ pairs, p.1 ≠ [] ∧ c ∉ p.1) :
    ∀ (s : List Char) (skip : Nat), c ∈ s.drop skip → c ∈ replaceRunes pairs skip s := by
  intro s
  induction s with
  | nil => intro skip h; simp at h
  | cons x cs ih =>
    intro skip h
    cases skip with
    | succ k =>
      rw [replaceRunes]
      exact ih k (by simpa using h)
    | zero =>
      rw [replaceRunes]
      cases hf : pairs.find? (fun p => p.1.isPrefixOf (x :: cs)) with
      | none =>
        simp only [List.drop_zero, List.mem_cons] at h
        rcases h with h | h
        · simp [h]
        · exact List.mem_cons_of_mem _ (ih 0 (by simpa using h))
      | some p =>
        have hp : p ∈ pairs := List.mem_of_find?_eq_some hf
        have hpre : p.1.isPrefixOf (x :: cs) = true := by
          have := List.find?_some hf
          simpa using this
        obtain ⟨hne, hnot⟩ := hkeys p hp
        obtain ⟨t, ht⟩ := List.isPrefixOf_iff_prefix.mp hpre
        cases hk : p.1 with
        | nil => exact absurd hk hne
        | cons y ys =>
          rw [hk] at ht hnot
          simp only [List.cons_append, List.cons.injEq] at ht
          obtain ⟨hxy, hcs⟩ := ht
          have hc : c ∈ t := by
            simp only [List.drop_zero] at h
            rw [← hcs, ← hxy] at h
            simp only [List.mem_cons, List.mem_append] at h hnot
            rcases h with h | h | h
            · exact absurd (Or.inl h) hnot
            · exact absurd (Or.inr h) hnot
            · exact h
          apply List.mem_append_right
          apply ih
          have hlen : p.1.length - 1 = ys.length := by rw [hk]; simp
          rw [hlen, ← hcs]
          simpa using hc

theorem digit_mem_normalizeCodeRunes (s : List Char) (d : Char) (hd : d ∈ s)
    (h0 : '0' ≤ d) (h9 : d ≤ '9') : d ∈ normalizeCodeRunes s := by
  have hne : ∀ k : Char, ¬ (k ≤ '9' ∧ '0' ≤ k) → d ≠ k := by
    intro k hk h
    subst h
    exact hk ⟨h9, h0⟩
  unfold normalizeCodeRunes
  simp only [List.mem_filter]
  refine ⟨?_, ?_⟩
  · apply mem_replaceRunes _ _ _ _ 0
    · simp only [List.drop_zero]
      apply mem_replaceRunes _ _ _ _ 0
      · simp only [List.drop_zero, List.mem_map]
        exact ⟨d, hd, toUpperRune_digit d h0 h9⟩
      · intro p hp
        simp only [codeReplacements, List.mem_cons, List.mem_singleton, List.not_mem_nil,
          or_false] at hp
        rcases hp with rfl | rfl | rfl | rfl <;>
          exact ⟨by decide, by simpa using hne _ (by decide)⟩
    · intro p hp
      simp only [List.mem_singleton] at hp
      subst hp
      exact ⟨by decide, by simpa using hne _ (by decide)⟩
  · simp [isCodeRune, h0, h9]

theorem normalizeCode_ne_empty_of_looksLikeCode (s : String) (h : LooksLikeCode s = true) :
    NormalizeCode s ≠ "" := by
  unfold LooksLikeCode at h
  split at h
  · exact absurd h (by simp)
  · simp only [Bool.and_eq_true, List.any_eq_true, decide_eq_true_eq] at h
    obtain ⟨_, d, hd, h0, h9⟩ := h
    have hmem := digit_mem_normalizeCodeRunes s.data d hd h0 h9
    intro hempty
    have : normalizeCodeRunes s.data = [] := by
      have := congrArg String.data hempty
      simpa [NormalizeCode] using this
    rw [this] at hmem
    simp at hmem

theorem codeHits_of_looksLikeCode (m : Matcher) (item : NormalizedItem) (nm : String)
    (hnm : item.NameOrCode = some nm) (hlooks : LooksLikeCode nm = true) :
    m.codeHits item = mapGet [] m.index.ByCode (NormalizeCode nm) := by
  simp [Matcher.codeHits, hnm, hlooks, normalizeCode_ne_empty_of_looksLikeCode nm hlooks]

theorem codeHits_nil_of_fallthrough (m : Matcher) (item : NormalizedItem)
    (h : LooksLikeCode (item.NameOrCode.getD "") = false ∨
      mapGet [] m.index.ByCode (NormalizeCode (item.NameOrCode.getD "")) = []) :
    m.codeHits item = [] := by
  unfold Matcher.codeHits
  rcases h with h | h
  · simp [h]
  · split
    · exact h
    · rfl

/-! ## Candidate lists -/

theorem toCandidates_length (products : List ProductRecord) (score : ℚ) :
    (toCandidates products score).length = min products.length 5 := by
  unfold toCandidates
  simp only [List.length_map, List.length_take]
  split <;> omega

theorem toCandidates_score (products : List ProductRecord) (score : ℚ) :
    ∀ c ∈ toCandidates products score, c.Score = score := by
  intro c hc
  unfold toCandidates at hc
  simp only [List.mem_map] at hc
  obtain ⟨p, _, rfl⟩ := hc
  rfl

theorem sorted_of_const_score (l : List MatchCandidate) (score : ℚ)
    (h : ∀ c ∈ l, c.Score = score) :
    (l.map (fun c => c.Score)).Sorted (fun a b => a ≥ b) := by
  unfold List.Sorted
  rw [List.pairwise_map]
  have htriv : l.Pairwise (fun _ _ => True) := List.pairwise_of_forall (fun _ _ => trivial)
  refine List.Pairwise.imp_of_mem ?_ htriv
  intro a b ha hb _
  rw [h a ha, h b hb]

theorem rankCandidates_length (m : Matcher) (ord : RangeOrder) (query : String) :
    (m.rankCandidates ord query).length ≤ 5 := by
  unfold Matcher.rankCandidates
  simp only
  split
  · simp only [List.length_take]
    omega
  · omega

theorem rankCandidates_sorted (m : Matcher) (ord : RangeOrder) (query : String) :
    (m.rankCandidates ord query).Sorted (fun a b => a.Score ≥ b.Score) := by
  unfold Matcher.rankCandidates
  simp only
  have hs : ∀ l : List MatchCandidate, (sortByScore l).Sorted (fun a b => a.Score ≥ b.Score) :=
    fun l => List.sorted_insertionSort _ l
  split
  · exact List.Pairwise.sublist (List.take_sublist _ _) (hs _)
  · exact hs _

theorem ord_run_nil (ord : RangeOrder) : ord.run [] = [] :=
  List.Perm.eq_nil (ord.perm [])

theorem rankCandidates_empty_index (cfg : Config) (ord : RangeOrder) (query : String) :
    (NewMatcher cfg []).rankCandidates ord query = [] := by
  have hfold : ∀ (toks : List String),
      toks.foldl (fun (ids : List Int) (_ : String) => ids) [] = [] := by
    intro toks
    induction toks with
    | nil => rfl
    | cons t ts ih => simp
  simp [Matcher.rankCandidates, Matcher.candidateIDs, NewMatcher, BuildIndex, mapGet,
    ord_run_nil, hfold, sortByScore]

theorem toCandidates_ne_nil (p : ProductRecord) (ps : List ProductRecord) (score : ℚ) :
    toCandidates (p :: ps) score ≠ [] := by
  intro h
  have hlen := toCandidates_length (p :: ps) score
  rw [h] at hlen
  simp only [List.length_nil, List.length_cons] at hlen
  rw [Nat.min_def] at hlen
  split at hlen <;> omega

/-! ## The six ways `Match` returns -/

theorem match_code_unique (m : Matcher) (ord : RangeOrder) (item : NormalizedItem)
    (p : ProductRecord) (hc : m.codeHits item = [p]) :
    m.Match ord item = m.adjustForInvalidQty item
      { Status := MatchOK, Confidence := 0.99, Reason := ReasonCode,
        Product := some (toMatchProduct p), Candidates := [hitCandidate p 0.99] } := by
  rw [match_eq, hc]

theorem match_code_many (m : Matcher) (ord : RangeOrder) (item : NormalizedItem)
    (p q : ProductRecord) (rest : List ProductRecord) (hc : m.codeHits item = p :: q :: rest) :
    m.Match ord item =
      { Status := MatchReview, Confidence := 0.80, Reason := ReasonCode, Product := none,
        Candidates := toCandidates (p :: q :: rest) 0.80 } := by
  rw [match_eq, hc]

theorem match_header_unique (m : Matcher) (ord : RangeOrder) (item : NormalizedItem)
    (p : ProductRecord) (hc : m.codeHits item = []) (hh : m.headerHits item = [p]) :
    m.Match ord item = m.adjustForInvalidQty item
      { Status := MatchOK, Confidence := 0.95, Reason := ReasonHeader,
        Product := some (toMatchProduct p), Candidates := [hitCandidate p 0.95] } := by
  rw [match_eq, hc, hh]

theorem match_header_many (m : Matcher) (ord : RangeOrder) (item : NormalizedItem)
    (p q : ProductRecord) (rest : List ProductRecord) (hc : m.codeHits item = [])
    (hh : m.headerHits item = p :: q :: rest) :
    m.Match ord item =
      { Status := MatchReview, Confidence := 0.78, Reason := ReasonHeader, Product := none,
        Candidates := toCandidates (p :: q :: rest) 0.78 } := by
  rw [match_eq, hc, hh]

theorem match_fuzzy_nil (m : Matcher) (ord : RangeOrder) (item : NormalizedItem)
    (hc : m.codeHits item = []) (hh : m.headerHits item = [])
    (hr : m.rankCandidates ord (normalizedQuery item) = []) :
    m.Match ord item =
      { Status := MatchNotFound, Confidence := 0, Reason := ReasonNone, Product := none,
        Candidates := [] } := by
  rw [match_eq, hc, hh, hr]

theorem match_fuzzy_cons (m : Matcher) (ord : RangeOrder) (item : NormalizedItem)
    (top1 : MatchCandidate) (rest : List MatchCandidate)
    (hc : m.codeHits item = []) (hh : m.headerHits item = [])
    (hr : m.rankCandidates ord (normalizedQuery item) = top1 :: rest) :
    m.Match ord item = m.adjustForInvalidQty item (fuzzyResult m top1 rest) := by
  rw [match_eq, hc, hh, hr]

theorem fuzzyResult_candidates (m : Matcher) (top1 : MatchCandidate)
    (rest : List MatchCandidate) : (fuzzyResult m top1 rest).Candidates = top1 :: rest := by
  unfold fuzzyResult
  simp only
  split
  · rfl
  · split <;> rfl

theorem fuzzyResult_confidence (m : Matcher) (top1 : MatchCandidate)
    (rest : List MatchCandidate) : (fuzzyResult m top1 rest).Confidence = top1.Score := by
  unfold fuzzyResult
  simp only
  split
  · rfl
  · split <;> rfl

/-! ## The claims about `Match` -/

/-- C1 (as amended): for an item whose quantity is absent or not positive,
`Match` never returns OK; the status is REVIEW as soon as the result carries a
candidate, and NOT_FOUND with confidence 0 when no tier produced one; the
confidence is at most 0.70 whenever a product is attached or the fuzzy tier
decided (reason FUZZY or NONE). -/
theorem match_invalid_qty (m : Matcher) (ord : RangeOrder) (item : NormalizedItem)
    (hq : item.Qty = none ∨ ∃ q, item.Qty = some q ∧ q ≤ 0) :
    (m.Match ord item).Status ≠ MatchOK ∧
    ((m.Match ord item).Candidates ≠ [] → (m.Match ord item).Status = MatchReview) ∧
    ((m.Match ord item).Candidates = [] →
      (m.Match ord item).Status = MatchNotFound ∧ (m.Match ord item).Confidence = 0) ∧
    ((m.Match ord item).Product ≠ none ∨ (m.Match ord item).Reason = ReasonFuzzy ∨
        (m.Match ord item).Reason = ReasonNone →
      (m.Match ord item).Confidence ≤ 0.7) := by
  have hadj := adjust_of_invalid m item
  have hle := adjust_confidence_le m item
  rcases hc : m.codeHits item with _ | ⟨p, _ | ⟨q, rest⟩⟩
  · rcases hh : m.headerHits item with _ | ⟨p, _ | ⟨q, rest⟩⟩
    · rcases hr : m.rankCandidates ord (normalizedQuery item) with _ | ⟨top1, rest⟩
      · rw [match_fuzzy_nil m ord item hc hh hr]
        refine ⟨by decide, fun h => absurd rfl h, fun _ => ⟨rfl, rfl⟩, fun _ => ?_⟩
        show (0 : ℚ) ≤ 0.7
        norm_num
      · rw [match_fuzzy_cons m ord item top1 rest hc hh hr]
        refine ⟨?_, ?_, ?_, fun _ => hle _ hq⟩
        · rw [hadj _ hq]; simp
        · rw [hadj _ hq]; simp
        · rw [hadj _ hq]
          intro h
          have := fuzzyResult_candidates m top1 rest
          simp only at h
          rw [h] at this
          exact absurd this (by simp)
    · rw [match_header_unique m ord item p hc hh]
      refine ⟨?_, ?_, ?_, fun _ => hle _ hq⟩
      · rw [hadj _ hq]; simp
      · rw [hadj _ hq]; simp
      · rw [hadj _ hq]; simp
    · rw [match_header_many m ord item p q rest hc hh]
      refine ⟨by simp, fun _ => rfl, fun h => absurd h (toCandidates_ne_nil _ _ _), ?_⟩
      intro h
      simp at h
  · rw [match_code_unique m ord item p hc]
    refine ⟨?_, ?_, ?_, fun _ => hle _ hq⟩
    · rw [hadj _ hq]; simp
    · rw [hadj _ hq]; simp
    · rw [hadj _ hq]; simp
  · rw [match_code_many m ord item p q rest hc]
    refine ⟨by simp, fun _ => rfl, fun h => absurd h (toCandidates_ne_nil _ _ _), ?_⟩
    intro h
    simp at h

/-- Witness of C1 (as amended): a unique code hit for an item without quantity. -/
theorem match_invalid_qty_witness :
    ((NewMatcher Config.defaults cableCatalog).Match RangeOrder.stored
        (sampleItem "ELC0100203802" none)).Status = MatchReview ∧
    ((NewMatcher Config.defaults cableCatalog).Match RangeOrder.stored
        (sampleItem "ELC0100203802" none)).Confidence ≤ 0.7 :=
  have h := match_invalid_qty (NewMatcher Config.defaults cableCatalog) RangeOrder.stored
    (sampleItem "ELC0100203802" none) (Or.inl rfl)
  ⟨h.2.1 (by decide!), h.2.2.2 (Or.inl (by decide!))⟩

/-- Counterexample to C1 as stated: for an item without quantity, an ambiguous
code keeps confidence 0.80, and an empty catalog gives NOT_FOUND, not REVIEW. -/
theorem match_invalid_qty_counterexample :
    (sampleItem "ELC100" none).Qty = none ∧
    ((NewMatcher Config.defaults ambiguousCatalog).Match RangeOrder.stored
        (sampleItem "ELC100" none)).Confidence = 0.80 ∧
    ¬ ((NewMatcher Config.defaults ambiguousCatalog).Match RangeOrder.stored
        (sampleItem "ELC100" none)).Confidence ≤ 0.7 ∧
    ((NewMatcher Config.defaults []).Match RangeOrder.stored
        (sampleItem "ELC100" none)).Status = MatchNotFound := by
  refine ⟨rfl, by decide!, by decide!, by decide!⟩

/-- C4: when the name-or-code looks like a code and the code map holds `k ≥ 2`
products under its normalized code, `Match` returns REVIEW, reason CODE,
confidence 0.80, no product, and exactly `min k 5` candidates, each scored 0.80. -/
theorem match_ambiguous_code (m : Matcher) (ord : RangeOrder) (item : NormalizedItem)
    (nm : String) (k : Nat) (hnm : item.NameOrCode = some nm) (hlooks : LooksLikeCode nm = true)
    (hk : (mapGet [] m.index.ByCode (NormalizeCode nm)).length = k) (h2 : 2 ≤ k) :
    (m.Match ord item).Status = MatchReview ∧
    (m.Match ord item).Reason = ReasonCode ∧
    (m.Match ord item).Confidence = 0.80 ∧
    (m.Match ord item).Product = none ∧
    (m.Match ord item).Candidates.length = min k 5 ∧
    ∀ c ∈ (m.Match ord item).Candidates, c.Score = 0.80 := by
  have hhits := codeHits_of_looksLikeCode m item nm hnm hlooks
  rw [← hhits] at hk
  rcases hc : m.codeHits item with _ | ⟨p, _ | ⟨q, rest⟩⟩
  · rw [hc] at hk
    simp only [List.length_nil] at hk
    omega
  · rw [hc] at hk
    simp only [List.length_cons, List.length_nil] at hk
    omega
  · rw [match_code_many m ord item p q rest hc]
    refine ⟨rfl, rfl, rfl, rfl, ?_, ?_⟩
    · rw [← hk, hc]
      exact toCandidates_length _ _
    · exact toCandidates_score _ _

/-- Witness of C4: two products sharing the normalized articul `ELC100`. -/
theorem match_ambiguous_code_witness :
    (mapGet [] (NewMatcher Config.defaults ambiguousCatalog).index.ByCode
        (NormalizeCode "ELC100")).length = 2 ∧
    ((NewMatcher Config.defaults ambiguousCatalog).Match RangeOrder.stored
        (sampleItem "ELC100" (some 5))).Status = MatchReview ∧
    ((NewMatcher Config.defaults ambiguousCatalog).Match RangeOrder.stored
        (sampleItem "ELC100" (some 5))).Candidates.length = 2 :=
  have h := match_ambiguous_code (NewMatcher Config.defaults ambiguousCatalog)
    RangeOrder.stored (sampleItem "ELC100" (some 5)) "ELC100" 2 rfl (by decide) (by decide)
    (by decide)
  ⟨by decide, h.1, h.2.2.2.2.1⟩

/-- C6: for an item that resolves through a unique exact header match, a
missing or non-positive quantity turns the status into REVIEW and the
confidence into 0.7, and leaves the reason (HEADER), the matched product and
the candidate list as they are for the same item with a positive quantity;
and with a positive quantity the override returns the tier result unchanged. -/
theorem missing_qty_changes_only_status_and_confidence (m : Matcher) (ord : RangeOrder)
    (item : NormalizedItem) (p : ProductRecord) (q1 : ℚ)
    (hq : item.Qty = none ∨ ∃ q, item.Qty = some q ∧ q ≤ 0) (hq1 : 0 < q1)
    (hcode : LooksLikeCode (item.NameOrCode.getD "") = false ∨
      mapGet [] m.index.ByCode (NormalizeCode (item.NameOrCode.getD "")) = [])
    (hhdr : mapGet [] m.index.ByHeader (normalizedQuery item) = [p]) :
    (m.Match ord item).Status = MatchReview ∧
    (m.Match ord item).Confidence = 0.7 ∧
    (m.Match ord item).Reason = ReasonHeader ∧
    (m.Match ord { item with Qty := some q1 }).Status = MatchOK ∧
    (m.Match ord { item with Qty := some q1 }).Confidence = 0.95 ∧
    (m.Match ord item).Reason = (m.Match ord { item with Qty := some q1 }).Reason ∧
    (m.Match ord item).Product = (m.Match ord { item with Qty := some q1 }).Product ∧
    (m.Match ord item).Candidates = (m.Match ord { item with Qty := some q1 }).Candidates ∧
    (∀ (item2 : NormalizedItem) (base : MatchResult),
      (∃ q, item2.Qty = some q ∧ 0 < q) → m.adjustForInvalidQty item2 base = base) := by
  have hc := codeHits_nil_of_fallthrough m item hcode
  have hc1 : m.codeHits { item with Qty := some q1 } = [] :=
    codeHits_nil_of_fallthrough m { item with Qty := some q1 } hcode
  have hh1 : m.headerHits { item with Qty := some q1 } = [p] := hhdr
  rw [match_header_unique m ord item p hc hhdr,
    match_header_unique m ord { item with Qty := some q1 } p hc1 hh1,
    adjust_of_invalid m item _ hq,
    adjust_of_pos m { item with Qty := some q1 } _ ⟨q1, rfl, hq1⟩]
  refine ⟨rfl, ?_, rfl, rfl, rfl, rfl, rfl, rfl, fun item2 base h => adjust_of_pos m item2 base h⟩
  show (if (0.95 : ℚ) > 0.7 then (0.7 : ℚ) else 0.95) = 0.7
  norm_num

/-- Witness of C6: a product name matched exactly, without quantity. -/
theorem missing_qty_changes_only_status_and_confidence_witness :
    ((NewMatcher Config.defaults cableCatalog).Match RangeOrder.stored
        (lineItem "кабель ВВГнг 3х4" none)).Status = MatchReview ∧
    ((NewMatcher Config.defaults cableCatalog).Match RangeOrder.stored
        (lineItem "кабель ВВГнг 3х4" none)).Confidence = 0.7 ∧
    ((NewMatcher Config.defaults cableCatalog).Match RangeOrder.stored
        (lineItem "кабель ВВГнг 3х4" none)).Reason = ReasonHeader :=
  have h := missing_qty_changes_only_status_and_confidence
    (NewMatcher Config.defaults cableCatalog) RangeOrder.stored
    (lineItem "кабель ВВГнг 3х4" none) (sampleProduct 2 "Кабель ВВГнг 3x4" (some "ELC0100203803"))
    1 (Or.inl rfl) (by norm_num) (Or.inl (by decide)) (by decide)
  ⟨h.1, h.2.1, h.2.2.1⟩

/-- C8: against an index built from zero products, `Match` returns NOT_FOUND
with reason NONE, confidence 0, no product and no candidate, for every item
and every visiting order. -/
theorem match_empty_catalog (cfg : Config) (ord : RangeOrder) (item : NormalizedItem) :
    (NewMatcher cfg []).Match ord item =
      { Status := MatchNotFound, Confidence := 0, Reason := ReasonNone, Product := none,
        Candidates := [] } := by
  apply match_fuzzy_nil
  · unfold Matcher.codeHits
    split
    · rfl
    · rfl
  · rfl
  · exact rankCandidates_empty_index cfg ord _

/-- C10: the candidate list of every result of `Match` has at most 5 entries
and its scores are in non-increasing order. -/
theorem match_candidates_bounded_sorted (m : Matcher) (ord : RangeOrder)
    (item : NormalizedItem) :
    (m.Match ord item).Candidates.length ≤ 5 ∧
    ((m.Match ord item).Candidates.map (fun c => c.Score)).Sorted (fun a b => a ≥ b) := by
  have hadj : ∀ base, (m.adjustForInvalidQty item base).Candidates = base.Candidates := by
    intro base
    unfold Matcher.adjustForInvalidQty
    split
    · split <;> rfl
    · rfl
  have hmany : ∀ (ps : List ProductRecord) (s : ℚ), (toCandidates ps s).length ≤ 5 ∧
      ((toCandidates ps s).map (fun c => c.Score)).Sorted (fun a b => a ≥ b) := by
    intro ps s
    refine ⟨?_, sorted_of_const_score _ s (toCandidates_score ps s)⟩
    rw [toCandidates_length]
    exact Nat.min_le_right _ _
  rcases hc : m.codeHits item with _ | ⟨p, _ | ⟨q, rest⟩⟩
  · rcases hh : m.headerHits item with _ | ⟨p, _ | ⟨q, rest⟩⟩
    · rcases hr : m.rankCandidates ord (normalizedQuery item) with _ | ⟨top1, rest⟩
      · rw [match_fuzzy_nil m ord item hc hh hr]
        simp
      · rw [match_fuzzy_cons m ord item top1 rest hc hh hr, hadj, fuzzyResult_candidates, ← hr]
        refine ⟨rankCandidates_length m ord _, ?_⟩
        unfold List.Sorted
        rw [List.pairwise_map]
        exact rankCandidates_sorted m ord _
    · rw [match_header_unique m ord item p hc hh, hadj]
      simp
    · rw [match_header_many m ord item p q rest hc hh]
      exact hmany _ _
  · rw [match_code_unique m ord item p hc, hadj]
    simp
  · rw [match_code_many m ord item p q rest hc]
    exact hmany _ _

/-- C7: in the fuzzy tier (code and header tiers fell through, the ranker
returned `top1 :: rest`, quantity positive) `Match` returns OK with reason FUZZY
exactly when `top1.Score ≥ okThreshold` and `gap ≥ gapThreshold`; otherwise
REVIEW with reason FUZZY exactly when `top1.Score ≥ reviewThreshold`; otherwise
NOT_FOUND with reason NONE; the confidence is `top1.Score` in all three cases.
Here `gap` is `top1.Score - top2.Score`, a float64 subtraction, or `top1.Score`
when there is a single candidate. With okThreshold 0.90 and gapThreshold 0.08,
scores 0.91 and 0.80 give OK, and scores 0.91 and 0.85 give REVIEW
(reviewThreshold 0.72), each decimal standing for the float64 nearest to it. -/
theorem match_fuzzy_decision (m : Matcher) (ord : RangeOrder) (item : NormalizedItem)
    (top1 : MatchCandidate) (rest : List MatchCandidate)
    (hq : ∃ q, item.Qty = some q ∧ 0 < q)
    (hcode : LooksLikeCode (item.NameOrCode.getD "") = false ∨
      mapGet [] m.index.ByCode (NormalizeCode (item.NameOrCode.getD "")) = [])
    (hhdr : mapGet [] m.index.ByHeader (normalizedQuery item) = [])
    (hrank : m.rankCandidates ord (normalizedQuery item) = top1 :: rest) :
    ((m.Match ord item).Status = MatchOK ∧ (m.Match ord item).Reason = ReasonFuzzy ↔
      top1.Score ≥ m.cfg.MatchOKThreshold ∧ fuzzyGap top1 rest ≥ m.cfg.MatchGapThreshold) ∧
    (¬ (top1.Score ≥ m.cfg.MatchOKThreshold ∧ fuzzyGap top1 rest ≥ m.cfg.MatchGapThreshold) →
      ((m.Match ord item).Status = MatchReview ∧ (m.Match ord item).Reason = ReasonFuzzy ↔
        top1.Score ≥ m.cfg.MatchReviewThreshold)) ∧
    (¬ (top1.Score ≥ m.cfg.MatchOKThreshold ∧ fuzzyGap top1 rest ≥ m.cfg.MatchGapThreshold) →
      ¬ top1.Score ≥ m.cfg.MatchReviewThreshold →
      (m.Match ord item).Status = MatchNotFound ∧ (m.Match ord item).Reason = ReasonNone) ∧
    (m.Match ord item).Confidence = top1.Score ∧
    (∀ second more, rest = second :: more → top1.Score = roundFloat64 0.91 →
      second.Score = roundFloat64 0.80 →
      m.cfg.MatchOKThreshold = roundFloat64 0.90 → m.cfg.MatchGapThreshold = roundFloat64 0.08 →
      (m.Match ord item).Status = MatchOK ∧ (m.Match ord item).Reason = ReasonFuzzy) ∧
    (∀ second more, rest = second :: more → top1.Score = roundFloat64 0.91 →
      second.Score = roundFloat64 0.85 →
      m.cfg.MatchOKThreshold = roundFloat64 0.90 → m.cfg.MatchGapThreshold = roundFloat64 0.08 →
      m.cfg.MatchReviewThreshold = roundFloat64 0.72 →
      (m.Match ord item).Status = MatchReview ∧ (m.Match ord item).Reason = ReasonFuzzy) := by
  have hc := codeHits_nil_of_fallthrough m item hcode
  have hmatch := match_fuzzy_cons m ord item top1 rest hc hhdr hrank
  rw [adjust_of_pos m item _ hq] at hmatch
  have hres : fuzzyResult m top1 rest =
      if top1.Score ≥ m.cfg.MatchOKThreshold ∧ fuzzyGap top1 rest ≥ m.cfg.MatchGapThreshold then
        { Status := MatchOK, Confidence := top1.Score, Reason := ReasonFuzzy,
          Product := some (toMatchProduct (mapGet ProductRecord.zero m.index.ProductsByID top1.ID)),
          Candidates := top1 :: rest }
      else if top1.Score ≥ m.cfg.MatchReviewThreshold then
        { Status := MatchReview, Confidence := top1.Score, Reason := ReasonFuzzy,
          Product := some (toMatchProduct (mapGet ProductRecord.zero m.index.ProductsByID top1.ID)),
          Candidates := top1 :: rest }
      else
        { Status := MatchNotFound, Confidence := top1.Score, Reason := ReasonNone,
          Product := none, Candidates := top1 :: rest } := rfl
  rw [hmatch, hres]
  refine ⟨?_, ?_, ?_, ?_, ?_, ?_⟩
  · by_cases h1 : top1.Score ≥ m.cfg.MatchOKThreshold ∧
        fuzzyGap top1 rest ≥ m.cfg.MatchGapThreshold
    · simp [h1]
    · by_cases h2 : top1.Score ≥ m.cfg.MatchReviewThreshold <;> simp [h1, h2]
  · intro h1
    by_cases h2 : top1.Score ≥ m.cfg.MatchReviewThreshold <;> simp [h1, h2]
  · intro h1 h2
    simp [h1, h2]
  · by_cases h1 : top1.Score ≥ m.cfg.MatchOKThreshold ∧
        fuzzyGap top1 rest ≥ m.cfg.MatchGapThreshold
    · simp [h1]
    · by_cases h2 : top1.Score ≥ m.cfg.MatchReviewThreshold <;> simp [h1, h2]
  · intro second more hrest h91 h80 hok hgap
    have h1 : top1.Score ≥ m.cfg.MatchOKThreshold ∧
        fuzzyGap top1 rest ≥ m.cfg.MatchGapThreshold := by
      rw [hok, hgap, hrest]
      simp only [fuzzyGap, h91, h80]
      decide!
    simp [h1]
  · intro second more hrest h91 h85 hok hgap hreview
    have h1 : ¬ (top1.Score ≥ m.cfg.MatchOKThreshold ∧
        fuzzyGap top1 rest ≥ m.cfg.MatchGapThreshold) := by
      rw [hok, hgap, hrest]
      simp only [fuzzyGap, h91, h85]
      decide!
    have h2 : top1.Score ≥ m.cfg.MatchReviewThreshold := by
      rw [hreview, h91]
      decide!
    simp [h1, h2]

/-- Witness of C7: the query against a catalog scoring the float64 values of
0.91 and 0.80 is accepted, and against a catalog scoring those of 0.91 and
0.85 it goes to review. -/
theorem match_fuzzy_decision_witness :
    ((NewMatcher Config.defaults fuzzyCatalogClear).rankCandidates RangeOrder.stored
        (normalizedQuery fuzzyQuery)).map (fun c => c.Score)
      = [roundFloat64 0.91, roundFloat64 0.80] ∧
    ((NewMatcher Config.defaults fuzzyCatalogClear).Match RangeOrder.stored
        fuzzyQuery).Status = MatchOK ∧
    ((NewMatcher Config.defaults fuzzyCatalogClose).rankCandidates RangeOrder.stored
        (normalizedQuery fuzzyQuery)).map (fun c => c.Score)
      = [roundFloat64 0.91, roundFloat64 0.85] ∧
    ((NewMatcher Config.defaults fuzzyCatalogClose).Match RangeOrder.stored
        fuzzyQuery).Status = MatchReview :=
  have h1 := match_fuzzy_decision (NewMatcher Config.defaults fuzzyCatalogClear)
    RangeOrder.stored fuzzyQuery
    ⟨1, none, "БЕЛЫЙ АВВГ ГОСТ ЭКРАН КРУГЛЫЙ КАБЕЛЬ", roundFloat64 0.91⟩
    [⟨2, none, "БЕЛЫЙ КРУГЛЫЙ ПВС ЭКРАН КАБЕЛЬ БЕЛЫЙ", roundFloat64 0.80⟩]
    ⟨3, rfl, by norm_num⟩ (Or.inl (by decide)) (by decide!) (by decide!)
  have h2 := match_fuzzy_decision (NewMatcher Config.defaults fuzzyCatalogClose)
    RangeOrder.stored fuzzyQuery
    ⟨1, none, "БЕЛЫЙ АВВГ ГОСТ ЭКРАН КРУГЛЫЙ КАБЕЛЬ", roundFloat64 0.91⟩
    [⟨3, none, "КАБЕЛЬ АВВГ БЕЛЫЙ КРУГЛЫЙ ШВВП ЭКРАН ВВГ КГ БЕЛЫЙ", roundFloat64 0.85⟩]
    ⟨3, rfl, by norm_num⟩ (Or.inl (by decide)) (by decide!) (by decide!)
  ⟨by decide!, (h1.2.2.2.2.1 _ _ rfl rfl rfl rfl rfl).1, by decide!,
    (h2.2.2.2.2.2 _ _ rfl rfl rfl rfl rfl rfl).1⟩

/-- Scores are float64 values: the header of `thresholdCatalog` shares 51 of
52 bigrams and 3 of 4 tokens with the query, so its score is
`0.65 * (102/104) + 0.35 * (3/4)`, which is 0.9 in exact arithmetic; the
float64 operations give a score below the float64 threshold `0.90`, and `Match`
returns REVIEW. -/
theorem match_fuzzy_threshold_rounding :
    DiceCoefficient (normalizedQuery thresholdQuery)
        "ABCDEFGHIJKL MNOPQRSTUVWX YZABCDEFGHIJ KLMNOPQRSTUVWY" = roundFloat64 (102 / 104) ∧
    ((NewMatcher Config.defaults thresholdCatalog).rankCandidates RangeOrder.stored
        (normalizedQuery thresholdQuery)).map (fun c => c.Score)
      = [roundFloat64 (roundFloat64 (roundFloat64 0.65 * roundFloat64 (102 / 104)) +
          roundFloat64 (roundFloat64 0.35 * roundFloat64 (3 / 4)))] ∧
    roundFloat64 (roundFloat64 (roundFloat64 0.65 * roundFloat64 (102 / 104)) +
        roundFloat64 (roundFloat64 0.35 * roundFloat64 (3 / 4))) < roundFloat64 0.90 ∧
    (0.65 : ℚ) * (102 / 104) + 0.35 * (3 / 4) = 0.90 ∧
    ((NewMatcher Config.defaults thresholdCatalog).Match RangeOrder.stored
        thresholdQuery).Status = MatchReview := by
  refine ⟨by decide!, by decide!, by decide!, by norm_num, by decide!⟩

/-! ## Contents of the code map and of the header map -/

theorem mapGet_mapSet {κ ν : Type} [DecidableEq κ] (d : ν) (m : List (κ × ν)) (k k1 : κ)
    (v : ν) : mapGet d (mapSet m k v) k1 = if k = k1 then v else mapGet d m k1 := by
  induction m with
  | nil =>
    simp only [mapSet, mapGet]
  | cons e m ih =>
    obtain ⟨k0, v0⟩ := e
    simp only [mapSet]
    by_cases h0 : k0 = k
    · subst h0
      simp only [if_true, mapGet]
      by_cases h1 : k0 = k1 <;> simp [h1]
    · simp only [h0, if_false, mapGet, ih]
      by_cases h1 : k0 = k1
      · have : k ≠ k1 := fun h => h0 (h1.trans h.symm)
        simp [h1, this]
      · simp [h1]

theorem mapGet_addCode (p : ProductRecord) (byCode : List (String × List ProductRecord))
    (c : Option String) (k : String) (hk : k ≠ "") :
    mapGet [] (addCode p byCode c) k =
      mapGet [] byCode k ++ (if c.map NormalizeCode = some k then [p] else []) := by
  cases c with
  | none => simp [addCode]
  | some s =>
    simp only [addCode, Option.map_some', Option.some.injEq]
    by_cases he : NormalizeCode s = ""
    · have hne : ¬ "" = k := fun h => hk h.symm
      simp [he, hne]
    · simp only [he, if_false, mapGet_mapSet]
      by_cases hs : NormalizeCode s = k
      · simp [hs]
      · simp [hs]

theorem mapGet_foldl_addCode (p : ProductRecord) (k : String) (hk : k ≠ "") :
    ∀ (fields : List (Option String)) (byCode : List (String × List ProductRecord)),
      mapGet [] (fields.foldl (addCode p) byCode) k =
        mapGet [] byCode k ++
          (fields.filter (fun c => c.map NormalizeCode = some k)).map (fun _ => p) := by
  intro fields
  induction fields with
  | nil => intro byCode; simp
  | cons c cs ih =>
    intro byCode
    rw [List.foldl_cons, ih, mapGet_addCode p byCode c k hk]
    by_cases hc : c.map NormalizeCode = some k
    · rw [List.filter_cons_of_pos (by simpa using hc)]
      simp only [hc, if_true, List.map_cons, List.append_assoc, List.singleton_append]
    · rw [List.filter_cons_of_neg (by simpa using hc)]
      simp only [hc, if_false, List.append_nil]

theorem mapGet_byCode_foldl (k : String) (hk : k ≠ "") :
    ∀ (products : List ProductRecord) (idx : Index),
      mapGet [] (products.foldl indexProduct idx).ByCode k =
        mapGet [] idx.ByCode k ++ products.flatMap (fun p => codeEntries p k) := by
  intro products
  induction products with
  | nil => intro idx; simp
  | cons p ps ih =>
    intro idx
    rw [List.foldl_cons, ih]
    have : (indexProduct idx p).ByCode = (codeFields p).foldl (addCode p) idx.ByCode := rfl
    rw [this, mapGet_foldl_addCode p k hk]
    simp [codeEntries, List.flatMap_cons]

/-- The entry of the code map of `BuildIndex products` under a non-empty key:
the copies of the products carrying that code, in catalog order. -/
theorem mapGet_byCode_buildIndex (products : List ProductRecord) (k : String) (hk : k ≠ "") :
    mapGet [] (BuildIndex products).ByCode k = products.flatMap (fun p => codeEntries p k) := by
  unfold BuildIndex
  rw [mapGet_byCode_foldl k hk]
  rfl

theorem codeEntries_eq_replicate (p : ProductRecord) (k : String) :
    codeEntries p k = List.replicate (codeFieldCount p k) p := by
  unfold codeEntries codeFieldCount
  generalize (codeFields p).filter (fun c => c.map NormalizeCode = some k) = l
  induction l with
  | nil => rfl
  | cons c cs ih => simp [List.replicate_succ, ih]

theorem mem_foldl_setAdd {κ : Type} [DecidableEq κ] (x : κ) :
    ∀ (l init : List κ), x ∈ l.foldl setAdd init ↔ x ∈ init ∨ x ∈ l := by
  intro l
  induction l with
  | nil => intro init; simp
  | cons a as ih =>
    intro init
    rw [List.foldl_cons, ih]
    unfold setAdd
    by_cases ha : a ∈ init
    · simp only [ha, if_true, List.mem_cons]
      constructor
      · rintro (h | h)
        · exact Or.inl h
        · exact Or.inr (Or.inr h)
      · rintro (h | h | h)
        · exact Or.inl h
        · exact Or.inl (h ▸ ha)
        · exact Or.inr h
    · simp only [ha, if_false, List.mem_append, List.mem_singleton, List.mem_cons]
      tauto

theorem nodup_foldl_setAdd {κ : Type} [DecidableEq κ] :
    ∀ (l init : List κ), init.Nodup → (l.foldl setAdd init).Nodup := by
  intro l
  induction l with
  | nil => intro init h; exact h
  | cons a as ih =>
    intro init h
    rw [List.foldl_cons]
    apply ih
    unfold setAdd
    by_cases ha : a ∈ init
    · simp only [ha, if_true]
      exact h
    · simp only [ha, if_false]
      rw [List.nodup_append]
      refine ⟨h, List.nodup_singleton a, ?_⟩
      intro x hx hx1
      rw [List.mem_singleton] at hx1
      exact ha (hx1 ▸ hx)

theorem mem_postedIDs (m : Matcher) (ord : RangeOrder) (x : Int) :
    ∀ (toks : List String) (init : List Int),
      x ∈ m.postedIDs ord toks init ↔
        x ∈ init ∨ ∃ token ∈ toks, x ∈ mapGet [] m.index.TokenToProductIDs token := by
  intro toks
  induction toks with
  | nil => intro init; simp [Matcher.postedIDs]
  | cons t ts ih =>
    intro init
    have hstep : m.postedIDs ord (t :: ts) init =
        m.postedIDs ord ts
          ((ord.run (mapGet [] m.index.TokenToProductIDs t)).foldl setAdd init) := rfl
    rw [hstep, ih, mem_foldl_setAdd, (ord.perm _).mem_iff]
    simp only [List.mem_cons, exists_eq_or_imp]
    tauto

theorem nodup_postedIDs (m : Matcher) (ord : RangeOrder) :
    ∀ (toks : List String) (init : List Int), init.Nodup →
      (m.postedIDs ord toks init).Nodup := by
  intro toks
  induction toks with
  | nil => intro init h; exact h
  | cons t ts ih =>
    intro init h
    exact ih _ (nodup_foldl_setAdd _ _ h)

theorem candidateIDs_eq (m : Matcher) (ord : RangeOrder) (toks : List String) :
    m.candidateIDs ord toks =
      if (m.postedIDs ord toks []).length = 0 then
        ((ord.run (m.index.ProductsByID.map Prod.fst)).take 1500).foldl setAdd
          (m.postedIDs ord toks [])
      else m.postedIDs ord toks [] := rfl

theorem nodup_candidateIDs (m : Matcher) (ord : RangeOrder) (toks : List String) :
    (m.candidateIDs ord toks).Nodup := by
  rw [candidateIDs_eq]
  have h := nodup_postedIDs m ord toks [] List.nodup_nil
  split
  · exact nodup_foldl_setAdd _ _ h
  · exact h

theorem mem_candidateIDs (m : Matcher) (ord : RangeOrder) (toks : List String) (x : Int)
    (hsize : m.index.ProductsByID.length ≤ 1500) :
    x ∈ m.candidateIDs ord toks ↔
      (∃ token ∈ toks, x ∈ mapGet [] m.index.TokenToProductIDs token) ∨
      ((∀ y, ¬ ∃ token ∈ toks, y ∈ mapGet [] m.index.TokenToProductIDs token) ∧
        x ∈ m.index.ProductsByID.map Prod.fst) := by
  have hposted : ∀ y, y ∈ m.postedIDs ord toks [] ↔
      ∃ token ∈ toks, y ∈ mapGet [] m.index.TokenToProductIDs token := by
    intro y
    rw [mem_postedIDs]
    simp
  have htake : (ord.run (m.index.ProductsByID.map Prod.fst)).take 1500 =
      ord.run (m.index.ProductsByID.map Prod.fst) := by
    apply List.take_of_length_le
    rw [(ord.perm _).length_eq, List.length_map]
    exact hsize
  rw [candidateIDs_eq]
  by_cases hlen : (m.postedIDs ord toks []).length = 0
  · have hnil : m.postedIDs ord toks [] = [] := List.length_eq_zero.mp hlen
    have hnone : ∀ y, ¬ ∃ token ∈ toks, y ∈ mapGet [] m.index.TokenToProductIDs token := by
      intro y hy
      have := (hposted y).mpr hy
      rw [hnil] at this
      simp at this
    simp only [hlen, if_true, htake, mem_foldl_setAdd, (ord.perm _).mem_iff, hposted]
    constructor
    · rintro (h | h)
      · exact Or.inl h
      · exact Or.inr ⟨hnone, h⟩
    · rintro (h | ⟨_, h⟩)
      · exact Or.inl h
      · exact Or.inr h
  · simp only [hlen, if_false, hposted]
    constructor
    · exact Or.inl
    · rintro (h | ⟨hnone, _⟩)
      · exact h
      · exfalso
        cases hp : m.postedIDs ord toks [] with
        | nil => exact hlen (by rw [hp]; rfl)
        | cons y ys =>
          exact hnone y ((hposted y).mp (by rw [hp]; exact List.mem_cons_self _ _))

theorem rankCandidates_eq (m : Matcher) (ord : RangeOrder) (query : String) :
    m.rankCandidates ord query =
      if (sortByScore ((ord.run (m.candidateIDs ord (Tokenize query))).map
          (m.candidateOf query))).length > 5 then
        (sortByScore ((ord.run (m.candidateIDs ord (Tokenize query))).map
          (m.candidateOf query))).take 5
      else sortByScore ((ord.run (m.candidateIDs ord (Tokenize query))).map
          (m.candidateOf query)) := rfl

theorem sortByScore_perm (l : List MatchCandidate) : (sortByScore l).Perm l :=
  List.perm_insertionSort _ l

theorem sortByScore_sorted (l : List MatchCandidate) :
    (sortByScore l).Pairwise (fun a b => a.Score ≥ b.Score) :=
  List.sorted_insertionSort _ l

/-- The identifiers collected for a query are the same for every two visiting
orders, up to their order, when a token of the query has a posting or the
index holds at most 1500 products. -/
theorem candidateIDs_perm (m : Matcher) (ord1 ord2 : RangeOrder) (toks : List String)
    (h : (∃ token ∈ toks, mapGet [] m.index.TokenToProductIDs token ≠ []) ∨
      m.index.ProductsByID.length ≤ 1500) :
    (m.candidateIDs ord1 toks).Perm (m.candidateIDs ord2 toks) := by
  rw [List.perm_ext_iff_of_nodup (nodup_candidateIDs _ _ _) (nodup_candidateIDs _ _ _)]
  intro x
  rcases h with ⟨token, htok, hpost⟩ | hsize
  · have hposted : ∀ ord : RangeOrder, x ∈ m.candidateIDs ord toks ↔
        ∃ token ∈ toks, x ∈ mapGet [] m.index.TokenToProductIDs token := by
      intro ord
      obtain ⟨y, hy⟩ := List.exists_mem_of_ne_nil _ hpost
      have hmem : y ∈ m.postedIDs ord toks [] :=
        (mem_postedIDs m ord y toks []).mpr (Or.inr ⟨token, htok, hy⟩)
      have hlen : ¬ (m.postedIDs ord toks []).length = 0 := by
        intro h0
        rw [List.length_eq_zero.mp h0] at hmem
        exact absurd hmem (List.not_mem_nil y)
      rw [candidateIDs_eq, if_neg hlen, mem_postedIDs]
      simp
    rw [hposted ord1, hposted ord2]
  · rw [mem_candidateIDs m ord1 _ x hsize, mem_candidateIDs m ord2 _ x hsize]

/-- With no two candidates of equal score, the ranking does not depend on the
visiting order, provided a token of the query has a posting or the index
holds at most 1500 products. -/
theorem rankCandidates_order_independent (m : Matcher) (ord1 ord2 : RangeOrder)
    (query : String)
    (hids : (∃ token ∈ Tokenize query, mapGet [] m.index.TokenToProductIDs token ≠ []) ∨
      m.index.ProductsByID.length ≤ 1500)
    (hscores : ((m.candidateIDs ord1 (Tokenize query)).map
      (fun i => (m.candidateOf query i).Score)).Nodup) :
    m.rankCandidates ord1 query = m.rankCandidates ord2 query := by
  have hdistinct : ∀ i j, i ∈ m.candidateIDs ord1 (Tokenize query) →
      j ∈ m.candidateIDs ord1 (Tokenize query) → i ≠ j →
      (m.candidateOf query i).Score ≠ (m.candidateOf query j).Score :=
    fun i j hi hj hij h => hij (List.inj_on_of_nodup_map hscores hi hj h)
  have hperm : (m.candidateIDs ord1 (Tokenize query)).Perm
      (m.candidateIDs ord2 (Tokenize query)) := candidateIDs_perm m ord1 ord2 _ hids
  have hout : ((ord1.run (m.candidateIDs ord1 (Tokenize query))).map (m.candidateOf query)).Perm
      ((ord2.run (m.candidateIDs ord2 (Tokenize query))).map (m.candidateOf query)) :=
    (((ord1.perm _).trans hperm).trans (ord2.perm _).symm).map _
  have hsorted : sortByScore
        ((ord1.run (m.candidateIDs ord1 (Tokenize query))).map (m.candidateOf query)) =
      sortByScore
        ((ord2.run (m.candidateIDs ord2 (Tokenize query))).map (m.candidateOf query)) := by
    have hboth : (sortByScore ((ord1.run (m.candidateIDs ord1 (Tokenize query))).map
          (m.candidateOf query))).Perm
        (sortByScore ((ord2.run (m.candidateIDs ord2 (Tokenize query))).map
          (m.candidateOf query))) :=
      ((sortByScore_perm _).trans hout).trans (sortByScore_perm _).symm
    refine @List.Perm.eq_of_sorted _ (fun a b => a.Score ≥ b.Score) _ _ ?_ ?_ ?_ ?_
    · intro a b ha hb hab hba
      have ha1 := (sortByScore_perm _).mem_iff.mp ha
      have hb1 := (sortByScore_perm _).mem_iff.mp (hboth.mem_iff.mpr hb)
      rw [List.mem_map] at ha1 hb1
      obtain ⟨i, hi, rfl⟩ := ha1
      obtain ⟨j, hj, rfl⟩ := hb1
      rw [(ord1.perm _).mem_iff] at hi hj
      by_cases hij : i = j
      · rw [hij]
      · exact absurd (le_antisymm hba hab) (hdistinct i j hi hj hij)
    · exact sortByScore_sorted _
    · exact sortByScore_sorted _
    · exact hboth
  rw [rankCandidates_eq, rankCandidates_eq, hsorted]

/-- C9 (as amended): the result of `Match` is the same for every two visiting
orders of the maps whenever the code tier or the header tier decides, and
also in the fuzzy tier when the candidates scored for the query have pairwise
distinct scores and either a token of the query occurs in the token index or
the index holds at most 1500 products. -/
theorem match_order_independent (m : Matcher) (ord1 ord2 : RangeOrder) (item : NormalizedItem)
    (h : m.codeTier item ≠ none ∨ m.headerTier item ≠ none ∨
      (((∃ token ∈ Tokenize (normalizedQuery item),
            mapGet [] m.index.TokenToProductIDs token ≠ []) ∨
          m.index.ProductsByID.length ≤ 1500) ∧
        ((m.candidateIDs ord1 (Tokenize (normalizedQuery item))).map
          (fun i => (m.candidateOf (normalizedQuery item) i).Score)).Nodup)) :
    m.Match ord1 item = m.Match ord2 item := by
  unfold Matcher.Match
  cases hc : m.codeTier item with
  | some r => rfl
  | none =>
    cases hh : m.headerTier item with
    | some r => rfl
    | none =>
      rcases h with h | h | ⟨hids, hscores⟩
      · exact absurd hc h
      · exact absurd hh h
      · simp only
        unfold Matcher.fuzzyTier
        rw [rankCandidates_order_independent m ord1 ord2 _ hids hscores]

/-- Witness of C9 (as amended): two candidates of different scores, found
through the token index, are ranked alike when the keys are visited in stored
and in descending order; so is every product of a small index when no token of
the query is indexed. -/
theorem match_order_independent_witness :
    (NewMatcher Config.defaults cableCatalog).Match RangeOrder.stored
        (lineItem "кабель ввг 3х4" (some 2)) =
      (NewMatcher Config.defaults cableCatalog).Match RangeOrder.descending
        (lineItem "кабель ввг 3х4" (some 2)) ∧
    (NewMatcher Config.defaults cableCatalog).Match RangeOrder.stored
        (lineItem "кабел ввгн" (some 2)) =
      (NewMatcher Config.defaults cableCatalog).Match RangeOrder.descending
        (lineItem "кабел ввгн" (some 2)) :=
  ⟨match_order_independent (NewMatcher Config.defaults cableCatalog) RangeOrder.stored
      RangeOrder.descending (lineItem "кабель ввг 3х4" (some 2))
      (Or.inr (Or.inr ⟨Or.inl (by decide), by decide!⟩)),
    match_order_independent (NewMatcher Config.defaults cableCatalog) RangeOrder.stored
      RangeOrder.descending (lineItem "кабел ввгн" (some 2))
      (Or.inr (Or.inr ⟨Or.inr (by decide), by decide!⟩))⟩

/-- Counterexample to C9 as stated: with two candidates of equal score, the
same item, index and thresholds give candidate lists in different orders when
the keys are visited in stored and in descending order. -/
theorem match_order_dependent_counterexample :
    ((NewMatcher Config.defaults tiedCatalog).Match RangeOrder.stored
        (lineItem "Кабель ВВГ" (some 2))).Candidates.map (fun c => c.ID) = [1, 2] ∧
    ((NewMatcher Config.defaults tiedCatalog).Match RangeOrder.descending
        (lineItem "Кабель ВВГ" (some 2))).Candidates.map (fun c => c.ID) = [2, 1] ∧
    (NewMatcher Config.defaults tiedCatalog).Match RangeOrder.stored
        (lineItem "Кабель ВВГ" (some 2)) ≠
      (NewMatcher Config.defaults tiedCatalog).Match RangeOrder.descending
        (lineItem "Кабель ВВГ" (some 2)) := by
  refine ⟨by decide!, by decide!, by decide!⟩

/-- C3: `NormalizeHeader` applied to the area unit written with two spaces
returns `КВ ММ`, and applied to that result it returns `MM2`: the second
application changes the string. -/
theorem normalizeHeader_twice_differs :
    NormalizeHeader "кв  мм" = "КВ ММ" ∧
    NormalizeHeader (NormalizeHeader "кв  мм") = "MM2" ∧
    NormalizeHeader (NormalizeHeader "кв  мм") ≠ NormalizeHeader "кв  мм" := by
  refine ⟨by decide, by decide, by decide⟩

/-! ## The Dice coefficient -/

theorem zipWith_tail_eq_bigrams :
    ∀ r : List Char, List.zipWith (fun x y => String.mk [x, y]) r r.tail = bigramsOfRunes r := by
  intro r
  induction r with
  | nil => rfl
  | cons x xs ih =>
    cases xs with
    | nil => rfl
    | cons y ys =>
      simp only [List.tail_cons, List.zipWith_cons_cons, bigramsOfRunes]
      rw [← ih]
      rfl

theorem bigramsOfRunes_length : ∀ r : List Char, (bigramsOfRunes r).length = r.length - 1 := by
  intro r
  induction r with
  | nil => rfl
  | cons x xs ih =>
    cases xs with
    | nil => rfl
    | cons y ys =>
      simp only [bigramsOfRunes, List.length_cons] at ih ⊢
      omega

theorem pairs_eq_bigrams (s : String) : pairs s = bigrams s := by
  unfold pairs bigrams
  simp only
  split
  · rename_i h
    rcases hs : s.data with _ | ⟨x, _ | ⟨y, ys⟩⟩
    · rfl
    · rfl
    · rw [hs] at h
      simp only [List.length_cons] at h
      omega
  · exact zipWith_tail_eq_bigrams _

theorem bigrams_length (s : String) : (bigrams s).length = s.length - 1 :=
  bigramsOfRunes_length s.data

theorem mapGet_countPairs (p : String) :
    ∀ (bPairs : List String) (m0 : List (String × Nat)),
      mapGet 0 (countPairs bPairs m0) p = mapGet 0 m0 p + bPairs.count p := by
  intro bPairs
  induction bPairs with
  | nil => intro m0; simp [countPairs]
  | cons q qs ih =>
    intro m0
    have hstep : countPairs (q :: qs) m0 = countPairs qs (mapSet m0 q (mapGet 0 m0 q + 1)) := rfl
    rw [hstep, ih, mapGet_mapSet, List.count_cons]
    by_cases hq : q = p
    · subst hq
      simp
      omega
    · have : (q == p) = false := by simpa using hq
      simp [hq, this]

/-- The counting loop returns the sum, over any finite set holding the pairs of
`a`, of the minimum of the two counts. -/
theorem diceInter_eq_sum (S : Finset String) :
    ∀ (ps : List String) (m : List (String × Nat)) (inter : Nat), (∀ p ∈ ps, p ∈ S) →
      diceInter ps m inter = inter + ∑ p ∈ S, min (ps.count p) (mapGet 0 m p) := by
  intro ps
  induction ps with
  | nil => intro m inter _; simp [diceInter]
  | cons q qs ih =>
    intro m inter hS
    have hq : q ∈ S := hS q (List.mem_cons_self _ _)
    have hqs : ∀ p ∈ qs, p ∈ S := fun p hp => hS p (List.mem_cons_of_mem _ hp)
    rw [diceInter]
    by_cases hpos : mapGet 0 m q > 0
    · simp only [hpos, if_true]
      rw [ih _ _ hqs, ← Finset.add_sum_erase S _ hq, ← Finset.add_sum_erase S _ hq]
      have hrest : ∀ p ∈ S.erase q,
          min (qs.count p) (mapGet 0 (mapSet m q (mapGet 0 m q - 1)) p) =
            min ((q :: qs).count p) (mapGet 0 m p) := by
        intro p hp
        have hne : q ≠ p := fun h => (Finset.ne_of_mem_erase hp) h.symm
        have hbeq : (q == p) = false := by simpa using hne
        rw [mapGet_mapSet, List.count_cons]
        simp [hne, hbeq]
      rw [Finset.sum_congr rfl hrest, mapGet_mapSet, List.count_cons]
      simp only [if_true, beq_self_eq_true]
      have : min (qs.count q) (mapGet 0 m q - 1) + 1 = min (qs.count q + 1) (mapGet 0 m q) := by
        rw [Nat.min_def, Nat.min_def]
        split <;> split <;> omega
      omega
    · simp only [hpos, if_false]
      have hzero : mapGet 0 m q = 0 := by omega
      rw [ih _ _ hqs, ← Finset.add_sum_erase S _ hq, ← Finset.add_sum_erase S _ hq]
      have hrest : ∀ p ∈ S.erase q,
          min (qs.count p) (mapGet 0 m p) = min ((q :: qs).count p) (mapGet 0 m p) := by
        intro p hp
        have hne : q ≠ p := fun h => (Finset.ne_of_mem_erase hp) h.symm
        have hbeq : (q == p) = false := by simpa using hne
        rw [List.count_cons]
        simp [hbeq]
      rw [Finset.sum_congr rfl hrest, hzero]
      simp

theorem bagIntersectionSize_eq_sum (xs ys : List String) :
    bagIntersectionSize xs ys =
      ∑ p ∈ (xs ++ ys).toFinset, min (xs.count p) (ys.count p) := by
  unfold bagIntersectionSize
  rw [← List.sum_toFinset _ (List.nodup_dedup _)]
  have : ((xs ++ ys).dedup).toFinset = (xs ++ ys).toFinset := by
    ext p
    simp
  rw [this]

theorem diceInter_eq_bagIntersectionSize (aPairs bPairs : List String) :
    diceInter aPairs (countPairs bPairs []) 0 = bagIntersectionSize aPairs bPairs := by
  rw [diceInter_eq_sum (aPairs ++ bPairs).toFinset aPairs _ 0
    (fun p hp => by simp [hp]), bagIntersectionSize_eq_sum, Nat.zero_add]
  apply Finset.sum_congr rfl
  intro p _
  rw [mapGet_countPairs]
  simp [mapGet]

theorem bagIntersectionSize_comm (xs ys : List String) :
    bagIntersectionSize xs ys = bagIntersectionSize ys xs := by
  rw [bagIntersectionSize_eq_sum, bagIntersectionSize_eq_sum]
  have : (xs ++ ys).toFinset = (ys ++ xs).toFinset := by
    ext p
    simp [or_comm]
  rw [this]
  apply Finset.sum_congr rfl
  intro p _
  exact Nat.min_comm _ _

theorem bagIntersectionSize_le_left (xs ys : List String) :
    bagIntersectionSize xs ys ≤ xs.length := by
  have h : ∀ (m : List (String × Nat)) (inter : Nat),
      diceInter xs m inter ≤ inter + xs.length := by
    induction xs with
    | nil => intro m inter; simp [diceInter]
    | cons q qs ih =>
      intro m inter
      rw [diceInter]
      split
      · have := ih (mapSet m q (mapGet 0 m q - 1)) (inter + 1)
        simp only [List.length_cons]
        omega
      · have := ih m inter
        simp only [List.length_cons]
        omega
  have := h (countPairs ys []) 0
  rw [diceInter_eq_bagIntersectionSize] at this
  omega

theorem bagIntersectionSize_le_right (xs ys : List String) :
    bagIntersectionSize xs ys ≤ ys.length := by
  rw [bagIntersectionSize_comm]
  exact bagIntersectionSize_le_left ys xs

/-- The value of `DiceCoefficient` on two different non-empty strings. -/
theorem dice_of_ne (a b : String) (ha : a ≠ "") (hb : b ≠ "") (hab : a ≠ b) :
    DiceCoefficient a b =
      if (bigrams a).length = 0 ∨ (bigrams b).length = 0 then 0
      else roundFloat64
        (roundFloat64 ((2 * bagIntersectionSize (bigrams a) (bigrams b) : Nat) : ℚ) /
          roundFloat64 (((bigrams a).length + (bigrams b).length : Nat) : ℚ)) := by
  unfold DiceCoefficient
  simp only [ha, hb, or_self, if_false, hab, pairs_eq_bigrams]
  split
  · rfl
  · have := diceInter_eq_bagIntersectionSize (bigrams a) (bigrams b)
    unfold countPairs at this
    rw [this]

theorem ne_empty_of_two_le_length (a : String) (ha : 2 ≤ a.length) : a ≠ "" := by
  intro h
  rw [h] at ha
  exact absurd ha (by decide)

theorem dice_nonneg_le_one (a b : String) :
    0 ≤ DiceCoefficient a b ∧ DiceCoefficient a b ≤ 1 := by
  by_cases ha : a = ""
  · simp [DiceCoefficient, ha]
  by_cases hb : b = ""
  · simp [DiceCoefficient, hb]
  by_cases hab : a = b
  · simp [DiceCoefficient, ha, hb, hab]
  rw [dice_of_ne a b ha hb hab]
  split
  · exact ⟨le_refl _, zero_le_one⟩
  · rename_i hlen
    have h1 := bagIntersectionSize_le_left (bigrams a) (bigrams b)
    have h2 := bagIntersectionSize_le_right (bigrams a) (bigrams b)
    have hone : (1 : ℚ) ≤ (((bigrams a).length + (bigrams b).length : Nat) : ℚ) := by
      have : 1 ≤ (bigrams a).length + (bigrams b).length := by omega
      exact_mod_cast this
    have hpos : (0 : ℚ) < roundFloat64 (((bigrams a).length + (bigrams b).length : Nat) : ℚ) := by
      have := roundFloat64_mono 1 _ zero_le_one hone
      rw [roundFloat64_one] at this
      exact lt_of_lt_of_le zero_lt_one this
    have hle : (((2 * bagIntersectionSize (bigrams a) (bigrams b) : Nat)) : ℚ) ≤
        (((bigrams a).length + (bigrams b).length : Nat) : ℚ) := by
      have : 2 * bagIntersectionSize (bigrams a) (bigrams b) ≤
          (bigrams a).length + (bigrams b).length := by omega
      exact_mod_cast this
    apply roundFloat64_unit
    · exact div_nonneg (roundFloat64_nonneg _ (Nat.cast_nonneg _)) (le_of_lt hpos)
    · rw [div_le_one hpos]
      exact roundFloat64_mono _ _ (Nat.cast_nonneg _) hle

theorem scoreHeader_nonneg_le_one (query candidate : String)
    (queryTokens candidateTokens : List String) :
    0 ≤ scoreHeader query candidate queryTokens candidateTokens ∧
      scoreHeader query candidate queryTokens candidateTokens ≤ 1 := by
  obtain ⟨hd0, hd1⟩ := dice_nonneg_le_one query candidate
  unfold scoreHeader
  simp only
  split
  · exact ⟨hd0, hd1⟩
  · rename_i hlen
    have hq : 1 ≤ queryTokens.length := by omega
    have hqone : (1 : ℚ) ≤ (queryTokens.length : ℚ) := by exact_mod_cast hq
    have hqpos : (0 : ℚ) < roundFloat64 (queryTokens.length : ℚ) := by
      have := roundFloat64_mono 1 _ zero_le_one hqone
      rw [roundFloat64_one] at this
      exact lt_of_lt_of_le zero_lt_one this
    have hle : (((queryTokens.filter
        (fun t => decide (t ∈ candidateTokens.foldl setAdd []))).length : ℕ) : ℚ) ≤
          (queryTokens.length : ℚ) := by
      exact_mod_cast List.length_filter_le _ _
    obtain ⟨ht0, ht1⟩ := roundFloat64_unit
      (roundFloat64 ((queryTokens.filter
        (fun t => decide (t ∈ candidateTokens.foldl setAdd []))).length : ℚ) /
          roundFloat64 (queryTokens.length : ℚ))
      (div_nonneg (roundFloat64_nonneg _ (Nat.cast_nonneg _)) (le_of_lt hqpos))
      (by rw [div_le_one hqpos]; exact roundFloat64_mono _ _ (Nat.cast_nonneg _) hle)
    have c65 : (0 : ℚ) ≤ roundFloat64 0.65 := roundFloat64_nonneg _ (by norm_num)
    have c35 : (0 : ℚ) ≤ roundFloat64 0.35 := roundFloat64_nonneg _ (by norm_num)
    have hsum : roundFloat64 (roundFloat64 (roundFloat64 0.65) + roundFloat64 (roundFloat64 0.35))
        = 1 := by decide!
    have h1 := mul_nonneg c65 hd0
    have h2 := mul_nonneg c35 ht0
    have h3 : roundFloat64 0.65 * DiceCoefficient query candidate ≤ roundFloat64 0.65 := by
      have := mul_le_mul_of_nonneg_left hd1 c65
      rwa [mul_one] at this
    have h4 : roundFloat64 0.35 * roundFloat64
        (roundFloat64 ((queryTokens.filter
          (fun t => decide (t ∈ candidateTokens.foldl setAdd []))).length : ℚ) /
            roundFloat64 (queryTokens.length : ℚ)) ≤ roundFloat64 0.35 := by
      have := mul_le_mul_of_nonneg_left ht1 c35
      rwa [mul_one] at this
    have r1 := roundFloat64_nonneg _ h1
    have r2 := roundFloat64_nonneg _ h2
    have r3 := roundFloat64_mono _ _ h1 h3
    have r4 := roundFloat64_mono _ _ h2 h4
    constructor
    · exact roundFloat64_nonneg _ (add_nonneg r1 r2)
    · have := roundFloat64_mono _ _ (add_nonneg r1 r2) (add_le_add r3 r4)
      rwa [hsum] at this

theorem rankCandidates_score_bounds (m : Matcher) (ord : RangeOrder) (query : String) :
    ∀ c ∈ m.rankCandidates ord query, 0 ≤ c.Score ∧ c.Score ≤ 1 := by
  intro c hc
  rw [rankCandidates_eq] at hc
  have hmem : c ∈ sortByScore ((ord.run (m.candidateIDs ord (Tokenize query))).map
      (m.candidateOf query)) := by
    split at hc
    · exact List.mem_of_mem_take hc
    · exact hc
  have := (sortByScore_perm _).mem_iff.mp hmem
  rw [List.mem_map] at this
  obtain ⟨i, _, rfl⟩ := this
  simp only [Matcher.candidateOf]
  exact scoreHeader_nonneg_le_one _ _ _ _

theorem adjust_confidence_bounds (m : Matcher) (item : NormalizedItem) (base : MatchResult)
    (h : 0 ≤ base.Confidence ∧ base.Confidence ≤ 1) :
    0 ≤ (m.adjustForInvalidQty item base).Confidence ∧
      (m.adjustForInvalidQty item base).Confidence ≤ 1 := by
  have hcap : ∀ x : ℚ, 0 ≤ x ∧ x ≤ 1 → 0 ≤ (if x > 0.7 then (0.7 : ℚ) else x) ∧
      (if x > 0.7 then (0.7 : ℚ) else x) ≤ 1 := by
    intro x hx
    split
    · constructor <;> norm_num
    · exact hx
  unfold Matcher.adjustForInvalidQty
  split
  · split
    · exact h
    · exact hcap _ h
  · exact hcap _ h

theorem adjust_candidates (m : Matcher) (item : NormalizedItem) (base : MatchResult) :
    (m.adjustForInvalidQty item base).Candidates = base.Candidates := by
  unfold Matcher.adjustForInvalidQty
  split
  · split <;> rfl
  · rfl

/-- C11: the confidence of every result of `Match` and the score of each of
its candidates lie between 0 and 1; every ranking score `scoreHeader` lies
between 0 and 1, and so does `DiceCoefficient`. -/
theorem match_scores_in_unit_interval (m : Matcher) (ord : RangeOrder) (item : NormalizedItem) :
    (0 ≤ (m.Match ord item).Confidence ∧ (m.Match ord item).Confidence ≤ 1) ∧
    (∀ c ∈ (m.Match ord item).Candidates, 0 ≤ c.Score ∧ c.Score ≤ 1) ∧
    (∀ (query candidate : String) (queryTokens candidateTokens : List String),
      0 ≤ scoreHeader query candidate queryTokens candidateTokens ∧
        scoreHeader query candidate queryTokens candidateTokens ≤ 1) ∧
    (∀ a b : String, 0 ≤ DiceCoefficient a b ∧ DiceCoefficient a b ≤ 1) := by
  suffices hmain : (0 ≤ (m.Match ord item).Confidence ∧ (m.Match ord item).Confidence ≤ 1) ∧
      (∀ c ∈ (m.Match ord item).Candidates, 0 ≤ c.Score ∧ c.Score ≤ 1) from
    ⟨hmain.1, hmain.2, scoreHeader_nonneg_le_one, dice_nonneg_le_one⟩
  have hconst : ∀ (ps : List ProductRecord) (s : ℚ), 0 ≤ s ∧ s ≤ 1 →
      ∀ c ∈ toCandidates ps s, 0 ≤ c.Score ∧ c.Score ≤ 1 := by
    intro ps s hs c hc
    rw [toCandidates_score ps s c hc]
    exact hs
  rcases hc : m.codeHits item with _ | ⟨p, _ | ⟨q, rest⟩⟩
  · rcases hh : m.headerHits item with _ | ⟨p, _ | ⟨q, rest⟩⟩
    · rcases hr : m.rankCandidates ord (normalizedQuery item) with _ | ⟨top1, rest⟩
      · rw [match_fuzzy_nil m ord item hc hh hr]
        refine ⟨⟨le_refl _, zero_le_one⟩, ?_⟩
        intro c hc
        exact absurd hc (List.not_mem_nil c)
      · rw [match_fuzzy_cons m ord item top1 rest hc hh hr]
        have hall := rankCandidates_score_bounds m ord (normalizedQuery item)
        rw [hr] at hall
        refine ⟨adjust_confidence_bounds m item _ ?_, ?_⟩
        · rw [fuzzyResult_confidence]
          exact hall top1 (List.mem_cons_self _ _)
        · rw [adjust_candidates, fuzzyResult_candidates]
          exact hall
    · rw [match_header_unique m ord item p hc hh]
      refine ⟨adjust_confidence_bounds m item _ ?_, ?_⟩
      · constructor <;> norm_num
      · rw [adjust_candidates]
        intro c hc
        simp only [List.mem_singleton] at hc
        subst hc
        simp only [hitCandidate]
        constructor <;> norm_num
    · rw [match_header_many m ord item p q rest hc hh]
      exact ⟨by constructor <;> norm_num, hconst _ _ (by constructor <;> norm_num)⟩
  · rw [match_code_unique m ord item p hc]
    refine ⟨adjust_confidence_bounds m item _ ?_, ?_⟩
    · constructor <;> norm_num
    · rw [adjust_candidates]
      intro c hc
      simp only [List.mem_singleton] at hc
      subst hc
      simp only [hitCandidate]
      constructor <;> norm_num
  · rw [match_code_many m ord item p q rest hc]
    exact ⟨by constructor <;> norm_num, hconst _ _ (by constructor <;> norm_num)⟩

/-- C12: `DiceCoefficient` is symmetric. -/
theorem dice_symmetric (a b : String) : DiceCoefficient a b = DiceCoefficient b a := by
  by_cases ha : a = ""
  · simp [DiceCoefficient, ha]
  by_cases hb : b = ""
  · simp [DiceCoefficient, hb]
  by_cases hab : a = b
  · rw [hab]
  rw [dice_of_ne a b ha hb hab, dice_of_ne b a hb ha (fun h => hab h.symm),
    bagIntersectionSize_comm (bigrams a) (bigrams b), Nat.add_comm (bigrams a).length]
  simp only [or_comm]

/-- C13 (as amended): `DiceCoefficient` returns 0 when `a` or `b` is empty, and
when `a ≠ b` and one of them has fewer than 2 runes; it returns 1 when `a = b`
and `a` is not empty, in particular when both have at least 2 runes. -/
theorem dice_short_and_equal (a b : String) :
    (a = "" ∨ b = "" → DiceCoefficient a b = 0) ∧
    (a ≠ b → a.length < 2 ∨ b.length < 2 → DiceCoefficient a b = 0) ∧
    (a = b → a ≠ "" → DiceCoefficient a b = 1) ∧
    (a = b → 2 ≤ a.length → 2 ≤ b.length → DiceCoefficient a b = 1) := by
  have hequal : a = b → a ≠ "" → DiceCoefficient a b = 1 := by
    intro hab ha
    subst hab
    simp [DiceCoefficient, ha]
  refine ⟨?_, ?_, hequal, fun hab ha _ => hequal hab (ne_empty_of_two_le_length a ha)⟩
  · intro h
    simp [DiceCoefficient, h]
  · intro hab hshort
    by_cases ha : a = ""
    · simp [DiceCoefficient, ha]
    by_cases hb : b = ""
    · simp [DiceCoefficient, hb]
    rw [dice_of_ne a b ha hb hab, bigrams_length, bigrams_length]
    have : a.length - 1 = 0 ∨ b.length - 1 = 0 := by omega
    simp [this]

/-- Witness of C13 (as amended): two different strings, one of a single rune. -/
theorem dice_short_and_equal_witness :
    DiceCoefficient "x" "xy" = 0 ∧ DiceCoefficient "xy" "xy" = 1 :=
  ⟨(dice_short_and_equal "x" "xy").2.1 (by decide) (Or.inl (by decide)),
   (dice_short_and_equal "xy" "xy").2.2.1 rfl (by decide)⟩

/-- Counterexample to C13 as stated: both arguments have a single rune, and
`DiceCoefficient` returns 1, not 0. -/
theorem dice_single_rune_counterexample :
    ("x" : String).length < 2 ∧ DiceCoefficient "x" "x" = 1 ∧ DiceCoefficient "x" "x" ≠ 0 := by
  refine ⟨by decide, by decide!, by decide!⟩

/-- C14: for two different strings of at least 2 runes each, `DiceCoefficient`
is `2 * I / (|bigrams a| + |bigrams b|)` as float64 arithmetic computes it: the
float64 quotient of the two integers, which is the float64 nearest to the
fraction when `|bigrams a| + |bigrams b|` is at most `2 ^ 53`. Here
`bigrams s` lists the `len(s) - 1` adjacent rune pairs and `I` is the size of
the multiset intersection of the two lists. -/
theorem dice_formula (a b : String) (hab : a ≠ b) (ha : 2 ≤ a.length) (hb : 2 ≤ b.length) :
    DiceCoefficient a b =
      roundFloat64 (roundFloat64 ((2 * bagIntersectionSize (bigrams a) (bigrams b) : ℕ) : ℚ) /
        roundFloat64 (((bigrams a).length + (bigrams b).length : ℕ) : ℚ)) ∧
    ((bigrams a).length + (bigrams b).length ≤ 2 ^ 53 →
      DiceCoefficient a b =
        roundFloat64 ((2 * (bagIntersectionSize (bigrams a) (bigrams b) : ℚ)) /
          (((bigrams a).length : ℚ) + ((bigrams b).length : ℚ)))) ∧
    (bigrams a).length = a.length - 1 ∧ (bigrams b).length = b.length - 1 := by
  have hdice : DiceCoefficient a b =
      roundFloat64 (roundFloat64 ((2 * bagIntersectionSize (bigrams a) (bigrams b) : ℕ) : ℚ) /
        roundFloat64 (((bigrams a).length + (bigrams b).length : ℕ) : ℚ)) := by
    rw [dice_of_ne a b (ne_empty_of_two_le_length a ha) (ne_empty_of_two_le_length b hb) hab]
    have h1 : ¬ ((bigrams a).length = 0 ∨ (bigrams b).length = 0) := by
      rw [bigrams_length, bigrams_length]
      omega
    simp only [h1, if_false]
  refine ⟨hdice, fun hsmall => ?_, bigrams_length a, bigrams_length b⟩
  have h1 := bagIntersectionSize_le_left (bigrams a) (bigrams b)
  have h2 := bagIntersectionSize_le_right (bigrams a) (bigrams b)
  rw [hdice, roundFloat64_natCast _ (by omega), roundFloat64_natCast _ hsmall]
  push_cast
  rfl

/-- Witness of C14: `night` and `nacht` share one of their four bigrams, and
the coefficient is the float64 nearest to 2/8, which is 1/4. -/
theorem dice_formula_witness :
    DiceCoefficient "night" "nacht" =
      roundFloat64 ((2 * (bagIntersectionSize (bigrams "night") (bigrams "nacht") : ℚ)) /
        (((bigrams "night").length : ℚ) + ((bigrams "nacht").length : ℚ))) ∧
    bagIntersectionSize (bigrams "night") (bigrams "nacht") = 1 ∧
    (bigrams "night").length = 4 ∧ DiceCoefficient "night" "nacht" = 1 / 4 :=
  ⟨(dice_formula "night" "nacht" (by decide) (by decide) (by decide)).2.1 (by decide),
    by decide, by decide, by decide!⟩

/-! ## Character sets of the normalizers -/

theorem isSpaceRune_toNat (c : Char) (h : isSpaceRune c = true) :
    (9 ≤ c.toNat ∧ c.toNat ≤ 13) ∨ c.toNat = 32 ∨ c.toNat = 133 ∨ c.toNat = 160 ∨
      5760 ≤ c.toNat := by
  unfold isSpaceRune at h
  simp only [Bool.or_eq_true, decide_eq_true_eq, Bool.and_eq_true] at h
  rcases h with ((((((((((((((h | h) | h) | h) | h) | h) | h) | h) | h) | h) | h) | h) | h) | h) | h)
  all_goals first
    | (subst h; decide)
    | (obtain ⟨h1, _⟩ := h; right; right; right; right; omega)

/-- The code points of the runes that `NormalizeCode` keeps. -/
theorem isCodeRune_toNat (c : Char) (h : isCodeRune c = true) :
    (45 ≤ c.toNat ∧ c.toNat ≤ 57) ∨ (65 ≤ c.toNat ∧ c.toNat ≤ 95) ∨
      (1040 ≤ c.toNat ∧ c.toNat ≤ 1071) := by
  unfold isCodeRune at h
  simp only [Bool.or_eq_true, decide_eq_true_eq, Bool.and_eq_true] at h
  have e1 : ('A' : Char).toNat = 65 := rfl
  have e2 : ('Z' : Char).toNat = 90 := rfl
  have e3 : ('А' : Char).toNat = 1040 := rfl
  have e4 : ('Я' : Char).toNat = 1071 := rfl
  have e5 : ('0' : Char).toNat = 48 := rfl
  have e6 : ('9' : Char).toNat = 57 := rfl
  rcases h with ((((((h | h) | h) | h) | h) | h) | h)
  · rw [charLe_iff, charLe_iff] at h; omega
  · rw [charLe_iff, charLe_iff] at h; omega
  · rw [charLe_iff, charLe_iff] at h; omega
  all_goals (subst h; decide)

theorem isSpaceRune_of_codeRune (c : Char) (h : isCodeRune c = true) : isSpaceRune c = false := by
  cases hs : isSpaceRune c with
  | false => rfl
  | true =>
    have h1 := isSpaceRune_toNat c hs
    have h2 := isCodeRune_toNat c h
    omega

/-- C15: every character of `NormalizeCode s` is an uppercase Latin letter, a
Cyrillic letter in the range `А`-`Я`, a digit, or one of `-`, `_`, `/`, `.`; none
is whitespace; and `NormalizeCode ""` is the empty string. -/
theorem normalizeCode_charset (s : String) :
    (∀ c ∈ (NormalizeCode s).data,
      ('A' ≤ c ∧ c ≤ 'Z') ∨ ('А' ≤ c ∧ c ≤ 'Я') ∨ ('0' ≤ c ∧ c ≤ '9') ∨
        c = '-' ∨ c = '_' ∨ c = '/' ∨ c = '.') ∧
    (∀ c ∈ (NormalizeCode s).data, isSpaceRune c = false) ∧
    NormalizeCode "" = "" := by
  have hmem : ∀ c ∈ (NormalizeCode s).data, isCodeRune c = true := by
    intro c hc
    simp only [NormalizeCode, normalizeCodeRunes, List.mem_filter] at hc
    exact hc.2
  refine ⟨?_, fun c hc => isSpaceRune_of_codeRune c (hmem c hc), by decide⟩
  intro c hc
  have h := hmem c hc
  unfold isCodeRune at h
  simp only [Bool.or_eq_true, decide_eq_true_eq, Bool.and_eq_true] at h
  tauto

/-- C16: `LooksLikeCode` accepts `я1`, a string of two characters (and three
bytes) that holds a letter and a digit. -/
theorem looksLikeCode_two_characters :
    LooksLikeCode "я1" = true ∧ (trimSpaceRunes "я1".data).length = 2 ∧
      byteLen (trimSpaceRunes "я1".data) = 3 := by
  refine ⟨by decide, by decide, by decide⟩

/-! ## Tokens -/

theorem isAllowed_not_reSpace_toNat (c : Char) (h : isAllowed c = true)
    (hs : isReSpace c = false) :
    (45 ≤ c.toNat ∧ c.toNat ≤ 57) ∨ (65 ≤ c.toNat ∧ c.toNat ≤ 90) ∨
      (1040 ≤ c.toNat ∧ c.toNat ≤ 1071) := by
  unfold isAllowed at h
  simp only [hs, Bool.or_false, Bool.or_eq_true, decide_eq_true_eq, Bool.and_eq_true] at h
  have e1 : ('A' : Char).toNat = 65 := rfl
  have e2 : ('Z' : Char).toNat = 90 := rfl
  have e3 : ('А' : Char).toNat = 1040 := rfl
  have e4 : ('Я' : Char).toNat = 1071 := rfl
  have e5 : ('0' : Char).toNat = 48 := rfl
  have e6 : ('9' : Char).toNat = 57 := rfl
  rcases h with ((((((h | h) | h) | h) | h) | h) | h)
  · rw [charLe_iff, charLe_iff] at h; omega
  · rw [charLe_iff, charLe_iff] at h; omega
  · rw [charLe_iff, charLe_iff] at h; omega
  · subst h; decide
  · subst h; decide
  · subst h; decide
  · subst h; decide

theorem mem_collapseSpaces (c : Char) :
    ∀ (l : List Char) (inRun : Bool), c ∈ collapseSpaces inRun l →
      c = ' ' ∨ (c ∈ l ∧ isReSpace c = false) := by
  intro l
  induction l with
  | nil => intro inRun h; simp [collapseSpaces] at h
  | cons x xs ih =>
    intro inRun h
    rw [collapseSpaces] at h
    by_cases hx : isReSpace x = true
    · simp only [hx, if_true] at h
      cases inRun with
      | true =>
        simp only [if_true] at h
        rcases ih true h with h1 | ⟨h1, h2⟩
        · exact Or.inl h1
        · exact Or.inr ⟨List.mem_cons_of_mem _ h1, h2⟩
      | false =>
        simp only [Bool.false_eq_true, if_false, List.mem_cons] at h
        rcases h with h | h
        · exact Or.inl h
        · rcases ih true h with h1 | ⟨h1, h2⟩
          · exact Or.inl h1
          · exact Or.inr ⟨List.mem_cons_of_mem _ h1, h2⟩
    · simp only [hx, if_false, List.mem_cons, Bool.false_eq_true] at h
      rcases h with h | h
      · right
        subst h
        exact ⟨List.mem_cons_self _ _, by simpa using hx⟩
      · rcases ih false h with h1 | ⟨h1, h2⟩
        · exact Or.inl h1
        · exact Or.inr ⟨List.mem_cons_of_mem _ h1, h2⟩

theorem mem_of_mem_trimSpaceRunes (c : Char) (l : List Char) (h : c ∈ trimSpaceRunes l) :
    c ∈ l := by
  unfold trimSpaceRunes at h
  rw [List.mem_reverse] at h
  have h1 := (List.dropWhile_sublist _).subset h
  rw [List.mem_reverse] at h1
  exact (List.dropWhile_sublist _).subset h1

/-- Every rune of a normalized header is a space or a non-blank allowed rune. -/
theorem normalizeHeaderRunes_runes (input : List Char) :
    ∀ c ∈ normalizeHeaderRunes input, c = ' ' ∨ (isAllowed c = true ∧ isReSpace c = false) := by
  intro c hc
  unfold normalizeHeaderRunes at hc
  have h1 := mem_of_mem_trimSpaceRunes c _ hc
  rcases mem_collapseSpaces c _ _ h1 with h2 | ⟨h2, h3⟩
  · exact Or.inl h2
  · right
    refine ⟨?_, h3⟩
    simp only [List.mem_map] at h2
    obtain ⟨d, _, hd⟩ := h2
    by_cases hallowed : isAllowed d = true
    · simp only [hallowed, if_true] at hd
      rw [← hd]
      exact hallowed
    · simp only [hallowed, if_false, Bool.false_eq_true] at hd
      rw [← hd]
      decide

theorem splitOnSpace_eq_splitOn : ∀ l : List Char, splitOnSpace l = l.splitOn ' ' := by
  intro l
  induction l with
  | nil => rfl
  | cons x xs ih =>
    unfold List.splitOn at ih ⊢
    rw [splitOnSpace, List.splitOnP_cons, ih]
    by_cases hx : x = ' '
    · simp [hx]
    · simp only [hx, if_false, beq_iff_eq, Bool.false_eq_true]
      cases hs : List.splitOnP (fun y => y == ' ') xs with
      | nil => exact absurd hs (List.splitOnP_ne_nil _ _)
      | cons p ps => rfl

theorem mem_piece_splitOnSpace (c : Char) :
    ∀ (l p : List Char), p ∈ splitOnSpace l → c ∈ p → c ∈ l ∧ c ≠ ' ' := by
  intro l
  induction l with
  | nil =>
    intro p hp hc
    simp only [splitOnSpace, List.mem_singleton] at hp
    subst hp
    simp at hc
  | cons x xs ih =>
    intro p hp hc
    rw [splitOnSpace] at hp
    by_cases hx : x = ' '
    · simp only [hx, if_true, List.mem_cons] at hp
      rcases hp with hp | hp
      · subst hp
        simp at hc
      · obtain ⟨h1, h2⟩ := ih p hp hc
        exact ⟨List.mem_cons_of_mem _ h1, h2⟩
    · simp only [hx, if_false] at hp
      cases hsplit : splitOnSpace xs with
      | nil =>
        rw [hsplit] at hp
        simp only [List.mem_singleton] at hp
        subst hp
        simp only [List.mem_singleton] at hc
        subst hc
        exact ⟨List.mem_cons_self _ _, hx⟩
      | cons q qs =>
        rw [hsplit] at hp
        simp only [List.mem_cons] at hp
        rcases hp with hp | hp
        · subst hp
          simp only [List.mem_cons] at hc
          rcases hc with hc | hc
          · subst hc
            exact ⟨List.mem_cons_self _ _, hx⟩
          · obtain ⟨h1, h2⟩ := ih q (by rw [hsplit]; exact List.mem_cons_self _ _) hc
            exact ⟨List.mem_cons_of_mem _ h1, h2⟩
        · obtain ⟨h1, h2⟩ := ih p (by rw [hsplit]; exact List.mem_cons_of_mem _ hp) hc
          exact ⟨List.mem_cons_of_mem _ h1, h2⟩

theorem dropWhile_eq_self_of_forall {p : Char → Bool} :
    ∀ l : List Char, (∀ c ∈ l, p c = false) → l.dropWhile p = l := by
  intro l h
  cases l with
  | nil => rfl
  | cons x xs =>
    have := h x (List.mem_cons_self _ _)
    simp [List.dropWhile, this]

theorem trimSpaceRunes_eq_self (l : List Char) (h : ∀ c ∈ l, isSpaceRune c = false) :
    trimSpaceRunes l = l := by
  unfold trimSpaceRunes
  rw [dropWhile_eq_self_of_forall l h,
    dropWhile_eq_self_of_forall l.reverse (fun c hc => h c (List.mem_reverse.mp hc)),
    List.reverse_reverse]

/-- The pieces of a normalized header hold no whitespace, so trimming them
changes nothing. -/
theorem trim_piece_of_normalized (input p : List Char)
    (hp : p ∈ splitOnSpace (normalizeHeaderRunes input)) : trimSpaceRunes p = p := by
  apply trimSpaceRunes_eq_self
  intro c hc
  obtain ⟨hmem, hne⟩ := mem_piece_splitOnSpace c _ p hp hc
  rcases normalizeHeaderRunes_runes input c hmem with h | ⟨h1, h2⟩
  · exact absurd h hne
  · cases hs : isSpaceRune c with
    | false => rfl
    | true =>
      have := isSpaceRune_toNat c hs
      have := isAllowed_not_reSpace_toNat c h1 h2
      omega

/-- C17: `Tokenize s` is the list, in order, of the pieces that splitting
`NormalizeHeader s` at each space yields and that have at least two runes;
every token has at least two runes and no space; and it is empty when
`NormalizeHeader s` is empty. -/
theorem tokenize_eq_split_filter (s : String) :
    Tokenize s =
      (((NormalizeHeader s).data.splitOn ' ').filter (fun p => 2 ≤ p.length)).map String.mk ∧
    (∀ t ∈ Tokenize s, 2 ≤ t.length ∧ ' ' ∉ t.data) ∧
    (NormalizeHeader s = "" → Tokenize s = []) := by
  have hmap : (splitOnSpace (normalizeHeaderRunes s.data)).map trimSpaceRunes =
      splitOnSpace (normalizeHeaderRunes s.data) := by
    conv_rhs => rw [← List.map_id (splitOnSpace (normalizeHeaderRunes s.data))]
    apply List.map_congr_left
    intro p hp
    exact trim_piece_of_normalized s.data p hp
  have heq : Tokenize s =
      ((splitOnSpace (normalizeHeaderRunes s.data)).filter (fun p => 2 ≤ p.length)).map
        String.mk := by
    unfold Tokenize tokenizeRunes NormalizeHeader
    simp only
    rw [hmap]
  refine ⟨?_, ?_, ?_⟩
  · rw [heq, splitOnSpace_eq_splitOn]
    rfl
  · intro t ht
    rw [heq] at ht
    simp only [List.mem_map, List.mem_filter, decide_eq_true_eq] at ht
    obtain ⟨p, ⟨hp, hlen⟩, rfl⟩ := ht
    refine ⟨hlen, ?_⟩
    intro hsp
    exact (mem_piece_splitOnSpace ' ' _ p hp hsp).2 rfl
  · intro hempty
    rw [heq]
    have : normalizeHeaderRunes s.data = [] := by
      have := congrArg String.data hempty
      simpa [NormalizeHeader] using this
    rw [this]
    rfl

/-! ## The matcher follows the pattern -/

theorem starLoop_sound (a : Re) (body : ReState → (ReState → Option ReState) → Option ReState)
    (hbody : ∀ s k r, body s k = some r → ∃ s1, Steps a s s1 ∧ k s1 = some r) :
    ∀ (fuel : Nat) (s : ReState) (k : ReState → Option ReState) (r : ReState),
      starLoop body fuel s k = some r → ∃ s1, Steps (.star a) s s1 ∧ k s1 = some r := by
  intro fuel
  induction fuel with
  | zero =>
    intro s k r h
    exact ⟨s, Steps.starDone s, h⟩
  | succ n ih =>
    intro s k r h
    rw [starLoop] at h
    split at h
    · rename_i r1 hr1
      cases h
      obtain ⟨s1, hs1, hk1⟩ := hbody _ _ _ hr1
      split at hk1
      · obtain ⟨s2, hs2, hk2⟩ := ih s1 k r hk1
        exact ⟨s2, Steps.starMore hs1 hs2, hk2⟩
      · exact absurd hk1 (by simp)
    · exact ⟨s, Steps.starDone s, h⟩

/-- Whenever the matcher succeeds, the continuation was entered from a state
that the pattern reaches. -/
theorem matchRe_sound :
    ∀ (re : Re) (s : ReState) (k : ReState → Option ReState) (r : ReState),
      matchRe re s k = some r → ∃ s1, Steps re s s1 ∧ k s1 = some r := by
  intro re
  induction re with
  | empty => intro s k r h; exact ⟨s, Steps.empty s, h⟩
  | bol =>
    intro s k r h
    rw [matchRe] at h
    split at h
    · rename_i hb
      exact ⟨s, Steps.bol s hb, h⟩
    · exact absurd h (by simp)
  | eol =>
    intro s k r h
    rw [matchRe] at h
    split at h
    · rename_i hb
      exact ⟨s, Steps.eol s hb, h⟩
    · exact absurd h (by simp)
  | rune p =>
    intro s k r h
    rw [matchRe] at h
    split at h
    · exact absurd h (by simp)
    · rename_i c t hs
      split at h
      · rename_i hp
        exact ⟨_, Steps.rune p s c t hs hp, h⟩
      · exact absurd h (by simp)
  | seq a b iha ihb =>
    intro s k r h
    rw [matchRe] at h
    obtain ⟨s1, hs1, hk1⟩ := iha _ _ _ h
    obtain ⟨s2, hs2, hk2⟩ := ihb _ _ _ hk1
    exact ⟨s2, Steps.seq hs1 hs2, hk2⟩
  | alt a b iha ihb =>
    intro s k r h
    rw [matchRe] at h
    split at h
    · rename_i r1 hr1
      cases h
      obtain ⟨s1, hs1, hk1⟩ := iha _ _ _ hr1
      exact ⟨s1, Steps.altLeft hs1, hk1⟩
    · obtain ⟨s1, hs1, hk1⟩ := ihb _ _ _ h
      exact ⟨s1, Steps.altRight hs1, hk1⟩
  | star a iha =>
    intro s k r h
    rw [matchRe] at h
    exact starLoop_sound a (matchRe a) iha _ s k r h
  | group i a iha =>
    intro s k r h
    rw [matchRe] at h
    obtain ⟨s1, hs1, hk1⟩ := iha _ _ _ h
    exact ⟨_, Steps.group hs1, hk1⟩

/-! ## What a pattern can read -/

theorem steps_allRunes (P : Char → Prop) {re : Re} {s s1 : ReState} (h : Steps re s s1) :
    Re.allRunes P re → ∃ w, (∀ c ∈ w, P c) ∧ s.rest = w ++ s1.rest := by
  induction h with
  | empty s => intro _; exact ⟨[], by simp, rfl⟩
  | bol s _ => intro _; exact ⟨[], by simp, rfl⟩
  | eol s _ => intro _; exact ⟨[], by simp, rfl⟩
  | rune p s c t hs hp =>
    intro hall
    refine ⟨[c], ?_, by simpa using hs⟩
    intro d hd
    rw [List.mem_singleton] at hd
    subst hd
    exact hall _ hp
  | seq _ _ ih1 ih2 =>
    intro hall
    obtain ⟨w1, hw1, e1⟩ := ih1 hall.1
    obtain ⟨w2, hw2, e2⟩ := ih2 hall.2
    refine ⟨w1 ++ w2, ?_, by rw [e1, e2, List.append_assoc]⟩
    intro c hc
    rcases List.mem_append.mp hc with hc | hc
    · exact hw1 c hc
    · exact hw2 c hc
  | altLeft _ ih => intro hall; exact ih hall.1
  | altRight _ ih => intro hall; exact ih hall.2
  | starDone s => intro _; exact ⟨[], by simp, rfl⟩
  | starMore _ _ ih1 ih2 =>
    intro hall
    obtain ⟨w1, hw1, e1⟩ := ih1 hall
    obtain ⟨w2, hw2, e2⟩ := ih2 hall
    refine ⟨w1 ++ w2, ?_, by rw [e1, e2, List.append_assoc]⟩
    intro c hc
    rcases List.mem_append.mp hc with hc | hc
    · exact hw1 c hc
    · exact hw2 c hc
  | group _ ih =>
    intro hall
    obtain ⟨w, hw, e⟩ := ih hall
    exact ⟨w, hw, e⟩

theorem steps_suffix {re : Re} {s s1 : ReState} (h : Steps re s s1) :
    ∃ w, s.rest = w ++ s1.rest := by
  have hall : ∀ re : Re, Re.allRunes (fun _ => True) re := by
    intro re
    induction re with
    | empty => trivial
    | bol => trivial
    | eol => trivial
    | rune p => intro _ _; trivial
    | seq a b iha ihb => exact ⟨iha, ihb⟩
    | alt a b iha ihb => exact ⟨iha, ihb⟩
    | star a iha => exact iha
    | group i a iha => exact iha
  obtain ⟨w, _, e⟩ := steps_allRunes (fun _ => True) h (hall re)
  exact ⟨w, e⟩

theorem steps_firstRune (P : Char → Prop) {re : Re} {s s1 : ReState} (h : Steps re s s1) :
    Re.firstRune P re → ∃ c t, s.rest = c :: t ∧ P c := by
  induction h with
  | empty s => intro hf; exact absurd hf (by simp [Re.firstRune])
  | bol s _ => intro hf; exact absurd hf (by simp [Re.firstRune])
  | eol s _ => intro hf; exact absurd hf (by simp [Re.firstRune])
  | rune p s c t hs hp => intro hf; exact ⟨c, t, hs, hf c hp⟩
  | seq _ _ ih1 _ => intro hf; exact ih1 hf
  | altLeft _ ih => intro hf; exact ih hf.1
  | altRight _ ih => intro hf; exact ih hf.2
  | starDone s => intro hf; exact absurd hf (by simp [Re.firstRune])
  | starMore _ _ _ _ => intro hf; exact absurd hf (by simp [Re.firstRune])
  | group _ ih => intro hf; exact ih hf

theorem steps_groupFree {re : Re} {s s1 : ReState} (h : Steps re s s1) :
    Re.groupFree re → s1.caps = s.caps := by
  induction h with
  | empty s => intro _; rfl
  | bol s _ => intro _; rfl
  | eol s _ => intro _; rfl
  | rune p s c t hs hp => intro _; rfl
  | seq _ _ ih1 ih2 => intro hf; rw [ih2 hf.2, ih1 hf.1]
  | altLeft _ ih => intro hf; exact ih hf.1
  | altRight _ ih => intro hf; exact ih hf.2
  | starDone s => intro _; rfl
  | starMore _ _ ih1 ih2 => intro hf; rw [ih2 hf, ih1 hf]
  | group _ _ => intro hf; exact absurd hf (by simp [Re.groupFree])

/-! ### Inversions -/

theorem steps_seq_inv {a b : Re} {s s2 : ReState} (h : Steps (.seq a b) s s2) :
    ∃ s1, Steps a s s1 ∧ Steps b s1 s2 := by
  cases h with
  | seq h1 h2 => exact ⟨_, h1, h2⟩

theorem steps_alt_inv {a b : Re} {s s1 : ReState} (h : Steps (.alt a b) s s1) :
    Steps a s s1 ∨ Steps b s s1 := by
  cases h with
  | altLeft h => exact Or.inl h
  | altRight h => exact Or.inr h

theorem steps_rune_inv {p : Char → Bool} {s s1 : ReState} (h : Steps (.rune p) s s1) :
    ∃ c, p c = true ∧ s.rest = c :: s1.rest := by
  cases h with
  | rune _ _ c t hs hp => exact ⟨c, hp, hs⟩

theorem steps_empty_inv {s s1 : ReState} (h : Steps .empty s s1) : s1 = s := by
  cases h
  rfl

theorem steps_bol_inv {s s1 : ReState} (h : Steps .bol s s1) : s1 = s ∧ s.atStart = true := by
  cases h with
  | bol _ hb => exact ⟨rfl, hb⟩

theorem steps_eol_inv {s s1 : ReState} (h : Steps .eol s s1) : s1 = s ∧ s.rest = [] := by
  cases h with
  | eol _ hb => exact ⟨rfl, hb⟩

theorem steps_group_inv {i : Nat} {a : Re} {s s2 : ReState} (h : Steps (.group i a) s s2) :
    ∃ s1, Steps a s s1 ∧ s2.rest = s1.rest ∧
      s2.caps = mapSet s1.caps i (s.rest.take (s.rest.length - s1.rest.length)) := by
  cases h with
  | group h => exact ⟨_, h, rfl, rfl⟩

theorem steps_opt_inv {a : Re} {s s1 : ReState} (h : Steps (Re.opt a) s s1) :
    Steps a s s1 ∨ s1 = s := by
  rcases steps_alt_inv h with h | h
  · exact Or.inl h
  · exact Or.inr (steps_empty_inv h)

theorem steps_star_cases {a : Re} {s s2 : ReState} (h : Steps (.star a) s s2) :
    s2 = s ∨ ∃ s1, Steps a s s1 ∧ Steps (.star a) s1 s2 := by
  cases h with
  | starDone => exact Or.inl rfl
  | starMore h1 h2 => exact Or.inr ⟨_, h1, h2⟩

theorem steps_star_induction {a : Re} (P : ReState → ReState → Prop) (hrefl : ∀ s, P s s)
    (hstep : ∀ s s1 s2, Steps a s s1 → P s1 s2 → P s s2) :
    ∀ {s s2 : ReState}, Steps (.star a) s s2 → P s s2 := by
  intro s s2 h
  generalize hr : Re.star a = r at h
  induction h with
  | empty s => cases hr
  | bol s _ => cases hr
  | eol s _ => cases hr
  | rune p s c t hs hp => cases hr
  | seq _ _ _ _ => cases hr
  | altLeft _ _ => cases hr
  | altRight _ _ => cases hr
  | starDone s => exact hrefl s
  | starMore h1 _ _ ih2 =>
    cases hr
    exact hstep _ _ _ h1 (ih2 rfl)
  | group _ _ => cases hr

theorem steps_digit {s s1 : ReState} (h : Steps reDigit s s1) :
    ∃ d, isDigitRune d = true ∧ s.rest = d :: s1.rest :=
  steps_rune_inv h

theorem steps_digits1to3 {s s1 : ReState} (h : Steps reDigits1to3 s s1) :
    ∃ w, w ≠ [] ∧ w.length ≤ 3 ∧ (∀ c ∈ w, isDigitRune c = true) ∧ s.rest = w ++ s1.rest := by
  obtain ⟨sa, ha, hb⟩ := steps_seq_inv h
  obtain ⟨d1, hd1, e1⟩ := steps_digit ha
  rcases steps_opt_inv hb with hb | hb
  · obtain ⟨sb, hb1, hb2⟩ := steps_seq_inv hb
    obtain ⟨d2, hd2, e2⟩ := steps_digit hb1
    rcases steps_opt_inv hb2 with hc | hc
    · obtain ⟨d3, hd3, e3⟩ := steps_digit hc
      refine ⟨[d1, d2, d3], by simp, by simp, ?_, by rw [e1, e2, e3]; rfl⟩
      intro c hc
      simp only [List.mem_cons, List.mem_singleton, List.not_mem_nil, or_false] at hc
      rcases hc with rfl | rfl | rfl <;> assumption
    · subst hc
      refine ⟨[d1, d2], by simp, by simp, ?_, by rw [e1, e2]; rfl⟩
      intro c hc
      simp only [List.mem_cons, List.mem_singleton, List.not_mem_nil, or_false] at hc
      rcases hc with rfl | rfl <;> assumption
  · subst hb
    refine ⟨[d1], by simp, by simp, ?_, by rw [e1]; rfl⟩
    intro c hc
    simp only [List.mem_singleton] at hc
    subst hc
    assumption

theorem steps_group3 {sep : Char → Bool} {s s1 : ReState}
    (h : Steps (.seq (.rune sep) (.seq reDigit (.seq reDigit reDigit))) s s1) :
    ∃ sp d1 d2 d3, sep sp = true ∧ isDigitRune d1 = true ∧ isDigitRune d2 = true ∧
      isDigitRune d3 = true ∧ s.rest = sp :: d1 :: d2 :: d3 :: s1.rest := by
  obtain ⟨sa, ha, hb⟩ := steps_seq_inv h
  obtain ⟨sb, hb1, hb2⟩ := steps_seq_inv hb
  obtain ⟨sc, hc1, hc2⟩ := steps_seq_inv hb2
  obtain ⟨sp, hsp, e0⟩ := steps_rune_inv ha
  obtain ⟨d1, hd1, e1⟩ := steps_digit hb1
  obtain ⟨d2, hd2, e2⟩ := steps_digit hc1
  obtain ⟨d3, hd3, e3⟩ := steps_digit hc2
  exact ⟨sp, d1, d2, d3, hsp, hd1, hd2, hd3, by rw [e0, e1, e2, e3]⟩

theorem steps_groupRun {sep : Char → Bool} {s s1 : ReState}
    (h : Steps (.star (.seq (.rune sep) (.seq reDigit (.seq reDigit reDigit)))) s s1) :
    ∃ more, GroupRun sep more ∧ s.rest = more ++ s1.rest := by
  refine steps_star_induction
    (fun s s1 => ∃ more, GroupRun sep more ∧ s.rest = more ++ s1.rest) ?_ ?_ h
  · intro s
    exact ⟨[], GroupRun.nil, rfl⟩
  · intro s sa sb hstep ⟨more, hmore, e⟩
    obtain ⟨sp, d1, d2, d3, hsp, hd1, hd2, hd3, e1⟩ := steps_group3 hstep
    exact ⟨sp :: d1 :: d2 :: d3 :: more, GroupRun.cons sp d1 d2 d3 more hsp hd1 hd2 hd3 hmore,
      by rw [e1, e]; rfl⟩

theorem steps_grouped {sep : Char → Bool} {s s1 : ReState} (h : Steps (reGrouped sep) s s1) :
    ∃ first sp d1 d2 d3 more, first ≠ [] ∧ first.length ≤ 3 ∧
      (∀ c ∈ first, isDigitRune c = true) ∧ sep sp = true ∧ isDigitRune d1 = true ∧
      isDigitRune d2 = true ∧ isDigitRune d3 = true ∧ GroupRun sep more ∧
      s.rest = first ++ sp :: d1 :: d2 :: d3 :: (more ++ s1.rest) := by
  obtain ⟨sa, ha, hb⟩ := steps_seq_inv h
  obtain ⟨first, hne, hlen, hfirst, e0⟩ := steps_digits1to3 ha
  obtain ⟨sb, hb1, hb2⟩ := steps_seq_inv hb
  obtain ⟨sp, d1, d2, d3, hsp, hd1, hd2, hd3, e1⟩ := steps_group3 hb1
  obtain ⟨more, hmore, e2⟩ := steps_groupRun hb2
  exact ⟨first, sp, d1, d2, d3, more, hne, hlen, hfirst, hsp, hd1, hd2, hd3, hmore,
    by rw [e0, e1, e2]⟩

theorem steps_digitRun {s s1 : ReState} (h : Steps (Re.plus reDigit) s s1) :
    ∃ w, w ≠ [] ∧ (∀ c ∈ w, isDigitRune c = true) ∧ s.rest = w ++ s1.rest := by
  obtain ⟨w, hw, e⟩ := steps_allRunes (fun c => isDigitRune c = true) h
    ⟨fun c hc => hc, fun c hc => hc⟩
  obtain ⟨c, t, e1, _⟩ := steps_firstRune (fun _ => True) h (fun _ _ => trivial)
  refine ⟨w, ?_, hw, e⟩
  intro hnil
  subst hnil
  obtain ⟨sa, ha, hb⟩ := steps_seq_inv h
  obtain ⟨d, _, e2⟩ := steps_digit ha
  obtain ⟨w2, e3⟩ := steps_suffix hb
  have hlen := congrArg List.length e
  rw [e2, e3] at hlen
  simp at hlen
  omega

theorem steps_number {s s1 : ReState} (h : Steps reNumber s s1) :
    ∃ w, NumberText w ∧ s.rest = w ++ s1.rest := by
  rcases steps_alt_inv h with h | h
  · obtain ⟨first, sp, d1, d2, d3, more, hne, hlen, hfirst, hsp, hd1, hd2, hd3, hmore, e⟩ :=
      steps_grouped h
    exact ⟨first ++ sp :: d1 :: d2 :: d3 :: more,
      NumberText.grouped first sp d1 d2 d3 more hne hlen hfirst hsp hd1 hd2 hd3 hmore,
      by rw [e]; simp⟩
  · obtain ⟨sa, ha, hb⟩ := steps_seq_inv h
    obtain ⟨ip, hne, hip, e0⟩ := steps_digitRun ha
    rcases steps_opt_inv hb with hb | hb
    · obtain ⟨sb, hb1, hb2⟩ := steps_seq_inv hb
      obtain ⟨sp, hsp, e1⟩ := steps_rune_inv hb1
      obtain ⟨fp, hfne, hfp, e2⟩ := steps_digitRun hb2
      exact ⟨ip ++ sp :: fp, NumberText.decimal ip sp fp hne hip hsp hfne hfp,
        by rw [e0, e1, e2]; simp⟩
    · subst hb
      exact ⟨ip, NumberText.whole ip hne hip, e0⟩

theorem reNumber_groupFree : Re.groupFree reNumber := by
  simp [reNumber, reGrouped, reDigits1to3, reDigit, Re.plus, Re.opt, Re.groupFree]

/-! ## Ways through the patterns of `qty.go` -/

theorem steps_firstRune_suffix (P : Char → Prop) {re : Re} {s s1 : ReState}
    (h : Steps re s s1) :
    Re.firstRune P re → ∃ c w, P c ∧ s.rest = c :: (w ++ s1.rest) := by
  induction h with
  | empty s => intro hf; exact absurd hf (by simp [Re.firstRune])
  | bol s _ => intro hf; exact absurd hf (by simp [Re.firstRune])
  | eol s _ => intro hf; exact absurd hf (by simp [Re.firstRune])
  | rune p s c t hs hp => intro hf; exact ⟨c, [], hf c hp, by simpa using hs⟩
  | seq _ h2 ih1 _ =>
    intro hf
    obtain ⟨c, w, hc, e⟩ := ih1 hf
    obtain ⟨w2, e2⟩ := steps_suffix h2
    exact ⟨c, w ++ w2, hc, by rw [e, e2, List.append_assoc]⟩
  | altLeft _ ih => intro hf; exact ih hf.1
  | altRight _ ih => intro hf; exact ih hf.2
  | starDone s => intro hf; exact absurd hf (by simp [Re.firstRune])
  | starMore _ _ _ _ => intro hf; exact absurd hf (by simp [Re.firstRune])
  | group _ ih => intro hf; exact ih hf

/-- If some way through the pattern leads to a state from which the
continuation succeeds, the matcher succeeds. -/
theorem matchRe_complete :
    ∀ (re : Re), Re.starsProgress re →
      ∀ (s s1 : ReState) (k : ReState → Option ReState),
        Steps re s s1 → (k s1).isSome = true → (matchRe re s k).isSome = true := by
  intro re
  induction re with
  | empty =>
    intro _ s s1 k h hk
    rw [steps_empty_inv h] at hk
    exact hk
  | bol =>
    intro _ s s1 k h hk
    obtain ⟨e, hb⟩ := steps_bol_inv h
    rw [e] at hk
    simp [matchRe, hb, hk]
  | eol =>
    intro _ s s1 k h hk
    obtain ⟨e, hb⟩ := steps_eol_inv h
    rw [e] at hk
    simp [matchRe, hb, hk]
  | rune p =>
    intro _ s s1 k h hk
    cases h with
    | rune _ _ c t hs hp =>
      rw [matchRe]
      simp only [hs, hp, if_true]
      exact hk
  | seq a b iha ihb =>
    intro hp s s2 k h hk
    obtain ⟨s1, h1, h2⟩ := steps_seq_inv h
    rw [matchRe]
    exact iha hp.1 s s1 _ h1 (ihb hp.2 s1 s2 k h2 hk)
  | alt a b iha ihb =>
    intro hp s s1 k h hk
    rw [matchRe]
    rcases steps_alt_inv h with h | h
    · have := iha hp.1 s s1 k h hk
      cases hm : matchRe a s k with
      | none => rw [hm] at this; exact absurd this (by simp)
      | some r => rfl
    · cases hm : matchRe a s k with
      | none => exact ihb hp.2 s s1 k h hk
      | some r => rfl
  | star a iha =>
    intro hp s s2 k h hk
    rw [matchRe]
    have hloop : ∀ fuel, s.rest.length ≤ fuel →
        (starLoop (matchRe a) fuel s k).isSome = true := by
      refine steps_star_induction
        (fun s s2 => (k s2).isSome = true → ∀ fuel, s.rest.length ≤ fuel →
          (starLoop (matchRe a) fuel s k).isSome = true) ?_ ?_ h hk
      · intro s hks fuel _
        cases fuel with
        | zero => exact hks
        | succ n =>
          rw [starLoop]
          split
          · rfl
          · exact hks
      · intro s sa sb hstep ih hks fuel hfuel
        obtain ⟨c, w, _, e⟩ := steps_firstRune_suffix (fun _ => True) hstep hp.2
        have hlt : sa.rest.length < s.rest.length := by
          rw [e]
          simp
          omega
        cases fuel with
        | zero => omega
        | succ n =>
          rw [starLoop]
          have hbody := iha hp.1 s sa
            (fun s1 => if s1.rest.length < s.rest.length then starLoop (matchRe a) n s1 k
              else none) hstep (by
                simp only [hlt, if_true]
                exact ih hks n (by omega))
          split
          · rfl
          · rename_i hnone
            rw [hnone] at hbody
            exact absurd hbody (by simp)
    exact hloop _ (le_refl _)
  | group i a iha =>
    intro hp s s2 k h hk
    cases h with
    | group h1 =>
      rw [matchRe]
      exact iha hp _ _ _ h1 hk

theorem steps_foldLit : ∀ (pat u : List Char), pat ≠ [] → foldEq pat u = true →
    ∀ (b : Bool) (t : List Char) (caps : List (Nat × List Char)),
      Steps (Re.foldLit pat) ⟨b, u ++ t, caps⟩ ⟨false, t, caps⟩ := by
  intro pat
  induction pat with
  | nil => intro u h; exact absurd rfl h
  | cons p ps ih =>
    intro u _ hfold b t caps
    cases u with
    | nil => simp [foldEq] at hfold
    | cons c cs =>
      simp only [foldEq, Bool.and_eq_true, decide_eq_true_eq] at hfold
      have hrune : Steps (.rune (fun x => decide (x ∈ foldOrbit p))) ⟨b, c :: (cs ++ t), caps⟩
          ⟨false, cs ++ t, caps⟩ :=
        Steps.rune _ ⟨b, c :: (cs ++ t), caps⟩ c (cs ++ t) rfl (by simpa using hfold.1)
      cases ps with
      | nil =>
        cases cs with
        | nil => exact hrune
        | cons d ds => simp [foldEq] at hfold
      | cons q qs =>
        exact Steps.seq hrune (ih cs (by simp) hfold.2 false t caps)

theorem foldEq_snoc_dot (pat u : List Char) (h : foldEq (pat ++ ['.']) u = true) :
    ∃ v, u = v ++ ['.'] ∧ foldEq pat v = true := by
  induction pat generalizing u with
  | nil =>
    cases u with
    | nil => simp [foldEq] at h
    | cons c cs =>
      cases cs with
      | nil =>
        simp only [List.nil_append, foldEq, Bool.and_true, decide_eq_true_eq] at h
        have hc : c = '.' := by
          have : foldOrbit '.' = ['.', '.'] := by decide
          rw [this] at h
          simpa using h
        exact ⟨[], by simp [hc], rfl⟩
      | cons d ds => simp [foldEq] at h
  | cons p ps ih =>
    cases u with
    | nil => simp [foldEq] at h
    | cons c cs =>
      simp only [List.cons_append, foldEq, Bool.and_eq_true, decide_eq_true_eq] at h
      obtain ⟨v, hv, hf⟩ := ih cs h.2
      exact ⟨c :: v, by simp [hv], by simp [foldEq, h.1, hf]⟩

/-- A recognised unit token can be read by the unit pattern. -/
theorem steps_reUnit (u : List Char) (hu : spellsUnit u = true) (b : Bool) (t : List Char)
    (caps : List (Nat × List Char)) : Steps reUnit ⟨b, u ++ t, caps⟩ ⟨false, t, caps⟩ := by
  have hdot : ∀ (pat : List Char), pat ≠ [] → foldEq (pat ++ ['.']) u = true →
      Steps (.seq (Re.foldLit pat) (Re.opt (.rune (fun c => c = '.')))) ⟨b, u ++ t, caps⟩
        ⟨false, t, caps⟩ := by
    intro pat hne h
    obtain ⟨v, hv, hf⟩ := foldEq_snoc_dot pat u h
    subst hv
    have h1 := steps_foldLit pat v hne hf b (['.'] ++ t) caps
    rw [List.append_assoc]
    exact Steps.seq h1 (Steps.altLeft
      (Steps.rune _ ⟨false, '.' :: t, caps⟩ '.' t rfl (by simp)))
  have hplain : ∀ (pat : List Char), pat ≠ [] → foldEq pat u = true →
      Steps (.seq (Re.foldLit pat) (Re.opt (.rune (fun c => c = '.')))) ⟨b, u ++ t, caps⟩
        ⟨false, t, caps⟩ := by
    intro pat hne h
    exact Steps.seq (steps_foldLit pat u hne h b t caps) (Steps.altRight (Steps.empty _))
  simp only [spellsUnit, unitSpellings, List.any_cons, List.any_nil, Bool.or_false,
    Bool.or_eq_true] at hu
  unfold reUnit
  rcases hu with h | h | h | h | h | h | h | h | h | h | h | h | h
  · exact Steps.altLeft (steps_foldLit _ u (by decide) h b t caps)
  · exact Steps.altRight (Steps.altLeft (steps_foldLit _ u (by decide) h b t caps))
  · exact Steps.altRight (Steps.altRight (Steps.altLeft (steps_foldLit _ u (by decide) h b t caps)))
  · exact Steps.altRight (Steps.altRight (Steps.altRight
      (Steps.altLeft (steps_foldLit _ u (by decide) h b t caps))))
  · exact Steps.altRight (Steps.altRight (Steps.altRight (Steps.altRight
      (Steps.altLeft (hplain _ (by decide) h)))))
  · exact Steps.altRight (Steps.altRight (Steps.altRight (Steps.altRight
      (Steps.altLeft (hdot "м".data (by decide) h)))))
  · exact Steps.altRight (Steps.altRight (Steps.altRight (Steps.altRight (Steps.altRight
      (Steps.altLeft (steps_foldLit _ u (by decide) h b t caps))))))
  · exact Steps.altRight (Steps.altRight (Steps.altRight (Steps.altRight (Steps.altRight
      (Steps.altRight (Steps.altLeft (steps_foldLit _ u (by decide) h b t caps)))))))
  · exact Steps.altRight (Steps.altRight (Steps.altRight (Steps.altRight (Steps.altRight
      (Steps.altRight (Steps.altRight (Steps.altLeft (steps_foldLit _ u (by decide) h b t caps))))))))
  · exact Steps.altRight (Steps.altRight (Steps.altRight (Steps.altRight (Steps.altRight
      (Steps.altRight (Steps.altRight (Steps.altRight (Steps.altLeft (hplain _ (by decide) h)))))))))
  · exact Steps.altRight (Steps.altRight (Steps.altRight (Steps.altRight (Steps.altRight
      (Steps.altRight (Steps.altRight (Steps.altRight (Steps.altLeft
        (hdot "уп".data (by decide) h)))))))))
  · exact Steps.altRight (Steps.altRight (Steps.altRight (Steps.altRight (Steps.altRight
      (Steps.altRight (Steps.altRight (Steps.altRight (Steps.altRight (hplain _ (by decide) h)))))))))
  · exact Steps.altRight (Steps.altRight (Steps.altRight (Steps.altRight (Steps.altRight
      (Steps.altRight (Steps.altRight (Steps.altRight (Steps.altRight
        (hdot "компл".data (by decide) h)))))))))

/-! ## Texts the patterns accept -/

theorem steps_star_rune_intro (p : Char → Bool) (ws : List Char) (h : ∀ c ∈ ws, p c = true)
    (b : Bool) (t : List Char) (caps : List (Nat × List Char)) :
    ∃ b1, Steps (.star (.rune p)) ⟨b, ws ++ t, caps⟩ ⟨b1, t, caps⟩ := by
  induction ws generalizing b with
  | nil => exact ⟨b, Steps.starDone _⟩
  | cons c cs ih =>
    obtain ⟨b1, h1⟩ := ih (fun x hx => h x (List.mem_cons_of_mem _ hx)) false
    exact ⟨b1, Steps.starMore
      (Steps.rune p ⟨b, c :: (cs ++ t), caps⟩ c (cs ++ t) rfl (h c (List.mem_cons_self _ _))) h1⟩

theorem steps_digit_intro (d : Char) (hd : isDigitRune d = true) (b : Bool) (t : List Char)
    (caps : List (Nat × List Char)) : Steps reDigit ⟨b, d :: t, caps⟩ ⟨false, t, caps⟩ :=
  Steps.rune isDigitRune ⟨b, d :: t, caps⟩ d t rfl hd

theorem steps_digitRun_intro (ds : List Char) (hne : ds ≠ [])
    (h : ∀ c ∈ ds, isDigitRune c = true) (b : Bool) (t : List Char)
    (caps : List (Nat × List Char)) :
    ∃ b1, Steps (Re.plus reDigit) ⟨b, ds ++ t, caps⟩ ⟨b1, t, caps⟩ := by
  cases ds with
  | nil => exact absurd rfl hne
  | cons d ds =>
    obtain ⟨b1, h1⟩ := steps_star_rune_intro isDigitRune ds
      (fun x hx => h x (List.mem_cons_of_mem _ hx)) false t caps
    exact ⟨b1, Steps.seq (steps_digit_intro d (h d (List.mem_cons_self _ _)) b _ caps) h1⟩

theorem steps_digits1to3_intro (first : List Char) (hne : first ≠ []) (hlen : first.length ≤ 3)
    (h : ∀ c ∈ first, isDigitRune c = true) (b : Bool) (t : List Char)
    (caps : List (Nat × List Char)) :
    Steps reDigits1to3 ⟨b, first ++ t, caps⟩ ⟨false, t, caps⟩ := by
  match first, hne, hlen, h with
  | [a], _, _, h =>
    exact Steps.seq (steps_digit_intro a (h a (by simp)) b _ caps) (Steps.altRight (Steps.empty _))
  | [a, c], _, _, h =>
    exact Steps.seq (steps_digit_intro a (h a (by simp)) b _ caps)
      (Steps.altLeft (Steps.seq (steps_digit_intro c (h c (by simp)) false _ caps)
        (Steps.altRight (Steps.empty _))))
  | [a, c, d], _, _, h =>
    exact Steps.seq (steps_digit_intro a (h a (by simp)) b _ caps)
      (Steps.altLeft (Steps.seq (steps_digit_intro c (h c (by simp)) false _ caps)
        (Steps.altLeft (steps_digit_intro d (h d (by simp)) false _ caps))))
  | _ :: _ :: _ :: _ :: _, _, hlen, _ => simp at hlen

theorem steps_group3_intro (sep : Char → Bool) (sp d1 d2 d3 : Char) (hsp : sep sp = true)
    (h1 : isDigitRune d1 = true) (h2 : isDigitRune d2 = true) (h3 : isDigitRune d3 = true)
    (b : Bool) (t : List Char) (caps : List (Nat × List Char)) :
    Steps (.seq (.rune sep) (.seq reDigit (.seq reDigit reDigit)))
      ⟨b, sp :: d1 :: d2 :: d3 :: t, caps⟩ ⟨false, t, caps⟩ :=
  Steps.seq (Steps.rune sep ⟨b, sp :: d1 :: d2 :: d3 :: t, caps⟩ sp _ rfl hsp)
    (Steps.seq (steps_digit_intro d1 h1 false _ caps)
      (Steps.seq (steps_digit_intro d2 h2 false _ caps) (steps_digit_intro d3 h3 false _ caps)))

theorem steps_groupRun_intro (sep : Char → Bool) (more : List Char) (h : GroupRun sep more)
    (b : Bool) (t : List Char) (caps : List (Nat × List Char)) :
    ∃ b1, Steps (.star (.seq (.rune sep) (.seq reDigit (.seq reDigit reDigit))))
      ⟨b, more ++ t, caps⟩ ⟨b1, t, caps⟩ := by
  induction h generalizing b with
  | nil => exact ⟨b, Steps.starDone _⟩
  | cons sp d1 d2 d3 more hsp h1 h2 h3 _ ih =>
    obtain ⟨b1, hrest⟩ := ih false
    exact ⟨b1, Steps.starMore (steps_group3_intro sep sp d1 d2 d3 hsp h1 h2 h3 b _ caps) hrest⟩

theorem steps_grouped_intro (sep : Char → Bool) (first : List Char) (sp d1 d2 d3 : Char)
    (more : List Char) (hne : first ≠ []) (hlen : first.length ≤ 3)
    (hfirst : ∀ c ∈ first, isDigitRune c = true) (hsp : sep sp = true)
    (h1 : isDigitRune d1 = true) (h2 : isDigitRune d2 = true) (h3 : isDigitRune d3 = true)
    (hmore : GroupRun sep more) (b : Bool) (t : List Char) (caps : List (Nat × List Char)) :
    ∃ b1, Steps (reGrouped sep) ⟨b, (first ++ sp :: d1 :: d2 :: d3 :: more) ++ t, caps⟩
      ⟨b1, t, caps⟩ := by
  obtain ⟨b1, hrest⟩ := steps_groupRun_intro sep more hmore false t caps
  refine ⟨b1, ?_⟩
  have e : (first ++ sp :: d1 :: d2 :: d3 :: more) ++ t
      = first ++ (sp :: d1 :: d2 :: d3 :: (more ++ t)) := by simp
  rw [e]
  exact Steps.seq (steps_digits1to3_intro first hne hlen hfirst b _ caps)
    (Steps.seq (steps_group3_intro sep sp d1 d2 d3 hsp h1 h2 h3 false _ caps) hrest)

/-- The number pattern can read every number text. -/
theorem steps_number_intro (w : List Char) (h : NumberText w) (b : Bool) (t : List Char)
    (caps : List (Nat × List Char)) :
    ∃ b1, Steps reNumber ⟨b, w ++ t, caps⟩ ⟨b1, t, caps⟩ := by
  cases h with
  | grouped first sp d1 d2 d3 more hne hlen hfirst hsp h1 h2 h3 hmore =>
    obtain ⟨b1, hs⟩ := steps_grouped_intro isGroupSep first sp d1 d2 d3 more hne hlen hfirst hsp
      h1 h2 h3 hmore b t caps
    exact ⟨b1, Steps.altLeft hs⟩
  | whole ip hne hip =>
    obtain ⟨b1, hs⟩ := steps_digitRun_intro w hne hip b t caps
    exact ⟨b1, Steps.altRight (Steps.seq hs (Steps.altRight (Steps.empty _)))⟩
  | decimal ip sp fp hne hip hsp hfne hfp =>
    obtain ⟨b1, hs⟩ := steps_digitRun_intro ip hne hip b (sp :: (fp ++ t)) caps
    obtain ⟨b2, hf⟩ := steps_digitRun_intro fp hfne hfp false t caps
    refine ⟨b2, ?_⟩
    have e : (ip ++ sp :: fp) ++ t = ip ++ (sp :: (fp ++ t)) := by simp
    rw [e]
    exact Steps.altRight (Steps.seq hs (Steps.altLeft
      (Steps.seq (Steps.rune isDecimalSep ⟨b1, sp :: (fp ++ t), caps⟩ sp _ rfl hsp) hf)))

/-! ## Shape of a number text -/

theorem groupRun_runes {sep : Char → Bool} {more : List Char} (h : GroupRun sep more) :
    ∀ c ∈ more, isDigitRune c = true ∨ sep c = true := by
  induction h with
  | nil => intro c hc; exact absurd hc (List.not_mem_nil c)
  | cons sp d1 d2 d3 more hsp h1 h2 h3 _ ih =>
    intro c hc
    simp only [List.mem_cons] at hc
    rcases hc with rfl | rfl | rfl | rfl | hc
    · exact Or.inr hsp
    · exact Or.inl h1
    · exact Or.inl h2
    · exact Or.inl h3
    · exact ih c hc

theorem groupRun_last {sep : Char → Bool} {more : List Char} (h : GroupRun sep more) :
    more = [] ∨ ∃ w d, more = w ++ [d] ∧ isDigitRune d = true := by
  induction h with
  | nil => exact Or.inl rfl
  | cons sp d1 d2 d3 more hsp h1 h2 h3 _ ih =>
    right
    rcases ih with rfl | ⟨w, d, rfl, hd⟩
    · exact ⟨[sp, d1, d2], d3, rfl, h3⟩
    · exact ⟨sp :: d1 :: d2 :: d3 :: w, d, rfl, hd⟩

theorem digits_last {ds : List Char} (hne : ds ≠ []) (h : ∀ c ∈ ds, isDigitRune c = true) :
    ∃ w d, ds = w ++ [d] ∧ isDigitRune d = true := by
  refine ⟨ds.dropLast, ds.getLast hne, (List.dropLast_append_getLast hne).symm, ?_⟩
  exact h _ (List.getLast_mem hne)

theorem numberText_head {w : List Char} (h : NumberText w) :
    ∃ d t, w = d :: t ∧ isDigitRune d = true := by
  cases h with
  | grouped first sp d1 d2 d3 more hne hlen hfirst hsp h1 h2 h3 hmore =>
    cases first with
    | nil => exact absurd rfl hne
    | cons a l => exact ⟨a, _, rfl, hfirst a (List.mem_cons_self _ _)⟩
  | whole ip hne hip =>
    cases w with
    | nil => exact absurd rfl hne
    | cons a l => exact ⟨a, _, rfl, hip a (List.mem_cons_self _ _)⟩
  | decimal ip sp fp hne hip hsp hfne hfp =>
    cases ip with
    | nil => exact absurd rfl hne
    | cons a l => exact ⟨a, _, rfl, hip a (List.mem_cons_self _ _)⟩

theorem numberText_last {w : List Char} (h : NumberText w) :
    ∃ t d, w = t ++ [d] ∧ isDigitRune d = true := by
  cases h with
  | grouped first sp d1 d2 d3 more hne hlen hfirst hsp h1 h2 h3 hmore =>
    rcases groupRun_last hmore with rfl | ⟨t, d, rfl, hd⟩
    · exact ⟨first ++ [sp, d1, d2], d3, by simp, h3⟩
    · exact ⟨first ++ sp :: d1 :: d2 :: d3 :: t, d, by simp, hd⟩
  | whole ip hne hip => exact digits_last hne hip
  | decimal ip sp fp hne hip hsp hfne hfp =>
    obtain ⟨t, d, rfl, hd⟩ := digits_last hfne hfp
    exact ⟨ip ++ sp :: t, d, by simp, hd⟩

theorem numberText_runes {w : List Char} (h : NumberText w) :
    ∀ c ∈ w, isDigitRune c = true ∨ isGroupSep c = true := by
  cases h with
  | grouped first sp d1 d2 d3 more hne hlen hfirst hsp h1 h2 h3 hmore =>
    intro c hc
    simp only [List.mem_append, List.mem_cons] at hc
    rcases hc with hc | rfl | rfl | rfl | rfl | hc
    · exact Or.inl (hfirst c hc)
    · exact Or.inr hsp
    · exact Or.inl h1
    · exact Or.inl h2
    · exact Or.inl h3
    · exact groupRun_runes hmore c hc
  | whole ip hne hip => intro c hc; exact Or.inl (hip c hc)
  | decimal ip sp fp hne hip hsp hfne hfp =>
    intro c hc
    simp only [List.mem_append, List.mem_cons] at hc
    rcases hc with hc | rfl | hc
    · exact Or.inl (hip c hc)
    · right
      simp only [isDecimalSep, Bool.or_eq_true, decide_eq_true_eq] at hsp
      simp only [isGroupSep, Bool.or_eq_true, decide_eq_true_eq]
      tauto
    · exact Or.inl (hfp c hc)

/-! ## The unit pattern -/

theorem unitLetters_facts (c : Char) (h : c ∈ unitLetters) :
    isNotNumeric c = true ∧ isReSpace c = false ∧ isDigitRune c = false ∧
      c ≠ Char.ofNat 0xA0 := by
  have hall : unitLetters.all
      (fun c => isNotNumeric c && !isReSpace c && !isDigitRune c
        && !decide (c = Char.ofNat 0xA0)) = true := by decide
  have := List.all_eq_true.mp hall c h
  simp only [Bool.and_eq_true, Bool.not_eq_true', and_assoc, decide_eq_false_iff_not] at this
  exact this

theorem orbit_unitLetters (p : Char) (hp : p ∈ "штукpcsмерkgгпол".data) :
    ∀ c, decide (c ∈ foldOrbit p) = true → c ∈ unitLetters := by
  intro c hc
  exact List.mem_flatMap.mpr ⟨p, hp, by simpa using hc⟩

theorem reUnit_firstRune : Re.firstRune (fun c => c ∈ unitLetters) reUnit := by
  simp only [reUnit, Re.firstRune, Re.foldLit, and_true]
  refine ⟨?_, ?_, ?_, ?_, ?_, ?_, ?_, ?_, ?_, ?_⟩ <;>
    exact orbit_unitLetters _ (by decide)

theorem reUnit_allRunes :
    Re.allRunes
      (fun c => isReSpace c = false ∧ isDigitRune c = false ∧ c ≠ Char.ofNat 0xA0) reUnit := by
  have horb : ∀ p, p ∈ "штукpcsмерkgгпол".data →
      ∀ c, decide (c ∈ foldOrbit p) = true →
        isReSpace c = false ∧ isDigitRune c = false ∧ c ≠ Char.ofNat 0xA0 :=
    fun p hp c hc => (unitLetters_facts c (orbit_unitLetters p hp c hc)).2
  have hdot : ∀ c : Char, decide (c = '.') = true →
      isReSpace c = false ∧ isDigitRune c = false ∧ c ≠ Char.ofNat 0xA0 := by
    intro c hc
    have : c = '.' := by simpa using hc
    subst this
    decide
  simp only [reUnit, Re.allRunes, Re.foldLit, Re.opt, and_true]
  refine ⟨?_, ⟨?_, ?_, ?_, ?_⟩, ⟨?_, ?_, ?_⟩, ⟨?_, ?_⟩, ⟨?_, ?_⟩, ⟨?_, ?_, ?_, ?_⟩, ⟨?_, ?_⟩,
    ⟨?_, ?_⟩, ⟨⟨?_, ?_⟩, ?_⟩, ⟨?_, ?_, ?_, ?_, ?_⟩, ?_⟩ <;>
    first
      | exact hdot
      | exact horb _ (by decide)
      | exact ⟨horb _ (by decide), horb _ (by decide)⟩

theorem reUnit_groupFree : Re.groupFree reUnit := by
  simp [reUnit, Re.groupFree, Re.foldLit, Re.opt]

theorem reNumberGuard_groupFree : Re.groupFree reNumberGuard := by
  simp [reNumberGuard, Re.groupFree]

theorem withUnit_starsProgress : Re.starsProgress withUnit := by
  simp [withUnit, reNumberGuard, reNumber, reGrouped, reDigits1to3, reDigit, reUnit, Re.plus,
    Re.opt, Re.foldLit, Re.starsProgress, Re.firstRune]

/-- A recognised unit token has neither whitespace nor a digit. -/
theorem spellsUnit_runes (u : List Char) (hu : spellsUnit u = true) :
    ∀ c ∈ u, isReSpace c = false ∧ isDigitRune c = false ∧ c ≠ Char.ofNat 0xA0 := by
  have hs := steps_reUnit u hu false [] []
  obtain ⟨w, hw, e⟩ := steps_allRunes _ hs reUnit_allRunes
  simp only [List.append_nil] at e
  rw [e]
  exact hw

theorem isReSpace_facts (c : Char) (h : isReSpace c = true) :
    isNotNumeric c = true ∧ isDigitRune c = false := by
  simp only [isReSpace, Bool.or_eq_true, decide_eq_true_eq] at h
  rcases h with (((rfl | rfl) | rfl) | rfl) | rfl <;> decide

theorem isDigitRune_facts (c : Char) (h : isDigitRune c = true) :
    isNotNumeric c = false ∧ isReSpace c = false := by
  refine ⟨by simp [isNotNumeric, h], ?_⟩
  cases hs : isReSpace c with
  | false => rfl
  | true => rw [(isReSpace_facts c hs).2] at h; exact absurd h (by simp)

theorem isNotNumeric_facts (c : Char) (h : isNotNumeric c = true) :
    isDigitRune c = false ∧ c ≠ '.' ∧ c ≠ ',' := by
  simp only [isNotNumeric, Bool.not_eq_true', Bool.or_eq_false_iff, decide_eq_false_iff_not] at h
  exact ⟨h.1.1, h.1.2, h.2⟩

/-! ## A number with its unit is read in one way only -/

theorem dropWhile_append_all (p : Char → Bool) (v l : List Char) (h : ∀ x ∈ v, p x = true) :
    (v ++ l).dropWhile p = l.dropWhile p := by
  induction v with
  | nil => rfl
  | cons a v ih =>
    rw [List.cons_append, List.dropWhile_cons, if_pos (h a (List.mem_cons_self _ _))]
    exact ih (fun x hx => h x (List.mem_cons_of_mem _ hx))

theorem dropWhile_append_exists (p : Char → Bool) (a l : List Char)
    (h : ∃ x ∈ a, p x = false) :
    ∃ y rest, y ∈ a ∧ p y = false ∧ (a ++ l).dropWhile p = y :: rest := by
  induction a with
  | nil => obtain ⟨x, hx, _⟩ := h; exact absurd hx (List.not_mem_nil x)
  | cons c a ih =>
    cases hc : p c with
    | false =>
      exact ⟨c, a ++ l, List.mem_cons_self _ _, hc, by
        rw [List.cons_append, List.dropWhile_cons, hc]; simp⟩
    | true =>
      obtain ⟨x, hx, hpx⟩ := h
      have hx1 : x ∈ a := by
        rcases List.mem_cons.mp hx with rfl | hx
        · rw [hc] at hpx; exact absurd hpx (by simp)
        · exact hx
      obtain ⟨y, rest, hy, hpy, e⟩ := ih ⟨x, hx1, hpx⟩
      exact ⟨y, rest, List.mem_cons_of_mem _ hy, hpy, by
        rw [List.cons_append, List.dropWhile_cons, hc]; simpa using e⟩

theorem mem_of_append_eq_snoc {x a t : List Char} {d : Char} (e : x ++ a = t ++ [d])
    (ha : a ≠ []) : d ∈ a := by
  have hsplit := (List.dropLast_append_getLast ha).symm
  rw [hsplit, ← List.append_assoc] at e
  have := List.append_inj_right' e (by simp)
  have hd : a.getLast ha = d := by simpa using this
  rw [← hd]
  exact List.getLast_mem ha

theorem numberText_unique {w tok tail v R : List Char} {c : Char}
    (hw : NumberText w) (htok : NumberText tok) (htail : ∀ x ∈ tail, isDigitRune x = false)
    (hv : ∀ x ∈ v, isReSpace x = true) (hc : c ∈ unitLetters)
    (e : w ++ (v ++ c :: R) = tok ++ tail) : w = tok := by
  rcases List.append_eq_append_iff.mp e with ⟨a, ha, hb⟩ | ⟨a, ha, hb⟩
  · by_cases hnil : a = []
    · rw [hnil, List.append_nil] at ha
      exact ha.symm
    · exfalso
      obtain ⟨t, d, htd, hd⟩ := numberText_last htok
      have hda : d ∈ a := mem_of_append_eq_snoc (ha.symm.trans htd) hnil
      obtain ⟨y, rest, hy, hpy, hdrop⟩ := dropWhile_append_exists isReSpace a tail
        ⟨d, hda, (isDigitRune_facts d hd).2⟩
      have hleft : (v ++ c :: R).dropWhile isReSpace = c :: R := by
        rw [dropWhile_append_all isReSpace v _ hv, List.dropWhile_cons,
          (unitLetters_facts c hc).2.1]
        simp
      rw [hb, hdrop] at hleft
      have hyc : y = c := (List.cons.inj hleft).1
      subst hyc
      have hytok : y ∈ tok := by rw [ha]; exact List.mem_append_right _ hy
      obtain ⟨hnn, _, hnd, _⟩ := unitLetters_facts y hc
      obtain ⟨_, hdot, hcomma⟩ := isNotNumeric_facts y hnn
      rcases numberText_runes htok y hytok with h | h
      · rw [hnd] at h; exact absurd h (by simp)
      · simp only [isGroupSep, Bool.or_eq_true, decide_eq_true_eq] at h
        rcases h with (h | h) | h
        · rw [hpy] at h; exact absurd h (by simp)
        · exact hdot h
        · exact hcomma h
  · by_cases hnil : a = []
    · rw [hnil, List.append_nil] at ha
      exact ha
    · exfalso
      obtain ⟨t, d, htd, hd⟩ := numberText_last hw
      have hda : d ∈ a := mem_of_append_eq_snoc (ha.symm.trans htd) hnil
      have : isDigitRune d = false := htail d (by rw [hb]; exact List.mem_append_left _ hda)
      rw [this] at hd
      exact absurd hd (by simp)

/-- What a successful attempt of `withUnit` has read. -/
theorem matchHere_withUnit_inv {b : Bool} {text : List Char} {r : ReState}
    (h : matchHere withUnit b text = some r) :
    ∃ (gd w v u : List Char) (c : Char),
      ((gd = [] ∧ b = true) ∨ ∃ g, gd = [g] ∧ isNotNumeric g = true) ∧
      NumberText w ∧ (∀ x ∈ v, isReSpace x = true) ∧ c ∈ unitLetters ∧
      (∀ x ∈ c :: u, isReSpace x = false ∧ isDigitRune x = false) ∧
      text = gd ++ (w ++ (v ++ (c :: u ++ r.rest))) ∧ capture r.caps 1 = w := by
  unfold matchHere at h
  obtain ⟨s1, hsteps, hk⟩ := matchRe_sound _ _ _ _ h
  cases hk
  unfold withUnit at hsteps
  obtain ⟨sa, hga, h2⟩ := steps_seq_inv hsteps
  obtain ⟨sb, hnum, h3⟩ := steps_seq_inv h2
  obtain ⟨sc, hws, hunit⟩ := steps_seq_inv h3
  obtain ⟨sb0, hnum0, hsbrest, hsbcaps⟩ := steps_group_inv hnum
  obtain ⟨w, hw, hwe⟩ := steps_number hnum0
  obtain ⟨v, hv, hve⟩ := steps_allRunes (fun c => isReSpace c = true) hws
    (by simp [Re.allRunes])
  obtain ⟨sc0, hu0, hrrest, hrcaps⟩ := steps_group_inv hunit
  obtain ⟨c, u1, hc, hce⟩ := steps_firstRune_suffix _ hu0 reUnit_firstRune
  obtain ⟨u, hu, hue⟩ := steps_allRunes _ hu0 reUnit_allRunes
  have hcu : c :: u1 = u := by
    rw [hce] at hue
    have : (c :: u1) ++ sc0.rest = u ++ sc0.rest := by simpa using hue
    exact List.append_cancel_right this
  have hcaps_a : sa.caps = [] := steps_groupFree hga reNumberGuard_groupFree
  have hcaps_b0 : sb0.caps = sa.caps := steps_groupFree hnum0 reNumber_groupFree
  have hcaps_c : sc.caps = sb.caps := steps_groupFree hws (by simp [Re.groupFree])
  have hcaps_c0 : sc0.caps = sc.caps := steps_groupFree hu0 reUnit_groupFree
  have htake : sa.rest.take (sa.rest.length - sb0.rest.length) = w := by
    rw [hwe]
    simp
  have hcap : capture r.caps 1 = w := by
    rw [hrcaps, hcaps_c0, hcaps_c, hsbcaps, hcaps_b0, hcaps_a, htake]
    simp [capture, mapGet_mapSet]
  have hrest : sa.rest = w ++ (v ++ (c :: u1 ++ r.rest)) := by
    rw [hwe, ← hsbrest, hve, hce, hrrest]
    simp
  have hgd : ∃ gd, ((gd = [] ∧ b = true) ∨ ∃ g, gd = [g] ∧ isNotNumeric g = true) ∧
      text = gd ++ sa.rest := by
    rcases steps_alt_inv hga with hbol | hrune
    · obtain ⟨e, hb⟩ := steps_bol_inv hbol
      exact ⟨[], Or.inl ⟨rfl, hb⟩, by rw [e]; rfl⟩
    · obtain ⟨g, hg, e⟩ := steps_rune_inv hrune
      exact ⟨[g], Or.inr ⟨g, rfl, hg⟩, by simpa using e⟩
  obtain ⟨gd, hgd1, hgd2⟩ := hgd
  refine ⟨gd, w, v, u1, c, hgd1, hw, hv, hc, ?_, ?_, hcap⟩
  · rw [hcu]; exact fun x hx => ⟨(hu x hx).1, (hu x hx).2.1⟩
  · rw [hgd2, hrest]

/-- An attempt of `withUnit` right in front of a number that is followed by a
unit and by no further digit succeeds, and its first group is the number. -/
theorem matchHere_withUnit {b : Bool} {gd tok ws u post : List Char}
    (hg : (gd = [] ∧ b = true) ∨ ∃ g, gd = [g] ∧ isNotNumeric g = true)
    (htok : NumberText tok) (hws : ∀ c ∈ ws, isReSpace c = true) (hu : spellsUnit u = true)
    (hpost : ∀ c ∈ post, isDigitRune c = false) :
    ∃ r z, matchHere withUnit b (gd ++ (tok ++ (ws ++ (u ++ post)))) = some r ∧
      capture r.caps 1 = tok ∧ ws ++ (u ++ post) = z ++ r.rest := by
  have htail : ∀ x ∈ ws ++ (u ++ post), isDigitRune x = false := by
    intro x hx
    simp only [List.mem_append] at hx
    rcases hx with hx | hx | hx
    · exact (isReSpace_facts x (hws x hx)).2
    · exact (spellsUnit_runes u hu x hx).2.1
    · exact hpost x hx
  have hsteps : ∃ s1, Steps withUnit ⟨b, gd ++ (tok ++ (ws ++ (u ++ post))), []⟩ s1 := by
    have hguard : ∃ b1, Steps reNumberGuard ⟨b, gd ++ (tok ++ (ws ++ (u ++ post))), []⟩
        ⟨b1, tok ++ (ws ++ (u ++ post)), []⟩ := by
      rcases hg with ⟨rfl, rfl⟩ | ⟨g, rfl, hgn⟩
      · exact ⟨true, Steps.altLeft (Steps.bol _ rfl)⟩
      · exact ⟨false, Steps.altRight (Steps.rune isNotNumeric _ g _ rfl hgn)⟩
    obtain ⟨b1, h1⟩ := hguard
    obtain ⟨b2, h2⟩ := steps_number_intro tok htok b1 (ws ++ (u ++ post)) []
    have h2g := @Steps.group 1 _ _ _ h2
    obtain ⟨b3, h3⟩ := steps_star_rune_intro isReSpace ws hws b2 (u ++ post)
      (mapSet [] 1 ((tok ++ (ws ++ (u ++ post))).take
        ((tok ++ (ws ++ (u ++ post))).length - (ws ++ (u ++ post)).length)))
    have h4 := @Steps.group 2 _ _ _ (steps_reUnit u hu b3 post
      (mapSet [] 1 ((tok ++ (ws ++ (u ++ post))).take
        ((tok ++ (ws ++ (u ++ post))).length - (ws ++ (u ++ post)).length))))
    exact ⟨_, Steps.seq h1 (Steps.seq h2g (Steps.seq h3 h4))⟩
  obtain ⟨s1, hs1⟩ := hsteps
  have hsome := matchRe_complete withUnit withUnit_starsProgress _ s1 (fun s => some s) hs1 rfl
  obtain ⟨r, hr⟩ := Option.isSome_iff_exists.mp hsome
  have hr1 : matchHere withUnit b (gd ++ (tok ++ (ws ++ (u ++ post)))) = some r := hr
  obtain ⟨gd1, w, v, u1, c, hgd1, hw, hv, hc, hcu, htext, hcap⟩ := matchHere_withUnit_inv hr1
  obtain ⟨d, t, hd, hdd⟩ := numberText_head htok
  obtain ⟨d1, t1, hd1, hdd1⟩ := numberText_head hw
  have hsame : gd1 = gd := by
    rcases hg with ⟨rfl, rfl⟩ | ⟨g, rfl, hgn⟩
    · rcases hgd1 with ⟨rfl, _⟩ | ⟨g1, rfl, hgn1⟩
      · rfl
      · exfalso
        rw [hd] at htext
        simp only [List.nil_append, List.cons_append, List.singleton_append] at htext
        have : d = g1 := (List.cons.inj htext).1
        subst this
        rw [(isDigitRune_facts d hdd).1] at hgn1
        exact absurd hgn1 (by simp)
    · rcases hgd1 with ⟨rfl, _⟩ | ⟨g1, rfl, hgn1⟩
      · exfalso
        rw [hd1] at htext
        simp only [List.nil_append, List.cons_append, List.singleton_append] at htext
        have : g = d1 := (List.cons.inj htext).1
        subst this
        rw [(isDigitRune_facts g hdd1).1] at hgn
        exact absurd hgn (by simp)
      · simp only [List.singleton_append] at htext
        rw [(List.cons.inj htext).1]
  subst hsame
  have hbody : w ++ (v ++ c :: (u1 ++ r.rest)) = tok ++ (ws ++ (u ++ post)) := by
    have := List.append_cancel_left htext
    simpa using this.symm
  have hwt : w = tok := numberText_unique hw htok htail hv hc hbody
  subst hwt
  refine ⟨r, v ++ c :: u1, hr1, hcap, ?_⟩
  have := List.append_cancel_left hbody
  simpa using this.symm

/-! ## All matches of `withUnit` in a line -/

theorem findAllSubmatch_nil (re : Re) (skip : Nat) (b : Bool) :
    findAllSubmatch re skip b [] = findAllSubmatch re 0 b [] := by
  cases skip <;> simp [findAllSubmatch]

theorem findAllSubmatch_skip (re : Re) :
    ∀ (t : List Char) (skip : Nat),
      findAllSubmatch re skip false t = findAllSubmatch re 0 false (t.drop skip) := by
  intro t
  induction t with
  | nil => intro skip; rw [List.drop_nil]; exact findAllSubmatch_nil re skip false
  | cons c t ih =>
    intro skip
    cases skip with
    | zero => rfl
    | succ n =>
      rw [findAllSubmatch, List.drop_succ_cons]
      exact ih n

theorem findAllSubmatch_of_match (re : Re) {b : Bool} {text consumed : List Char} {r : ReState}
    (h : matchHere re b text = some r) (e : text = consumed ++ r.rest) (hne : consumed ≠ []) :
    findAllSubmatch re 0 b text = r.caps :: findAllSubmatch re 0 false r.rest := by
  cases consumed with
  | nil => exact absurd rfl hne
  | cons c cs =>
    subst e
    rw [List.cons_append] at h ⊢
    rw [findAllSubmatch]
    simp only [h]
    rw [findAllSubmatch_skip]
    congr 2
    have : (c :: (cs ++ r.rest)).length - r.rest.length - 1 = cs.length := by
      simp
      omega
    rw [this, List.drop_left]

theorem findAllSubmatch_of_none (re : Re) {b : Bool} {c : Char} {t : List Char}
    (h : matchHere re b (c :: t) = none) :
    findAllSubmatch re 0 b (c :: t) = findAllSubmatch re 0 false t := by
  rw [findAllSubmatch]
  simp only [h]

/-- An attempt of `withUnit` succeeds only where a digit is the first or the
second rune. -/
theorem matchHere_withUnit_digit {b : Bool} {text : List Char} {r : ReState}
    (h : matchHere withUnit b text = some r) :
    ∃ gd d rest, text = gd ++ d :: rest ∧ gd.length ≤ 1 ∧ isDigitRune d = true := by
  obtain ⟨gd, w, v, u, c, hgd, hw, _, _, _, htext, _⟩ := matchHere_withUnit_inv h
  obtain ⟨d, t, hd, hdd⟩ := numberText_head hw
  refine ⟨gd, d, t ++ (v ++ (c :: u ++ r.rest)), ?_, ?_, hdd⟩
  · rw [htext, hd]; simp
  · rcases hgd with ⟨rfl, _⟩ | ⟨g, rfl, _⟩ <;> simp

theorem matchHere_withUnit_nodigit (b : Bool) (text : List Char)
    (h : ∀ c ∈ text, isDigitRune c = false) : matchHere withUnit b text = none := by
  cases hm : matchHere withUnit b text with
  | none => rfl
  | some r =>
    obtain ⟨gd, d, rest, e, _, hd⟩ := matchHere_withUnit_digit hm
    rw [h d (by rw [e]; simp)] at hd
    exact absurd hd (by simp)

theorem matchHere_withUnit_two (b : Bool) (x y : Char) (t : List Char)
    (hx : isDigitRune x = false) (hy : isDigitRune y = false) :
    matchHere withUnit b (x :: y :: t) = none := by
  cases hm : matchHere withUnit b (x :: y :: t) with
  | none => rfl
  | some r =>
    exfalso
    obtain ⟨gd, d, rest, e, hlen, hd⟩ := matchHere_withUnit_digit hm
    match gd, hlen with
    | [], _ =>
      simp only [List.nil_append] at e
      rw [← (List.cons.inj e).1, hx] at hd
      exact absurd hd (by simp)
    | [g], _ =>
      simp only [List.singleton_append] at e
      rw [← (List.cons.inj (List.cons.inj e).2).1, hy] at hd
      exact absurd hd (by simp)
    | _ :: _ :: _, hlen => simp at hlen

theorem findAllSubmatch_withUnit_nodigit :
    ∀ (text : List Char), (∀ c ∈ text, isDigitRune c = false) →
      ∀ (skip : Nat) (b : Bool), findAllSubmatch withUnit skip b text = [] := by
  intro text
  induction text with
  | nil =>
    intro h skip b
    rw [findAllSubmatch_nil, findAllSubmatch]
    simp only [matchHere_withUnit_nodigit b [] h]
  | cons c t ih =>
    intro h skip b
    have ht : ∀ x ∈ t, isDigitRune x = false := fun x hx => h x (List.mem_cons_of_mem _ hx)
    cases skip with
    | zero =>
      rw [findAllSubmatch_of_none withUnit (matchHere_withUnit_nodigit b (c :: t) h)]
      exact ih ht 0 false
    | succ n =>
      rw [findAllSubmatch]
      exact ih ht n false

/-- The scan at a number that is followed by a unit and by no further digit
finds exactly one more match, whose first group is the number. -/
theorem findAllSubmatch_withUnit_at {b : Bool} {gd tok ws u post : List Char}
    (hg : (gd = [] ∧ b = true) ∨ ∃ g, gd = [g] ∧ isNotNumeric g = true)
    (htok : NumberText tok) (hws : ∀ c ∈ ws, isReSpace c = true) (hu : spellsUnit u = true)
    (hpost : ∀ c ∈ post, isDigitRune c = false) :
    ∃ caps, findAllSubmatch withUnit 0 b (gd ++ (tok ++ (ws ++ (u ++ post)))) = [caps] ∧
      capture caps 1 = tok := by
  obtain ⟨r, z, hr, hcap, hz⟩ := matchHere_withUnit hg htok hws hu hpost
  refine ⟨r.caps, ?_, hcap⟩
  obtain ⟨d, t, hd, _⟩ := numberText_head htok
  have hrest : ∀ c ∈ r.rest, isDigitRune c = false := by
    intro c hc
    have hmem : c ∈ ws ++ (u ++ post) := by rw [hz]; exact List.mem_append_right _ hc
    simp only [List.mem_append] at hmem
    rcases hmem with hx | hx | hx
    · exact (isReSpace_facts c (hws c hx)).2
    · exact (spellsUnit_runes u hu c hx).2.1
    · exact hpost c hx
  rw [findAllSubmatch_of_match withUnit hr (show _ = (gd ++ (tok ++ z)) ++ r.rest by
    rw [hz]; simp) (by rw [hd]; simp)]
  rw [findAllSubmatch_withUnit_nodigit r.rest hrest 0 false]

/-- Positions in front of the first digit give no match. -/
theorem findAllSubmatch_withUnit_lead (pre : List Char) (g : Char) (rest : List Char)
    (hpre : ∀ c ∈ pre, isDigitRune c = false) (hg : isDigitRune g = false) :
    ∀ b, ∃ b1, findAllSubmatch withUnit 0 b (pre ++ g :: rest)
      = findAllSubmatch withUnit 0 b1 (g :: rest) := by
  induction pre with
  | nil => intro b; exact ⟨b, rfl⟩
  | cons x pre ih =>
    intro b
    have hx := hpre x (List.mem_cons_self _ _)
    have hpre1 : ∀ c ∈ pre, isDigitRune c = false :=
      fun c hc => hpre c (List.mem_cons_of_mem _ hc)
    obtain ⟨b1, e⟩ := ih hpre1 false
    refine ⟨b1, ?_⟩
    have hnone : matchHere withUnit b (x :: (pre ++ g :: rest)) = none := by
      cases pre with
      | nil => exact matchHere_withUnit_two b x g rest hx hg
      | cons y pre => exact matchHere_withUnit_two b x y _ hx (hpre1 y (List.mem_cons_self _ _))
    rw [List.cons_append, findAllSubmatch_of_none withUnit hnone]
    exact e

theorem append_eq_append_barrier {X Y P B : List Char} (e : X ++ Y = P ++ B) :
    (∃ a, P = X ++ a ∧ Y = a ++ B) ∨ (∃ x a, X = P ++ x :: a ∧ B = x :: a ++ Y) := by
  rcases List.append_eq_append_iff.mp e with ⟨a, h1, h2⟩ | ⟨a, h1, h2⟩
  · exact Or.inl ⟨a, h1, h2⟩
  · cases a with
    | nil =>
      left
      refine ⟨[], ?_, ?_⟩
      · simpa using h1.symm
      · simpa using h2.symm
    | cons x a => exact Or.inr ⟨x, a, h1, h2⟩

theorem groupRun_before {sep : Char → Bool} (hsep : ∀ c, sep c = true → isDigitRune c = false)
    {more : List Char} (h : GroupRun sep more) :
    ∀ (m1 : List Char) (c : Char) (a : List Char), more = m1 ++ c :: a →
      isDigitRune c = false →
      m1 = [] ∨ ∃ m0 s e1 e2 e3, m1 = m0 ++ [s, e1, e2, e3] ∧ isDigitRune s = false ∧
        isDigitRune e1 = true ∧ isDigitRune e2 = true ∧ isDigitRune e3 = true := by
  induction h with
  | nil => intro m1 c a e _; simp at e
  | cons sp d1 d2 d3 more hsp h1 h2 h3 _ ih =>
    intro m1 c a e hc
    match m1, e with
    | [], _ => exact Or.inl rfl
    | [x1], e =>
      exfalso
      simp only [List.cons_append, List.nil_append] at e
      rw [← (List.cons.inj (List.cons.inj e).2).1, h1] at hc
      exact absurd hc (by simp)
    | [x1, x2], e =>
      exfalso
      simp only [List.cons_append, List.nil_append] at e
      rw [← (List.cons.inj (List.cons.inj (List.cons.inj e).2).2).1, h2] at hc
      exact absurd hc (by simp)
    | [x1, x2, x3], e =>
      exfalso
      simp only [List.cons_append, List.nil_append] at e
      rw [← (List.cons.inj (List.cons.inj (List.cons.inj (List.cons.inj e).2).2).2).1, h3] at hc
      exact absurd hc (by simp)
    | x1 :: x2 :: x3 :: x4 :: m, e =>
      right
      simp only [List.cons_append] at e
      have q1 := List.cons.inj e
      have q2 := List.cons.inj q1.2
      have q3 := List.cons.inj q2.2
      have q4 := List.cons.inj q3.2
      rw [← q1.1, ← q2.1, ← q3.1, ← q4.1]
      rcases ih m c a q4.2 hc with rfl | ⟨m0, s, f1, f2, f3, rfl, hs, hf1, hf2, hf3⟩
      · exact ⟨[], sp, d1, d2, d3, rfl, hsep sp hsp, h1, h2, h3⟩
      · exact ⟨sp :: d1 :: d2 :: d3 :: m0, s, f1, f2, f3, rfl, hs, hf1, hf2, hf3⟩

/-! ## Normalisation and value of a numeric token -/

theorem replaceRunes_delete (a : Char) (l : List Char) :
    replaceRunes [([a], [])] 0 l = l.filter (fun c => !decide (c = a)) := by
  induction l with
  | nil => rfl
  | cons c cs ih =>
    by_cases h : a = c
    · subst h
      simp [replaceRunes, List.find?, List.isPrefixOf, ih]
    · have h1 : ¬ c = a := fun e => h e.symm
      have h2 : (a == c) = false := by simpa using h
      simp [replaceRunes, List.find?, List.isPrefixOf, ih, h1, h2]

theorem replaceRunes_single (a b : Char) (l : List Char) :
    replaceRunes [([a], [b])] 0 l = l.map (fun c => if c = a then b else c) := by
  induction l with
  | nil => rfl
  | cons c cs ih =>
    by_cases h : a = c
    · subst h
      simp [replaceRunes, List.find?, List.isPrefixOf, ih]
    · have h1 : ¬ c = a := fun e => h e.symm
      have h2 : (a == c) = false := by simpa using h
      simp [replaceRunes, List.find?, List.isPrefixOf, ih, h1, h2]

theorem filter_eq_self_of_forall (p : Char → Bool) (l : List Char) (h : ∀ c ∈ l, p c = true) :
    l.filter p = l := List.filter_eq_self.mpr h

theorem map_eq_self_of_forall (f : Char → Char) (l : List Char) (h : ∀ c ∈ l, f c = c) :
    l.map f = l := by
  induction l with
  | nil => rfl
  | cons c cs ih =>
    rw [List.map_cons, h c (List.mem_cons_self _ _),
      ih (fun x hx => h x (List.mem_cons_of_mem _ hx))]

theorem findSubmatch_bol_later (y : Re) :
    ∀ t : List Char, findSubmatch (.seq .bol y) false t = none := by
  have hnone : ∀ t : List Char, matchHere (.seq .bol y) false t = none := by
    intro t
    simp [matchHere, matchRe]
  intro t
  induction t with
  | nil => simp [findSubmatch, hnone]
  | cons c cs ih => simp [findSubmatch, hnone, ih]

theorem matchString_anchored (x : Re) (text : List Char) :
    matchString (Re.anchored x) text = (matchHere (Re.anchored x) true text).isSome := by
  unfold matchString Re.anchored
  cases text with
  | nil => simp [findSubmatch]
  | cons c cs =>
    rw [findSubmatch]
    cases hm : matchHere (.seq .bol (.seq x .eol)) true (c :: cs) with
    | some r => rfl
    | none => simp [findSubmatch_bol_later]

theorem matchString_anchored_true (x : Re) (hx : Re.starsProgress x) (text : List Char)
    (b1 : Bool) (caps : List (Nat × List Char))
    (h : Steps x ⟨true, text, []⟩ ⟨b1, [], caps⟩) :
    matchString (Re.anchored x) text = true := by
  rw [matchString_anchored]
  unfold matchHere
  exact matchRe_complete (Re.anchored x) ⟨trivial, hx, trivial⟩ _ ⟨b1, [], caps⟩ _
    (Steps.seq (Steps.bol _ rfl) (Steps.seq h (Steps.eol _ rfl))) rfl

theorem matchString_anchored_false (x : Re) (text : List Char)
    (h : ∀ s1, Steps x ⟨true, text, []⟩ s1 → s1.rest = [] → False) :
    matchString (Re.anchored x) text = false := by
  rw [matchString_anchored]
  cases hm : matchHere (Re.anchored x) true text with
  | none => rfl
  | some r =>
    exfalso
    unfold matchHere Re.anchored at hm
    obtain ⟨s1, hs, _⟩ := matchRe_sound _ _ _ _ hm
    obtain ⟨sa, hbol, h2⟩ := steps_seq_inv hs
    obtain ⟨sb, hx, heol⟩ := steps_seq_inv h2
    obtain ⟨e, _⟩ := steps_bol_inv hbol
    obtain ⟨_, hnil⟩ := steps_eol_inv heol
    subst e
    exact h sb hx hnil

theorem reGrouped_starsProgress (sep : Char → Bool) : Re.starsProgress (reGrouped sep) := by
  simp [reGrouped, reDigits1to3, reDigit, Re.plus, Re.opt, Re.starsProgress, Re.firstRune]

/-- A text free of dots and commas is normalised by dropping its blanks. -/
theorem normalizeNumericToken_plain (token : List Char)
    (h : ∀ c ∈ token, c ≠ '.' ∧ c ≠ ',') :
    normalizeNumericToken token = token.filter (fun c => !decide (c = ' ')) := by
  have hc : ∀ c ∈ token.filter (fun c => !decide (c = ' ')), c ≠ '.' ∧ c ≠ ',' :=
    fun c hc => h c (List.mem_filter.mp hc).1
  have hdot : '.' ∉ token.filter (fun c => !decide (c = ' ')) := fun hm => (hc _ hm).1 rfl
  have hcomma : ',' ∉ token.filter (fun c => !decide (c = ' ')) := fun hm => (hc _ hm).2 rfl
  unfold normalizeNumericToken
  simp only [show " ".data = [' '] from rfl, show ".".data = ['.'] from rfl,
    show ",".data = [','] from rfl, replaceRunes_delete]
  split
  · exact filter_eq_self_of_forall _ _ (fun c hm => by simpa using (hc c hm).1)
  · split
    · exact filter_eq_self_of_forall _ _ (fun c hm => by simpa using (hc c hm).2)
    · rw [if_neg (fun hh => hcomma hh.1)]

theorem takeWhile_append_all (p : Char → Bool) (v l : List Char) (h : ∀ x ∈ v, p x = true) :
    (v ++ l).takeWhile p = v ++ l.takeWhile p := by
  induction v with
  | nil => rfl
  | cons a v ih =>
    rw [List.cons_append, List.takeWhile_cons, if_pos (h a (List.mem_cons_self _ _)),
      ih (fun x hx => h x (List.mem_cons_of_mem _ hx))]
    rfl

theorem parseFloat_digits (ds : List Char) (hne : ds ≠ [])
    (h : ∀ c ∈ ds, isDigitRune c = true) :
    parseFloat ds = roundToFloat64 (digitsValue ds : ℚ) := by
  have h1 : ds.takeWhile isDigitRune = ds := by
    have := takeWhile_append_all isDigitRune ds [] h
    simpa using this
  have h2 : ds.dropWhile isDigitRune = [] := by
    have := dropWhile_append_all isDigitRune ds [] h
    simpa using this
  unfold parseFloat
  simp only [h1, h2, if_neg hne]

theorem parseFloat_decimal (ip fp : List Char) (hne : ip ≠ [])
    (hip : ∀ c ∈ ip, isDigitRune c = true) (hfp : ∀ c ∈ fp, isDigitRune c = true) :
    parseFloat (ip ++ '.' :: fp)
      = roundToFloat64 ((digitsValue ip : ℚ) + (digitsValue fp : ℚ) / (10 : ℚ) ^ fp.length) := by
  have hdot : isDigitRune '.' = false := by decide
  have h1 : (ip ++ '.' :: fp).takeWhile isDigitRune = ip := by
    rw [takeWhile_append_all isDigitRune ip _ hip, List.takeWhile_cons, hdot]
    simp
  have h2 : (ip ++ '.' :: fp).dropWhile isDigitRune = '.' :: fp := by
    rw [dropWhile_append_all isDigitRune ip _ hip, List.dropWhile_cons, hdot]
    simp
  have h3 : fp.all isDigitRune = true := List.all_eq_true.mpr hfp
  unfold parseFloat
  simp only [h1, h2, h3]
  simp [hne]

theorem trimSpaceRunes_of_ends (l t1 t2 : List Char) (d e : Char) (h1 : l = d :: t1)
    (h2 : l = t2 ++ [e]) (hd : isSpaceRune d = false) (he : isSpaceRune e = false) :
    trimSpaceRunes l = l := by
  unfold trimSpaceRunes
  have hdrop : l.dropWhile isSpaceRune = l := by
    rw [h1, List.dropWhile_cons, hd]
    simp
  rw [hdrop]
  have hrev : l.reverse = e :: t2.reverse := by rw [h2]; simp
  rw [hrev, List.dropWhile_cons, he]
  simp only [Bool.false_eq_true, if_false]
  rw [← hrev, List.reverse_reverse]

theorem isDigitRune_not_space (c : Char) (h : isDigitRune c = true) : isSpaceRune c = false := by
  cases hs : isSpaceRune c with
  | false => rfl
  | true =>
    exfalso
    have h1 := isSpaceRune_toNat c hs
    simp only [isDigitRune, Bool.and_eq_true, decide_eq_true_eq] at h
    have e0 : ('0' : Char).toNat = 48 := rfl
    have e9 : ('9' : Char).toNat = 57 := rfl
    rw [charLe_iff, charLe_iff] at h
    omega

theorem trimSpaceRunes_numberText {w : List Char} (h : NumberText w) : trimSpaceRunes w = w := by
  obtain ⟨d, t1, h1, hd⟩ := numberText_head h
  obtain ⟨t2, e, h2, he⟩ := numberText_last h
  exact trimSpaceRunes_of_ends w t1 t2 d e h1 h2 (isDigitRune_not_space d hd)
    (isDigitRune_not_space e he)

/-! ## Thousands-grouped and decimal tokens -/

theorem length_three {g : List Char} (h : g.length = 3) : ∃ d1 d2 d3, g = [d1, d2, d3] := by
  match g, h with
  | [d1, d2, d3], _ => exact ⟨d1, d2, d3, rfl⟩

theorem groupRun_of_groups (sepP : Char → Bool) (sep : Char) (hsep : sepP sep = true) :
    ∀ groups : List (List Char),
      (∀ g ∈ groups, g.length = 3 ∧ ∀ c ∈ g, isDigitRune c = true) →
        GroupRun sepP (groups.flatMap (fun g => sep :: g)) := by
  intro groups
  induction groups with
  | nil => intro _; exact GroupRun.nil
  | cons g gs ih =>
    intro h
    obtain ⟨hlen, hdig⟩ := h g (List.mem_cons_self _ _)
    obtain ⟨d1, d2, d3, rfl⟩ := length_three hlen
    have hrest := ih (fun x hx => h x (List.mem_cons_of_mem _ hx))
    rw [List.flatMap_cons]
    exact GroupRun.cons sep d1 d2 d3 _ hsep (hdig d1 (by simp)) (hdig d2 (by simp))
      (hdig d3 (by simp)) hrest

/-- Text of a grouped number, taken apart. -/
theorem grouped_text (sep : Char) (groups : List (List Char)) (hne : groups ≠ [])
    (h : ∀ g ∈ groups, g.length = 3 ∧ ∀ c ∈ g, isDigitRune c = true) :
    ∃ d1 d2 d3 more, groups.flatMap (fun g => sep :: g) = sep :: d1 :: d2 :: d3 :: more ∧
      isDigitRune d1 = true ∧ isDigitRune d2 = true ∧ isDigitRune d3 = true ∧
      ∀ sepP : Char → Bool, sepP sep = true → GroupRun sepP more := by
  cases groups with
  | nil => exact absurd rfl hne
  | cons g gs =>
    obtain ⟨hlen, hdig⟩ := h g (List.mem_cons_self _ _)
    obtain ⟨d1, d2, d3, rfl⟩ := length_three hlen
    refine ⟨d1, d2, d3, gs.flatMap (fun g => sep :: g), by rw [List.flatMap_cons]; rfl,
      hdig d1 (by simp), hdig d2 (by simp), hdig d3 (by simp), ?_⟩
    intro sepP hsep
    exact groupRun_of_groups sepP sep hsep gs (fun x hx => h x (List.mem_cons_of_mem _ hx))

theorem numberText_grouped (first : List Char) (sep : Char) (groups : List (List Char))
    (hne : first ≠ []) (hlen : first.length ≤ 3) (hfirst : ∀ c ∈ first, isDigitRune c = true)
    (hsep : isGroupSep sep = true) (hgne : groups ≠ [])
    (hgroups : ∀ g ∈ groups, g.length = 3 ∧ ∀ c ∈ g, isDigitRune c = true) :
    NumberText (first ++ groups.flatMap (fun g => sep :: g)) := by
  obtain ⟨d1, d2, d3, more, e, h1, h2, h3, hmore⟩ := grouped_text sep groups hgne hgroups
  rw [e]
  exact NumberText.grouped first sep d1 d2 d3 more hne hlen hfirst hsep h1 h2 h3
    (hmore isGroupSep hsep)

theorem mem_groups_text {sep : Char} {groups : List (List Char)} {c : Char}
    (h : ∀ g ∈ groups, g.length = 3 ∧ ∀ c ∈ g, isDigitRune c = true)
    (hc : c ∈ groups.flatMap (fun g => sep :: g)) : c = sep ∨ isDigitRune c = true := by
  obtain ⟨g, hg, hcg⟩ := List.mem_flatMap.mp hc
  rcases List.mem_cons.mp hcg with rfl | hcg
  · exact Or.inl rfl
  · exact Or.inr ((h g hg).2 c hcg)

theorem filter_groups_text (p : Char → Bool) (sep : Char) (hsep : p sep = false)
    (hp : ∀ c, isDigitRune c = true → p c = true) :
    ∀ groups : List (List Char),
      (∀ g ∈ groups, g.length = 3 ∧ ∀ c ∈ g, isDigitRune c = true) →
        (groups.flatMap (fun g => sep :: g)).filter p = groups.flatMap (fun g => g) := by
  intro groups
  induction groups with
  | nil => intro _; rfl
  | cons g gs ih =>
    intro h
    rw [List.flatMap_cons, List.flatMap_cons, List.filter_append, List.filter_cons, hsep,
      ih (fun x hx => h x (List.mem_cons_of_mem _ hx))]
    simp only [Bool.false_eq_true, if_false]
    rw [List.filter_eq_self.mpr
      (fun c hc => hp c ((h g (List.mem_cons_self _ _)).2 c hc))]

theorem filter_grouped (p : Char → Bool) (first : List Char) (sep : Char)
    (groups : List (List Char)) (hsep : p sep = false)
    (hp : ∀ c, isDigitRune c = true → p c = true)
    (hfirst : ∀ c ∈ first, isDigitRune c = true)
    (h : ∀ g ∈ groups, g.length = 3 ∧ ∀ c ∈ g, isDigitRune c = true) :
    (first ++ groups.flatMap (fun g => sep :: g)).filter p
      = first ++ groups.flatMap (fun g => g) := by
  rw [List.filter_append, filter_groups_text p sep hsep hp groups h,
    List.filter_eq_self.mpr (fun c hc => hp c (hfirst c hc))]

theorem grouped_match (q : Char) (first : List Char) (groups : List (List Char))
    (hne : first ≠ []) (hlen : first.length ≤ 3) (hfirst : ∀ c ∈ first, isDigitRune c = true)
    (hgne : groups ≠ [])
    (hgroups : ∀ g ∈ groups, g.length = 3 ∧ ∀ c ∈ g, isDigitRune c = true) :
    matchString (Re.anchored (reGrouped (fun c => c = q)))
      (first ++ groups.flatMap (fun g => q :: g)) = true := by
  obtain ⟨d1, d2, d3, more, e, h1, h2, h3, hmore⟩ := grouped_text q groups hgne hgroups
  have hq : (fun c : Char => decide (c = q)) q = true := by simp
  obtain ⟨b1, hs⟩ := steps_grouped_intro (fun c => c = q) first q d1 d2 d3 more hne hlen hfirst
    hq h1 h2 h3 (hmore _ hq) true [] []
  rw [List.append_nil, ← e] at hs
  exact matchString_anchored_true _ (reGrouped_starsProgress _) _ b1 [] hs

theorem grouped_nomatch (q : Char) (text : List Char) (h : q ∉ text) :
    matchString (Re.anchored (reGrouped (fun c => c = q))) text = false := by
  apply matchString_anchored_false
  intro s1 hs _
  obtain ⟨first, sp, d1, d2, d3, more, _, _, _, hsp, _, _, _, _, e⟩ := steps_grouped hs
  have hspq : sp = q := by simpa using hsp
  apply h
  have e1 : text = first ++ sp :: d1 :: d2 :: d3 :: (more ++ s1.rest) := e
  rw [e1, hspq]
  simp

theorem digit_prefix_unique :
    ∀ (a a1 : List Char) (x x1 : Char) (r r1 : List Char),
      (∀ c ∈ a, isDigitRune c = true) → (∀ c ∈ a1, isDigitRune c = true) →
      isDigitRune x = false → isDigitRune x1 = false →
      a ++ x :: r = a1 ++ x1 :: r1 → a = a1 ∧ x = x1 ∧ r = r1 := by
  intro a
  induction a with
  | nil =>
    intro a1 x x1 r r1 _ ha1 hx _ e
    cases a1 with
    | nil =>
      simp only [List.nil_append] at e
      exact ⟨rfl, (List.cons.inj e).1, (List.cons.inj e).2⟩
    | cons c a1 =>
      exfalso
      simp only [List.nil_append, List.cons_append] at e
      have := ha1 c (List.mem_cons_self _ _)
      rw [← (List.cons.inj e).1, hx] at this
      exact absurd this (by simp)
  | cons c a ih =>
    intro a1 x x1 r r1 ha ha1 hx hx1 e
    cases a1 with
    | nil =>
      exfalso
      simp only [List.nil_append, List.cons_append] at e
      have := ha c (List.mem_cons_self _ _)
      rw [(List.cons.inj e).1, hx1] at this
      exact absurd this (by simp)
    | cons c1 a1 =>
      simp only [List.cons_append] at e
      obtain ⟨h1, h2, h3⟩ := ih a1 x x1 r r1 (fun y hy => ha y (List.mem_cons_of_mem _ hy))
        (fun y hy => ha1 y (List.mem_cons_of_mem _ hy)) hx hx1 (List.cons.inj e).2
      exact ⟨by rw [(List.cons.inj e).1, h1], h2, h3⟩

theorem decimal_nomatch (q : Char) (ip fp : List Char) (sp : Char)
    (hq : isDigitRune q = false) (hsp : isDigitRune sp = false)
    (hip : ∀ c ∈ ip, isDigitRune c = true) (hfp : ∀ c ∈ fp, isDigitRune c = true)
    (hshape : ¬ (ip.length ≤ 3 ∧ fp.length = 3)) :
    matchString (Re.anchored (reGrouped (fun c => c = q))) (ip ++ sp :: fp) = false := by
  apply matchString_anchored_false
  intro s1 hs hnil
  obtain ⟨first, sp1, d1, d2, d3, more, _, hlen, hfirst, hsp1, _, _, _, hmore, e⟩ :=
    steps_grouped hs
  have hspq : sp1 = q := by simpa using hsp1
  have e1 : ip ++ sp :: fp = first ++ sp1 :: d1 :: d2 :: d3 :: (more ++ s1.rest) := e
  rw [hnil, List.append_nil] at e1
  obtain ⟨h1, _, h3⟩ := digit_prefix_unique ip first sp sp1 fp _ hip hfirst hsp
    (by rw [hspq]; exact hq) e1
  cases hmore with
  | nil =>
    apply hshape
    rw [h1, h3]
    exact ⟨hlen, rfl⟩
  | cons sp2 e1 e2 e3 more2 hsp2 _ _ _ _ =>
    have hsp2q : sp2 = q := by simpa using hsp2
    have := hfp sp2 (by rw [h3]; simp)
    rw [hsp2q, hq] at this
    exact absurd this (by simp)

/-- Normal form of a thousands-grouped token: its digits. -/
theorem normalizeNumericToken_grouped (first : List Char) (sep : Char)
    (groups : List (List Char)) (hne : first ≠ []) (hlen : first.length ≤ 3)
    (hfirst : ∀ c ∈ first, isDigitRune c = true) (hsep : sep = ' ' ∨ sep = '.' ∨ sep = ',')
    (hgne : groups ≠ [])
    (hgroups : ∀ g ∈ groups, g.length = 3 ∧ ∀ c ∈ g, isDigitRune c = true) :
    normalizeNumericToken (first ++ groups.flatMap (fun g => sep :: g))
      = first ++ groups.flatMap (fun g => g) := by
  have hmem : ∀ c ∈ first ++ groups.flatMap (fun g => sep :: g),
      c = sep ∨ isDigitRune c = true := by
    intro c hc
    rcases List.mem_append.mp hc with hc | hc
    · exact Or.inr (hfirst c hc)
    · exact mem_groups_text hgroups hc
  have hdig : ∀ (q : Char), isDigitRune q = false →
      ∀ c, isDigitRune c = true → (!decide (c = q)) = true := by
    intro q hq c hc
    have : c ≠ q := by
      intro e
      rw [e, hq] at hc
      exact absurd hc (by simp)
    simpa using this
  have hkeep : ∀ (q : Char), isDigitRune q = false → q ≠ sep →
      (first ++ groups.flatMap (fun g => sep :: g)).filter (fun c => !decide (c = q))
        = first ++ groups.flatMap (fun g => sep :: g) := by
    intro q hq hqs
    apply List.filter_eq_self.mpr
    intro c hc
    rcases hmem c hc with rfl | hcd
    · have : c ≠ q := fun e => hqs e.symm
      simpa using this
    · exact hdig q hq c hcd
  have hdrop : isDigitRune sep = false →
      (first ++ groups.flatMap (fun g => sep :: g)).filter (fun c => !decide (c = sep))
        = first ++ groups.flatMap (fun g => g) :=
    fun hs => filter_grouped _ first sep groups (by simp) (hdig sep hs) hfirst hgroups
  rcases hsep with rfl | rfl | rfl
  · rw [normalizeNumericToken_plain _ (fun c hc => by
      rcases hmem c hc with rfl | hcd
      · decide
      · constructor <;> (intro e; rw [e] at hcd; exact absurd hcd (by decide)))]
    exact hdrop (by decide)
  · have hm := grouped_match '.' first groups hne hlen hfirst hgne hgroups
    unfold normalizeNumericToken
    simp only [show " ".data = [' '] from rfl, show ".".data = ['.'] from rfl,
      replaceRunes_delete]
    rw [hkeep ' ' (by decide) (by decide)]
    have hm1 : matchString (.seq .bol (.seq (reGrouped (fun c => c = '.')) .eol))
        (first ++ groups.flatMap (fun g => '.' :: g)) = true := hm
    rw [if_pos hm1]
    exact hdrop (by decide)
  · have hm := grouped_match ',' first groups hne hlen hfirst hgne hgroups
    have hn := grouped_nomatch '.' (first ++ groups.flatMap (fun g => ',' :: g)) (by
      intro hc
      rcases hmem _ hc with e | e
      · exact absurd e (by decide)
      · exact absurd e (by decide))
    unfold normalizeNumericToken
    simp only [show " ".data = [' '] from rfl, show ",".data = [','] from rfl,
      replaceRunes_delete]
    rw [hkeep ' ' (by decide) (by decide)]
    have hn1 : matchString (.seq .bol (.seq (reGrouped (fun c => c = '.')) .eol))
        (first ++ groups.flatMap (fun g => ',' :: g)) = false := hn
    have hm1 : matchString (.seq .bol (.seq (reGrouped (fun c => c = ',')) .eol))
        (first ++ groups.flatMap (fun g => ',' :: g)) = true := hm
    rw [hn1, if_pos hm1]
    simp only [Bool.false_eq_true, if_false]
    exact hdrop (by decide)

/-- Normal form of a decimal token: the separator becomes a dot. -/
theorem normalizeNumericToken_decimal (ip fp : List Char) (sp : Char)
    (hsp : sp = '.' ∨ sp = ',') (hip : ∀ c ∈ ip, isDigitRune c = true)
    (hfp : ∀ c ∈ fp, isDigitRune c = true) (hshape : ¬ (ip.length ≤ 3 ∧ fp.length = 3)) :
    normalizeNumericToken (ip ++ sp :: fp) = ip ++ '.' :: fp := by
  have hspd : isDigitRune sp = false := by rcases hsp with rfl | rfl <;> decide
  have hmem : ∀ c ∈ ip ++ sp :: fp, c = sp ∨ isDigitRune c = true := by
    intro c hc
    simp only [List.mem_append, List.mem_cons] at hc
    rcases hc with hc | rfl | hc
    · exact Or.inr (hip c hc)
    · exact Or.inl rfl
    · exact Or.inr (hfp c hc)
  have hne : ∀ (q c : Char), isDigitRune q = false → isDigitRune c = true → c ≠ q := by
    intro q c hq hc e
    rw [e, hq] at hc
    exact absurd hc (by simp)
  have hcompact : (ip ++ sp :: fp).filter (fun c => !decide (c = ' ')) = ip ++ sp :: fp := by
    apply List.filter_eq_self.mpr
    intro c hc
    have : c ≠ ' ' := by
      rcases hmem c hc with rfl | hcd
      · rcases hsp with rfl | rfl <;> decide
      · exact hne ' ' c (by decide) hcd
    simpa using this
  have h1 : matchString (.seq .bol (.seq (reGrouped (fun c => c = '.')) .eol))
      (ip ++ sp :: fp) = false := decimal_nomatch '.' ip fp sp (by decide) hspd hip hfp hshape
  have h2 : matchString (.seq .bol (.seq (reGrouped (fun c => c = ',')) .eol))
      (ip ++ sp :: fp) = false := decimal_nomatch ',' ip fp sp (by decide) hspd hip hfp hshape
  have hmapd : ∀ l : List Char, (∀ c ∈ l, isDigitRune c = true) →
      l.map (fun c => if c = ',' then '.' else c) = l :=
    fun l hl => map_eq_self_of_forall _ l (fun c hc => by
      rw [if_neg (hne ',' c (by decide) (hl c hc))])
  unfold normalizeNumericToken
  simp only [show " ".data = [' '] from rfl, show ",".data = [','] from rfl,
    show ".".data = ['.'] from rfl, replaceRunes_delete, replaceRunes_single, hcompact, h1, h2,
    Bool.false_eq_true, if_false]
  rcases hsp with rfl | rfl
  · have hno : ',' ∉ ip ++ '.' :: fp := by
      intro hc
      rcases hmem _ hc with e | e
      · exact absurd e (by decide)
      · exact absurd e (by decide)
    rw [if_neg (fun hh => hno hh.1)]
  · have hyes : ',' ∈ ip ++ ',' :: fp := by simp
    have hno : '.' ∉ ip ++ ',' :: fp := by
      intro hc
      rcases hmem _ hc with e | e
      · exact absurd e (by decide)
      · exact absurd e (by decide)
    rw [if_pos ⟨hyes, hno⟩, List.map_append, List.map_cons, hmapd ip hip, hmapd fp hfp]
    simp

/-! ## From the matches to the quantity -/

theorem nbsp_digit (c : Char) :
    isDigitRune (if c = Char.ofNat 0xA0 then ' ' else c) = isDigitRune c := by
  by_cases h : c = Char.ofNat 0xA0
  · rw [if_pos h, h]; decide
  · rw [if_neg h]

theorem nbsp_notNumeric (c : Char) :
    isNotNumeric (if c = Char.ofNat 0xA0 then ' ' else c) = isNotNumeric c := by
  by_cases h : c = Char.ofNat 0xA0
  · rw [if_pos h, h]; decide
  · rw [if_neg h]

theorem map_nbsp_fix (l : List Char) (h : ∀ c ∈ l, c ≠ Char.ofNat 0xA0) :
    l.map (fun c => if c = Char.ofNat 0xA0 then ' ' else c) = l :=
  map_eq_self_of_forall _ l (fun c hc => if_neg (h c hc))

theorem isReSpace_ne_nbsp (c : Char) (h : isReSpace c = true) : c ≠ Char.ofNat 0xA0 := by
  intro e
  rw [e] at h
  exact absurd h (by decide)

theorem numberText_ne_nbsp {w : List Char} (h : NumberText w) :
    ∀ c ∈ w, c ≠ Char.ofNat 0xA0 := by
  intro c hc e
  rcases numberText_runes h c hc with hd | hs
  · rw [e] at hd; exact absurd hd (by decide)
  · rw [e] at hs; exact absurd hs (by decide)

/-- The line `ParseQty` works on, for an input made of the text in front of the
number, the number, whitespace, the unit and the rest. -/
theorem line_parts (pre tok ws u post : List Char) (htok : NumberText tok)
    (hws : ∀ c ∈ ws, isReSpace c = true) (hu : spellsUnit u = true) :
    (pre ++ (tok ++ (ws ++ (u ++ post)))).map (fun c => if c = Char.ofNat 0xA0 then ' ' else c)
      = pre.map (fun c => if c = Char.ofNat 0xA0 then ' ' else c) ++ (tok ++ (ws ++ (u ++
        post.map (fun c => if c = Char.ofNat 0xA0 then ' ' else c)))) := by
  rw [List.map_append, List.map_append, List.map_append, List.map_append,
    map_nbsp_fix tok (numberText_ne_nbsp htok),
    map_nbsp_fix ws (fun c hc => isReSpace_ne_nbsp c (hws c hc)),
    map_nbsp_fix u (fun c hc => (spellsUnit_runes u hu c hc).2.2)]

/-- Quantity of a line whose last match of `withUnit` holds a number text. -/
theorem parseQty_qty_of_last (input : String) (caps : List (Nat × List Char))
    (tok : List Char)
    (hlast : (findAllSubmatch withUnit 0 true
      (input.data.map (fun c => if c = Char.ofNat 0xA0 then ' ' else c))).getLast? = some caps)
    (hcap : capture caps 1 = tok) (htok : NumberText tok) :
    (ParseQty input).Qty = parseFloat (normalizeNumericToken tok) := by
  obtain ⟨d, t, hd, _⟩ := numberText_head htok
  have hne : tok ≠ [] := by rw [hd]; simp
  unfold ParseQty
  simp only [show " ".data = [' '] from rfl, replaceRunes_single, hlast, hcap,
    trimSpaceRunes_numberText htok]
  rw [if_pos hne]

/-- A line whose only number stands at its start or behind a rune that may
stand in front of a number: `withUnit` matches once, at the number. -/
theorem findAllSubmatch_withUnit_only (pre tok ws u post : List Char)
    (hpre : ∀ c ∈ pre, isDigitRune c = false)
    (hguard : ∀ y ∈ pre.getLast?, isNotNumeric y = true) (htok : NumberText tok)
    (hws : ∀ c ∈ ws, isReSpace c = true) (hu : spellsUnit u = true)
    (hpost : ∀ c ∈ post, isDigitRune c = false) :
    ∃ caps, (findAllSubmatch withUnit 0 true (pre ++ (tok ++ (ws ++ (u ++ post))))).getLast?
      = some caps ∧ capture caps 1 = tok := by
  by_cases hnil : pre = []
  · subst hnil
    obtain ⟨caps, hc, hcap⟩ :=
      @findAllSubmatch_withUnit_at true [] tok ws u post (Or.inl ⟨rfl, rfl⟩) htok hws hu hpost
    exact ⟨caps, by rw [hc]; rfl, hcap⟩
  · have hsplit := (List.dropLast_append_getLast hnil).symm
    have hg : isNotNumeric (pre.getLast hnil) = true :=
      hguard _ (by rw [List.getLast?_eq_getLast _ hnil]; rfl)
    obtain ⟨b1, e⟩ := findAllSubmatch_withUnit_lead pre.dropLast (pre.getLast hnil)
      (tok ++ (ws ++ (u ++ post))) (fun c hc => hpre c (List.mem_of_mem_dropLast hc))
      (isNotNumeric_facts _ hg).1 true
    obtain ⟨caps, hc, hcap⟩ :=
      @findAllSubmatch_withUnit_at b1 [pre.getLast hnil] tok ws u post
        (Or.inr ⟨_, rfl, hg⟩) htok hws hu hpost
    refine ⟨caps, ?_, hcap⟩
    have e2 : pre ++ (tok ++ (ws ++ (u ++ post)))
        = pre.dropLast ++ pre.getLast hnil :: (tok ++ (ws ++ (u ++ post))) := by
      conv_lhs => rw [hsplit]
      simp
    rw [e2, e]
    have hc1 : findAllSubmatch withUnit 0 b1 (pre.getLast hnil :: (tok ++ (ws ++ (u ++ post))))
        = [caps] := hc
    rw [hc1]
    rfl

theorem digit_suffix_unique (bf bf1 : List Char) (x x1 : Char) (run run1 : List Char)
    (hrun : ∀ c ∈ run, isDigitRune c = true) (hrun1 : ∀ c ∈ run1, isDigitRune c = true)
    (hx : isDigitRune x = false) (hx1 : isDigitRune x1 = false)
    (e : bf ++ x :: run = bf1 ++ x1 :: run1) : run = run1 ∧ x = x1 ∧ bf = bf1 := by
  have e1 : run.reverse ++ x :: bf.reverse = run1.reverse ++ x1 :: bf1.reverse := by
    have := congrArg List.reverse e
    simpa using this
  obtain ⟨h1, h2, h3⟩ := digit_prefix_unique run.reverse run1.reverse x x1 bf.reverse
    bf1.reverse (fun c hc => hrun c (List.mem_reverse.mp hc))
    (fun c hc => hrun1 c (List.mem_reverse.mp hc)) hx hx1 e1
  exact ⟨List.reverse_injective h1, h2, List.reverse_injective h3⟩

theorem mem_of_getLast? {l : List Char} {y : Char} (h : y ∈ l.getLast?) : y ∈ l := by
  obtain ⟨ys, e⟩ := List.getLast?_eq_some_iff.mp h
  rw [e]
  simp

theorem nodigit_map_nbsp (l : List Char) (h : ∀ c ∈ l, isDigitRune c = false) :
    ∀ c ∈ l.map (fun c => if c = Char.ofNat 0xA0 then ' ' else c), isDigitRune c = false := by
  intro c hc
  obtain ⟨y, hy, rfl⟩ := List.mem_map.mp hc
  rw [nbsp_digit]
  exact h y hy

/-- Quantity of a line whose only number stands at the start of the line or
behind a rune other than a digit, a dot and a comma, and is followed by a
unit. -/
theorem parseQty_only_number (pre tok ws u post : List Char)
    (hpre : ∀ c ∈ pre, isDigitRune c = false)
    (hguard : ∀ y ∈ pre.getLast?, y ≠ '.' ∧ y ≠ ',') (htok : NumberText tok)
    (hws : ∀ c ∈ ws, isReSpace c = true) (hu : spellsUnit u = true)
    (hpost : ∀ c ∈ post, isDigitRune c = false) :
    (ParseQty (String.mk (pre ++ tok ++ ws ++ u ++ post))).Qty
      = parseFloat (normalizeNumericToken tok) := by
  have hdata : (String.mk (pre ++ tok ++ ws ++ u ++ post)).data
      = pre ++ (tok ++ (ws ++ (u ++ post))) := by
    show pre ++ tok ++ ws ++ u ++ post = _
    simp only [List.append_assoc]
  have hguard1 : ∀ y ∈ (pre.map (fun c => if c = Char.ofNat 0xA0 then ' ' else c)).getLast?,
      isNotNumeric y = true := by
    intro y hy
    rw [List.getLast?_map] at hy
    obtain ⟨z, hz, rfl⟩ := Option.mem_map.mp hy
    rw [nbsp_notNumeric]
    have hzd := hpre z (mem_of_getLast? hz)
    obtain ⟨h1, h2⟩ := hguard z hz
    simp [isNotNumeric, hzd, h1, h2]
  obtain ⟨caps, hlast, hcap⟩ := findAllSubmatch_withUnit_only _ tok ws u _
    (nodigit_map_nbsp pre hpre) hguard1 htok hws hu (nodigit_map_nbsp post hpost)
  exact parseQty_qty_of_last _ caps tok
    (by rw [hdata, line_parts pre tok ws u post htok hws hu]; exact hlast) hcap htok

/-! ## The claims on `ParseQty` -/

/-- C18 (amended): when the only number of a line is a thousands-grouped
integer (1 to 3 digits and one or more groups of exactly 3 digits, each behind
the same separator: a space, a dot or a comma), the number stands at the start
of the line or behind a character other than a dot and a comma, and it is
followed, after optional whitespace, by a recognised unit, `ParseQty` returns
as quantity what `strconv.ParseFloat` makes of the integer formed by the digits
of the groups: the float64 nearest to it, which is the integer itself when it
is at most `2 ^ 53`, and no quantity when it is beyond the range of float64. -/
theorem parseQty_thousands_grouped (pre first : List Char) (sep : Char)
    (groups : List (List Char)) (ws unit post : List Char)
    (hpre : ∀ c ∈ pre, isDigitRune c = false)
    (hguard : ∀ y ∈ pre.getLast?, y ≠ '.' ∧ y ≠ ',')
    (hne : first ≠ []) (hlen : first.length ≤ 3) (hfirst : ∀ c ∈ first, isDigitRune c = true)
    (hsep : sep = ' ' ∨ sep = '.' ∨ sep = ',') (hgne : groups ≠ [])
    (hgroups : ∀ g ∈ groups, g.length = 3 ∧ ∀ c ∈ g, isDigitRune c = true)
    (hws : ∀ c ∈ ws, isReSpace c = true) (hunit : spellsUnit unit = true)
    (hpost : ∀ c ∈ post, isDigitRune c = false) :
    (ParseQty (String.mk
        (pre ++ (first ++ groups.flatMap (fun g => sep :: g)) ++ ws ++ unit ++ post))).Qty
      = roundToFloat64 ((digitsValue (first ++ groups.flatMap (fun g => g)) : ℕ) : ℚ) ∧
    (digitsValue (first ++ groups.flatMap (fun g => g)) ≤ 2 ^ 53 →
      (ParseQty (String.mk
        (pre ++ (first ++ groups.flatMap (fun g => sep :: g)) ++ ws ++ unit ++ post))).Qty
      = some ((digitsValue (first ++ groups.flatMap (fun g => g)) : ℕ) : ℚ)) := by
  have hsepg : isGroupSep sep = true := by rcases hsep with rfl | rfl | rfl <;> decide
  have htok := numberText_grouped first sep groups hne hlen hfirst hsepg hgne hgroups
  have hqty : (ParseQty (String.mk
        (pre ++ (first ++ groups.flatMap (fun g => sep :: g)) ++ ws ++ unit ++ post))).Qty
      = roundToFloat64 ((digitsValue (first ++ groups.flatMap (fun g => g)) : ℕ) : ℚ) := by
    rw [parseQty_only_number pre _ ws unit post hpre hguard htok hws hunit hpost,
      normalizeNumericToken_grouped first sep groups hne hlen hfirst hsep hgne hgroups]
    apply parseFloat_digits
    · intro e
      exact hne (List.append_eq_nil.mp e).1
    · intro c hc
      rcases List.mem_append.mp hc with h | h
      · exact hfirst c h
      · obtain ⟨g, hg, hcg⟩ := List.mem_flatMap.mp h
        exact (hgroups g hg).2 c hcg
  exact ⟨hqty, fun hsmall => by rw [hqty]; exact roundToFloat64_natCast _ hsmall⟩

/-- Witness of C18: the lines `Кабель 1 000 шт` and `Кабель 1.000 шт` of the
specification. -/
theorem parseQty_thousands_grouped_witness :
    (ParseQty "Кабель 1 000 шт").Qty = some ((1000 : ℕ) : ℚ) ∧
    (ParseQty "Кабель 1.000 шт").Qty = some ((1000 : ℕ) : ℚ) :=
  ⟨(parseQty_thousands_grouped "Кабель ".data ['1'] ' ' ["000".data] [' '] "шт".data []
      (by decide) (by decide) (by decide) (by decide) (by decide) (by decide) (by decide)
      (by decide) (by decide) (by decide) (by decide)).2 (by decide),
    (parseQty_thousands_grouped "Кабель ".data ['1'] '.' ["000".data] [' '] "шт".data []
      (by decide) (by decide) (by decide) (by decide) (by decide) (by decide) (by decide)
      (by decide) (by decide) (by decide) (by decide)).2 (by decide)⟩

/-- Counterexample to C18 as stated: the only number of the line is `1 000`,
followed by a unit, but it stands right behind a comma, and the quantity is 0;
and the grouped integer `2 ^ 53 + 1` comes back as `2 ^ 53`. -/
theorem parseQty_thousands_grouped_counterexample :
    (ParseQty "Кабель,1 000 шт").Qty = some 0 ∧ (ParseQty "Кабель,1 000 шт").Qty ≠ some 1000 ∧
    (ParseQty "Кабель 9 007 199 254 740 993 шт").Qty = some 9007199254740992 ∧
    (ParseQty "Кабель 9 007 199 254 740 993 шт").Qty ≠ some 9007199254740993 := by
  refine ⟨by decide!, by decide!, by decide!, by decide!⟩

/-- C19 (amended): when the only number of a line is a decimal written as
digits, one comma or dot, and digits, not of the thousands-grouped shape (1 to
3 digits, then exactly 3 digits), the number stands at the start of the line or
behind a character other than a dot and a comma, and it is followed, after
optional whitespace, by a recognised unit, `ParseQty` returns as quantity what
`strconv.ParseFloat` makes of the decimal value, the comma or dot being read as
the decimal point: the float64 nearest to that value, and no quantity when it
is beyond the range of float64. -/
theorem parseQty_decimal (pre ip : List Char) (sp : Char) (fp ws unit post : List Char)
    (hpre : ∀ c ∈ pre, isDigitRune c = false)
    (hguard : ∀ y ∈ pre.getLast?, y ≠ '.' ∧ y ≠ ',')
    (hne : ip ≠ []) (hip : ∀ c ∈ ip, isDigitRune c = true) (hsp : sp = '.' ∨ sp = ',')
    (hfne : fp ≠ []) (hfp : ∀ c ∈ fp, isDigitRune c = true)
    (hshape : ¬ (ip.length ≤ 3 ∧ fp.length = 3))
    (hws : ∀ c ∈ ws, isReSpace c = true) (hunit : spellsUnit unit = true)
    (hpost : ∀ c ∈ post, isDigitRune c = false) :
    (ParseQty (String.mk (pre ++ (ip ++ sp :: fp) ++ ws ++ unit ++ post))).Qty
      = roundToFloat64
          ((digitsValue ip : ℚ) + (digitsValue fp : ℚ) / (10 : ℚ) ^ fp.length) := by
  have hspd : isDecimalSep sp = true := by rcases hsp with rfl | rfl <;> decide
  have htok := NumberText.decimal ip sp fp hne hip hspd hfne hfp
  rw [parseQty_only_number pre _ ws unit post hpre hguard htok hws hunit hpost,
    normalizeNumericToken_decimal ip fp sp hsp hip hfp hshape]
  exact parseFloat_decimal ip fp hne hip hfp

/-- Witness of C19: the lines `Провод 1,5 м` and `Провод 1.5 м` of the
specification give the float64 nearest to 1 + 5/10, which is 3/2. -/
theorem parseQty_decimal_witness :
    (ParseQty "Провод 1,5 м").Qty
      = roundToFloat64 ((digitsValue ['1'] : ℚ) + (digitsValue ['5'] : ℚ) / (10 : ℚ) ^ 1) ∧
    (ParseQty "Провод 1.5 м").Qty
      = roundToFloat64 ((digitsValue ['1'] : ℚ) + (digitsValue ['5'] : ℚ) / (10 : ℚ) ^ 1) ∧
    roundToFloat64 ((digitsValue ['1'] : ℚ) + (digitsValue ['5'] : ℚ) / (10 : ℚ) ^ 1)
      = some (3 / 2) :=
  ⟨parseQty_decimal "Провод ".data ['1'] ',' ['5'] [' '] "м".data []
      (by decide) (by decide) (by decide) (by decide) (by decide) (by decide) (by decide)
      (by decide) (by decide) (by decide) (by decide),
    parseQty_decimal "Провод ".data ['1'] '.' ['5'] [' '] "м".data []
      (by decide) (by decide) (by decide) (by decide) (by decide) (by decide) (by decide)
      (by decide) (by decide) (by decide) (by decide),
    by decide!⟩

/-- Counterexample to C19 as stated: the only number of the line is `1,5`,
followed by a unit, but it stands right behind a dot, and there is no
quantity. -/
theorem parseQty_decimal_counterexample :
    (ParseQty "Провод.1,5 м").Qty = none ∧ (ParseQty "Провод.1,5 м").Qty ≠ some (3 / 2) := by
  refine ⟨by decide!, by decide!⟩

/-! ## Status, reason and product of a result -/

/-- The quantity override keeps the reason and the product, and leaves a status
other than REVIEW only to an item with a positive quantity. -/
theorem adjust_status (m : Matcher) (item : NormalizedItem) (base : MatchResult) :
    (m.adjustForInvalidQty item base).Reason = base.Reason ∧
    (m.adjustForInvalidQty item base).Product = base.Product ∧
    ((m.adjustForInvalidQty item base).Status ≠ MatchReview →
      (∃ q, item.Qty = some q ∧ 0 < q) ∧
        (m.adjustForInvalidQty item base).Status = base.Status) := by
  unfold Matcher.adjustForInvalidQty
  cases hq : item.Qty with
  | none => simp
  | some q =>
    by_cases hpos : q > 0
    · simp [hpos]
    · simp [hpos]

theorem fuzzyResult_status (m : Matcher) (top1 : MatchCandidate) (rest : List MatchCandidate) :
    ((fuzzyResult m top1 rest).Status = MatchOK →
      (fuzzyResult m top1 rest).Product ≠ none ∧
        (fuzzyResult m top1 rest).Reason = ReasonFuzzy) ∧
    ((fuzzyResult m top1 rest).Status = MatchNotFound →
      (fuzzyResult m top1 rest).Product = none ∧
        (fuzzyResult m top1 rest).Reason = ReasonNone) := by
  unfold fuzzyResult
  simp only []
  split
  · exact ⟨fun _ => ⟨by simp, rfl⟩, fun h => by simp at h⟩
  · split
    · exact ⟨fun h => by simp at h, fun h => by simp at h⟩
    · exact ⟨fun h => by simp at h, fun _ => ⟨rfl, rfl⟩⟩

/-- What holds of a result that went through the quantity override. -/
theorem adjust_result_shape (m : Matcher) (item : NormalizedItem) (base : MatchResult)
    (hok : base.Status = MatchOK → base.Product ≠ none ∧
      (base.Reason = ReasonCode ∨ base.Reason = ReasonHeader ∨ base.Reason = ReasonFuzzy))
    (hnf : base.Status = MatchNotFound → base.Product = none ∧ base.Reason = ReasonNone) :
    ((m.adjustForInvalidQty item base).Status = MatchOK →
      (∃ q, item.Qty = some q ∧ 0 < q) ∧ (m.adjustForInvalidQty item base).Product ≠ none ∧
      ((m.adjustForInvalidQty item base).Reason = ReasonCode ∨
        (m.adjustForInvalidQty item base).Reason = ReasonHeader ∨
        (m.adjustForInvalidQty item base).Reason = ReasonFuzzy)) ∧
    ((m.adjustForInvalidQty item base).Status = MatchNotFound →
      (m.adjustForInvalidQty item base).Product = none ∧
        (m.adjustForInvalidQty item base).Reason = ReasonNone) := by
  obtain ⟨hr, hp, hs⟩ := adjust_status m item base
  rw [hr, hp]
  constructor
  · intro h
    obtain ⟨hq, hst⟩ := hs (by rw [h]; decide)
    rw [hst] at h
    exact ⟨hq, hok h⟩
  · intro h
    obtain ⟨_, hst⟩ := hs (by rw [h]; decide)
    rw [hst] at h
    exact hnf h

/-- C30: if `Match` returns status OK, the quantity of the item is present and
positive, a matched product is attached and the reason is CODE, HEADER or
FUZZY; if it returns NOT_FOUND, no product is attached and the reason is
NONE. -/
theorem match_status_invariants (m : Matcher) (ord : RangeOrder) (item : NormalizedItem) :
    ((m.Match ord item).Status = MatchOK →
      (∃ q, item.Qty = some q ∧ 0 < q) ∧ (m.Match ord item).Product ≠ none ∧
      ((m.Match ord item).Reason = ReasonCode ∨ (m.Match ord item).Reason = ReasonHeader ∨
        (m.Match ord item).Reason = ReasonFuzzy)) ∧
    ((m.Match ord item).Status = MatchNotFound →
      (m.Match ord item).Product = none ∧ (m.Match ord item).Reason = ReasonNone) := by
  rw [match_eq]
  split
  · exact adjust_result_shape m item _ (fun _ => ⟨by simp, Or.inl rfl⟩)
      (fun h => by simp at h)
  · exact ⟨fun h => by simp at h, fun h => by simp at h⟩
  · split
    · exact adjust_result_shape m item _ (fun _ => ⟨by simp, Or.inr (Or.inl rfl)⟩)
        (fun h => by simp at h)
    · exact ⟨fun h => by simp at h, fun h => by simp at h⟩
    · split
      · exact ⟨fun h => by simp at h, fun _ => ⟨rfl, rfl⟩⟩
      · rename_i top1 rest _
        have hf := fuzzyResult_status m top1 rest
        exact adjust_result_shape m item _
          (fun h => ⟨(hf.1 h).1, Or.inr (Or.inr (hf.1 h).2)⟩) hf.2

/-- Witness of C30: a unique code hit with quantity 2 is OK with reason CODE
and a product; a query against the empty catalog is NOT_FOUND with reason NONE
and no product. -/
theorem match_status_invariants_witness :
    ((NewMatcher Config.defaults cableCatalog).Match RangeOrder.stored
        (sampleItem "ELC0100203802" (some 2))).Status = MatchOK ∧
    ((NewMatcher Config.defaults cableCatalog).Match RangeOrder.stored
        (sampleItem "ELC0100203802" (some 2))).Reason = ReasonCode ∧
    ((NewMatcher Config.defaults cableCatalog).Match RangeOrder.stored
        (sampleItem "ELC0100203802" (some 2))).Product ≠ none ∧
    ((NewMatcher Config.defaults []).Match RangeOrder.stored
        (sampleItem "ELC0100203802" (some 2))).Product = none := by
  have h1 := (match_status_invariants (NewMatcher Config.defaults cableCatalog)
    RangeOrder.stored (sampleItem "ELC0100203802" (some 2))).1 (by decide!)
  have h2 := (match_status_invariants (NewMatcher Config.defaults [])
    RangeOrder.stored (sampleItem "ELC0100203802" (some 2))).2 (by decide!)
  exact ⟨by decide!, by decide!, h1.2.1, h2.1⟩

/-! ## Order of the tiers -/

theorem codeHits_congr (m m2 : Matcher) (item : NormalizedItem)
    (h : m2.index.ByCode = m.index.ByCode) : m2.codeHits item = m.codeHits item := by
  unfold Matcher.codeHits
  rw [h]

/-- C28: whenever the name-or-code of the item looks like a code and its
normalized code has at least one hit in the code map, `Match` returns reason
CODE, whatever the header map holds; and the result is the same for every
matcher with the same code map, whatever its header map, its other maps, its
thresholds and the visiting order are. -/
theorem match_code_tier_first (m : Matcher) (ord : RangeOrder) (item : NormalizedItem)
    (nm : String) (hnm : item.NameOrCode = some nm) (hlooks : LooksLikeCode nm = true)
    (hhit : mapGet [] m.index.ByCode (NormalizeCode nm) ≠ []) :
    (m.Match ord item).Reason = ReasonCode ∧
    ∀ (m2 : Matcher) (ord2 : RangeOrder), m2.index.ByCode = m.index.ByCode →
      m2.Match ord2 item = m.Match ord item := by
  have hhits : m.codeHits item ≠ [] := by
    rw [codeHits_of_looksLikeCode m item nm hnm hlooks]
    exact hhit
  constructor
  · cases hc : m.codeHits item with
    | nil => exact absurd hc hhits
    | cons p ps =>
      cases ps with
      | nil =>
        rw [match_code_unique m ord item p hc]
        exact (adjust_status m item _).1
      | cons q rest =>
        rw [match_code_many m ord item p q rest hc]
  · intro m2 ord2 hsame
    have hc2 := codeHits_congr m m2 item hsame
    cases hc : m.codeHits item with
    | nil => exact absurd hc hhits
    | cons p ps =>
      rw [hc] at hc2
      cases ps with
      | nil =>
        rw [match_code_unique m ord item p hc, match_code_unique m2 ord2 item p hc2]
        rfl
      | cons q rest =>
        rw [match_code_many m ord item p q rest hc, match_code_many m2 ord2 item p q rest hc2]

/-- Witness of C28: the query `ABC123` is the code of product 2 and normalizes
to the header of product 1; the result has reason CODE and product 2. -/
theorem match_code_tier_first_witness :
    (NormalizeHeader "ABC123" = NormalizeHeader (sampleProduct 1 "ABC123" none).Header) ∧
    ((NewMatcher Config.defaults codeAndHeaderCatalog).Match RangeOrder.stored
        (sampleItem "ABC123" (some 2))).Reason = ReasonCode ∧
    ((NewMatcher Config.defaults codeAndHeaderCatalog).Match RangeOrder.stored
        (sampleItem "ABC123" (some 2))).Product
      = some (toMatchProduct (sampleProduct 2 "Кабель ВВГнг 3x4" (some "abc 123"))) :=
  ⟨rfl,
    (match_code_tier_first (NewMatcher Config.defaults codeAndHeaderCatalog) RangeOrder.stored
      (sampleItem "ABC123" (some 2)) "ABC123" rfl (by decide) (by decide)).1,
    by decide!⟩

/-! ## The ranking score -/

theorem scoreHeader_of_no_tokens (query candidate : String) (queryTokens : List String) :
    scoreHeader query candidate queryTokens [] = DiceCoefficient query candidate := by
  simp [scoreHeader]

theorem scoreHeader_of_tokens (query candidate : String)
    (queryTokens candidateTokens : List String) (hq : queryTokens ≠ [])
    (hc : candidateTokens ≠ []) :
    scoreHeader query candidate queryTokens candidateTokens =
      roundFloat64 (roundFloat64 (roundFloat64 0.65 * DiceCoefficient query candidate) +
        roundFloat64 (roundFloat64 0.35 *
          roundFloat64
            (roundFloat64 ((queryTokens.filter (fun t => t ∈ candidateTokens)).length : ℚ) /
              roundFloat64 (queryTokens.length : ℚ)))) := by
  have h1 : ¬ (queryTokens.length = 0 ∨ candidateTokens.length = 0) := by
    intro h
    rcases h with h | h
    · exact hq (List.length_eq_zero.mp h)
    · exact hc (List.length_eq_zero.mp h)
  have hfilter : queryTokens.filter (fun t => decide (t ∈ candidateTokens.foldl setAdd []))
      = queryTokens.filter (fun t => decide (t ∈ candidateTokens)) := by
    apply List.filter_congr
    intro t _
    have := mem_foldl_setAdd t candidateTokens []
    simp only [List.not_mem_nil, false_or] at this
    simp only [this]
  unfold scoreHeader
  simp only [h1, if_false, hfilter]

theorem mem_rankCandidates (m : Matcher) (ord : RangeOrder) (query : String)
    (c : MatchCandidate) (h : c ∈ m.rankCandidates ord query) :
    ∃ id, c = m.candidateOf query id := by
  rw [rankCandidates_eq] at h
  have hmem : c ∈ (ord.run (m.candidateIDs ord (Tokenize query))).map (m.candidateOf query) := by
    apply (sortByScore_perm _).mem_iff.mp
    split at h
    · exact List.mem_of_mem_take h
    · exact h
  obtain ⟨id, _, hid⟩ := List.mem_map.mp hmem
  exact ⟨id, hid.symm⟩

/-- C25 (amended): for every query with at least one token, the score of a
candidate whose normalized header yields at least one token is
`0.65 * DiceCoefficient(query, header) + 0.35 * (number of query tokens that
occur among the tokens of the header / number of query tokens)` as float64
arithmetic computes it (the two constants, the two counts, the quotient, the
two products and the sum each rounded to the nearest float64); the score of a
candidate whose header yields no token is `DiceCoefficient(query, header)`
alone; and every candidate the ranker returns is scored this way. -/
theorem rank_score_formula (m : Matcher) (query : String) (id : Int)
    (hq : Tokenize query ≠ []) :
    (Tokenize (mapGet "" m.index.NormalizedHeaderByID id) ≠ [] →
      (m.candidateOf query id).Score =
        roundFloat64
          (roundFloat64 (roundFloat64 0.65 *
              DiceCoefficient query (mapGet "" m.index.NormalizedHeaderByID id)) +
            roundFloat64 (roundFloat64 0.35 *
              roundFloat64
                (roundFloat64 (((Tokenize query).filter
                    (fun t => t ∈ Tokenize (mapGet "" m.index.NormalizedHeaderByID id))).length
                      : ℚ) /
                  roundFloat64 ((Tokenize query).length : ℚ))))) ∧
    (Tokenize (mapGet "" m.index.NormalizedHeaderByID id) = [] →
      (m.candidateOf query id).Score =
        DiceCoefficient query (mapGet "" m.index.NormalizedHeaderByID id)) ∧
    (∀ (ord : RangeOrder), ∀ c ∈ m.rankCandidates ord query,
      ∃ id1, c = m.candidateOf query id1) := by
  refine ⟨fun hc => ?_, fun hc => ?_, fun ord c h => mem_rankCandidates m ord query c h⟩
  · simp only [Matcher.candidateOf]
    exact scoreHeader_of_tokens query _ _ _ hq hc
  · simp only [Matcher.candidateOf]
    rw [hc]
    exact scoreHeader_of_no_tokens query _ _

/-- Witness of C25: the query `Кабель ВВГнг` against the first product of the
sample catalog; both tokens of the query occur in the header. -/
theorem rank_score_formula_witness :
    ((NewMatcher Config.defaults cableCatalog).candidateOf "КАБЕЛЬ ВВГНГ" 1).Score =
      roundFloat64
        (roundFloat64 (roundFloat64 0.65 * DiceCoefficient "КАБЕЛЬ ВВГНГ" "КАБЕЛЬ ВВГНГ 3X2.5") +
          roundFloat64 (roundFloat64 0.35 *
            roundFloat64 (roundFloat64 ((2 : ℕ) : ℚ) / roundFloat64 ((2 : ℕ) : ℚ)))) :=
  ((rank_score_formula (NewMatcher Config.defaults cableCatalog) "КАБЕЛЬ ВВГНГ" 1
    (by decide)).1 (by decide))

/-- Counterexample to C25 as stated: the query `A B CD` has the token `CD`, the
header `A B C` yields no token, and the ranker scores the product with the Dice
coefficient, the float64 nearest to 8/9, not with `0.65 * 8/9 + 0.35 * 0`. -/
theorem rank_score_formula_counterexample :
    Tokenize "A B CD" = ["CD"] ∧ Tokenize (NormalizeHeader "A B C") = [] ∧
    DiceCoefficient "A B CD" (NormalizeHeader "A B C") = roundFloat64 (8 / 9) ∧
    ((NewMatcher Config.defaults tokenlessCatalog).rankCandidates RangeOrder.stored
        "A B CD").map (fun c => c.Score) = [roundFloat64 (8 / 9)] ∧
    roundFloat64 (8 / 9) ≠
      roundFloat64 (roundFloat64 (roundFloat64 0.65 * roundFloat64 (8 / 9)) +
        roundFloat64 (roundFloat64 0.35 * roundFloat64 (roundFloat64 0 / roundFloat64 1))) := by
  refine ⟨by decide, by decide, by decide!, by decide!, by decide!⟩

/-! ## Keys of the code map and of the header map -/

theorem mapHas_mapSet {κ ν : Type} [DecidableEq κ] (m : List (κ × ν)) (k k1 : κ) (v : ν) :
    mapHas (mapSet m k v) k1 = (mapHas m k1 || decide (k = k1)) := by
  induction m with
  | nil => simp [mapSet, mapHas]
  | cons e m ih =>
    obtain ⟨k0, v0⟩ := e
    unfold mapHas at ih ⊢
    by_cases h : k0 = k
    · subst h
      simp only [mapSet, if_true, List.any_cons]
      by_cases h1 : k0 = k1
      · simp [h1]
      · simp [h1]
    · simp only [mapSet, h, if_false, List.any_cons, ih]
      rw [Bool.or_assoc]

theorem mapGet_of_not_mapHas {κ ν : Type} [DecidableEq κ] (d : ν) (m : List (κ × ν)) (k : κ)
    (h : mapHas m k = false) : mapGet d m k = d := by
  induction m with
  | nil => rfl
  | cons e m ih =>
    obtain ⟨k0, v0⟩ := e
    simp only [mapHas, List.any_cons, Bool.or_eq_false_iff, decide_eq_false_iff_not] at h
    simp only [mapGet, h.1, if_false]
    exact ih h.2

theorem mapHas_addCode (p : ProductRecord) (byCode : List (String × List ProductRecord))
    (c : Option String) : mapHas (addCode p byCode c) "" = mapHas byCode "" := by
  cases c with
  | none => rfl
  | some s =>
    simp only [addCode]
    by_cases he : NormalizeCode s = ""
    · simp [he]
    · simp only [he, if_false, mapHas_mapSet]
      simp [he]

theorem mapHas_foldl_addCode (p : ProductRecord) :
    ∀ (fields : List (Option String)) (byCode : List (String × List ProductRecord)),
      mapHas (fields.foldl (addCode p) byCode) "" = mapHas byCode "" := by
  intro fields
  induction fields with
  | nil => intro byCode; rfl
  | cons c cs ih =>
    intro byCode
    rw [List.foldl_cons, ih, mapHas_addCode]

theorem mapHas_byCode_foldl :
    ∀ (products : List ProductRecord) (idx : Index),
      mapHas (products.foldl indexProduct idx).ByCode "" = mapHas idx.ByCode "" := by
  intro products
  induction products with
  | nil => intro idx; rfl
  | cons p ps ih =>
    intro idx
    rw [List.foldl_cons, ih]
    exact mapHas_foldl_addCode p (codeFields p) idx.ByCode

/-- The code map of `BuildIndex` has no empty key. -/
theorem mapHas_byCode_buildIndex (products : List ProductRecord) :
    mapHas (BuildIndex products).ByCode "" = false := by
  unfold BuildIndex
  rw [mapHas_byCode_foldl]
  rfl

theorem mapHas_byHeader_foldl (k : String) :
    ∀ (products : List ProductRecord) (idx : Index),
      mapHas (products.foldl indexProduct idx).ByHeader k =
        (mapHas idx.ByHeader k || products.any (fun p => NormalizeHeader p.Header = k)) := by
  intro products
  induction products with
  | nil => intro idx; simp
  | cons p ps ih =>
    intro idx
    rw [List.foldl_cons, ih]
    have : (indexProduct idx p).ByHeader =
        mapSet idx.ByHeader (NormalizeHeader p.Header)
          (mapGet [] idx.ByHeader (NormalizeHeader p.Header) ++ [p]) := rfl
    rw [this, mapHas_mapSet, List.any_cons, Bool.or_assoc]

/-- The keys of the header map of `BuildIndex`: the normalized headers of the
products. -/
theorem mapHas_byHeader_buildIndex (products : List ProductRecord) (k : String) :
    mapHas (BuildIndex products).ByHeader k = true ↔
      ∃ p ∈ products, NormalizeHeader p.Header = k := by
  unfold BuildIndex
  rw [mapHas_byHeader_foldl]
  simp [mapHas]

/-- C26: the code map of `BuildIndex` never has the empty string as a key, but
the header map has it whenever the normalized header of some product is empty:
the header `—` is indexed under the empty key, and a line that normalizes to
the empty string then matches that product in the header tier. -/
theorem buildIndex_empty_header_key :
    (∀ products, mapHas (BuildIndex products).ByCode "" = false) ∧
    (∀ products, mapHas (BuildIndex products).ByHeader "" = true ↔
      ∃ p ∈ products, NormalizeHeader p.Header = "") ∧
    NormalizeHeader "—" = "" ∧
    mapHas (BuildIndex dashCatalog).ByHeader "" = true ∧
    mapGet [] (BuildIndex dashCatalog).ByHeader "" = dashCatalog ∧
    ((NewMatcher Config.defaults dashCatalog).Match RangeOrder.stored
        (lineItem "?" (some 1))).Status = MatchOK ∧
    ((NewMatcher Config.defaults dashCatalog).Match RangeOrder.stored
        (lineItem "?" (some 1))).Reason = ReasonHeader := by
  refine ⟨mapHas_byCode_buildIndex, fun products => mapHas_byHeader_buildIndex products "",
    by decide, by decide, by decide, by decide!, by decide!⟩

/-! ## Entries of the code map -/

theorem mem_flatMap_codeEntries (products : List ProductRecord) (k : String)
    (p : ProductRecord) :
    p ∈ products.flatMap (fun p => codeEntries p k) ↔
      p ∈ products ∧ ∃ field, some field ∈ codeFields p ∧ NormalizeCode field = k := by
  constructor
  · intro h
    obtain ⟨p1, hp1, hmem⟩ := List.mem_flatMap.mp h
    unfold codeEntries at hmem
    obtain ⟨c, hc, hpc⟩ := List.mem_map.mp hmem
    subst hpc
    obtain ⟨hcf, hck⟩ := List.mem_filter.mp hc
    refine ⟨hp1, ?_⟩
    cases c with
    | none => simp at hck
    | some field =>
      refine ⟨field, hcf, ?_⟩
      simpa using hck
  · rintro ⟨hp, field, hf, hk⟩
    apply List.mem_flatMap.mpr
    refine ⟨p, hp, ?_⟩
    unfold codeEntries
    apply List.mem_map.mpr
    exact ⟨some field, List.mem_filter.mpr ⟨hf, by simp [hk]⟩, rfl⟩

/-- C27: a product occurs in the entry `ByCode[k]` of `BuildIndex(products)` if
and only if it is a product of the list, `k` is not empty and one of its code
fields (articul, sync identifier, a flat code, an analog code) is present with
`NormalizeCode(field) = k`; the entry lists the products in catalog order, each
once for every code field that normalizes to `k`. -/
theorem byCode_entry (products : List ProductRecord) (k : String) (p : ProductRecord) :
    (p ∈ mapGet [] (BuildIndex products).ByCode k ↔
      p ∈ products ∧ k ≠ "" ∧ ∃ field, some field ∈ codeFields p ∧ NormalizeCode field = k) ∧
    mapGet [] (BuildIndex products).ByCode k =
      (if k = "" then []
       else products.flatMap (fun p => List.replicate (codeFieldCount p k) p)) := by
  by_cases hk : k = ""
  · subst hk
    have hnil : mapGet [] (BuildIndex products).ByCode "" = [] :=
      mapGet_of_not_mapHas [] _ "" (mapHas_byCode_buildIndex products)
    rw [hnil]
    simp
  · rw [mapGet_byCode_buildIndex products k hk, if_neg hk, mem_flatMap_codeEntries]
    refine ⟨?_, ?_⟩
    · constructor
      · rintro ⟨h1, h2⟩
        exact ⟨h1, hk, h2⟩
      · rintro ⟨h1, _, h2⟩
        exact ⟨h1, h2⟩
    · congr 1
      funext p1
      exact codeEntries_eq_replicate p1 k

/-! ## Tokens of the index and tokens of the ranker -/

/-- C29: for the header `кв  мм` (two spaces) the index posts the product under
the tokens `КВ` and `ММ` of `Tokenize(p.Header)`, while the ranker scores it
with the tokens of `Tokenize(NormalizedHeaderByID[p.ID])`, which is the single
token `MM2`: the two token sets have no element in common. -/
theorem index_and_ranker_tokens_differ :
    Tokenize "кв  мм" = ["КВ", "ММ"] ∧
    (BuildIndex areaUnitCatalog).TokenToProductIDs = [("КВ", [1]), ("ММ", [1])] ∧
    mapGet "" (BuildIndex areaUnitCatalog).NormalizedHeaderByID 1 = "КВ ММ" ∧
    Tokenize (mapGet "" (BuildIndex areaUnitCatalog).NormalizedHeaderByID 1) = ["MM2"] ∧
    (∀ t ∈ Tokenize "кв  мм", t ∉ Tokenize (NormalizeHeader "кв  мм")) := by
  refine ⟨by decide, by decide, by decide, by decide, by decide⟩

/-! ## What `NormalizeHeader` does with a quotation mark or a disallowed rune -/

theorem upperLatinOrDigit_toNat (x : Char) (h : isUpperLatinOrDigit x = true) :
    (65 ≤ x.toNat ∧ x.toNat ≤ 90) ∨ (48 ≤ x.toNat ∧ x.toNat ≤ 57) := by
  unfold isUpperLatinOrDigit at h
  simp only [Bool.or_eq_true, Bool.and_eq_true, decide_eq_true_eq] at h
  have e1 : ('A' : Char).toNat = 65 := rfl
  have e2 : ('Z' : Char).toNat = 90 := rfl
  have e5 : ('0' : Char).toNat = 48 := rfl
  have e6 : ('9' : Char).toNat = 57 := rfl
  rcases h with h | h
  · rw [charLe_iff, charLe_iff] at h; omega
  · rw [charLe_iff, charLe_iff] at h; omega

theorem upperLatinOrDigit_ne (x y : Char) (h : isUpperLatinOrDigit x = true)
    (hy : isUpperLatinOrDigit y = false) : x ≠ y := by
  intro e
  rw [e, hy] at h
  exact absurd h (by simp)

theorem toUpperRune_upperLatinOrDigit (x : Char) (h : isUpperLatinOrDigit x = true) :
    toUpperRune x = x := by
  have hr := upperLatinOrDigit_toNat x h
  exact toUpperRune_of_toNat_lt x (by omega)

theorem upperLatinOrDigit_classes (x : Char) (h : isUpperLatinOrDigit x = true) :
    isQuote x = false ∧ isAllowed x = true ∧ isReSpace x = false ∧ isSpaceRune x = false := by
  have hr := upperLatinOrDigit_toNat x h
  refine ⟨?_, ?_, ?_, ?_⟩
  · cases hq : isQuote x with
    | false => rfl
    | true =>
      exfalso
      simp only [isQuote, Bool.or_eq_true, decide_eq_true_eq] at hq
      rcases hq with (((hq | hq) | hq) | hq) | hq <;>
        exact upperLatinOrDigit_ne x _ h (by decide) hq
  · unfold isUpperLatinOrDigit at h
    unfold isAllowed
    simp only [Bool.or_eq_true, Bool.and_eq_true, decide_eq_true_eq] at h ⊢
    rcases h with h | h
    · exact Or.inl (Or.inl (Or.inl (Or.inl (Or.inl (Or.inl (Or.inl h))))))
    · exact Or.inl (Or.inl (Or.inl (Or.inl (Or.inl (Or.inr h)))))
  · cases hs : isReSpace x with
    | false => rfl
    | true =>
      exfalso
      simp only [isReSpace, Bool.or_eq_true, decide_eq_true_eq] at hs
      rcases hs with (((hs | hs) | hs) | hs) | hs <;>
        exact upperLatinOrDigit_ne x _ h (by decide) hs
  · cases hs : isSpaceRune x with
    | false => rfl
    | true =>
      have := isSpaceRune_toNat x hs
      omega

theorem toNat_ofNat_small (n : Nat) (h : n < 55296) : (Char.ofNat n).toNat = n := by
  have hv : n.isValidChar := Or.inl h
  unfold Char.ofNat
  simp only [hv, dif_pos]
  unfold Char.ofNatAux Char.toNat
  simp [UInt32.toNat]

theorem toUpperRune_ne_lower_ha (c : Char) : toUpperRune c ≠ 'х' := by
  have ea : ('a' : Char).toNat = 97 := rfl
  have ez : ('z' : Char).toNat = 122 := rfl
  have eb : ('а' : Char).toNat = 1072 := rfl
  have ey : ('я' : Char).toNat = 1103 := rfl
  have ec : ('ѐ' : Char).toNat = 1104 := rfl
  have ed : ('џ' : Char).toNat = 1119 := rfl
  have ex : ('х' : Char).toNat = 1093 := rfl
  intro h
  unfold toUpperRune at h
  by_cases h1 : 'a' ≤ c ∧ c ≤ 'z'
  · rw [if_pos h1] at h
    rw [charLe_iff, charLe_iff] at h1
    have := congrArg Char.toNat h
    rw [toNat_ofNat_small _ (by omega)] at this
    omega
  rw [if_neg h1] at h
  by_cases h2 : 'а' ≤ c ∧ c ≤ 'я'
  · rw [if_pos h2] at h
    rw [charLe_iff, charLe_iff] at h2
    have := congrArg Char.toNat h
    rw [toNat_ofNat_small _ (by omega)] at this
    omega
  rw [if_neg h2] at h
  by_cases h3 : 'ѐ' ≤ c ∧ c ≤ 'џ'
  · rw [if_pos h3] at h
    rw [charLe_iff, charLe_iff] at h3
    have := congrArg Char.toNat h
    rw [toNat_ofNat_small _ (by omega)] at this
    omega
  rw [if_neg h3] at h
  by_cases h4 : c = 'ı'
  · rw [if_pos h4] at h
    exact absurd h (by decide)
  rw [if_neg h4] at h
  by_cases h5 : c = 'ſ'
  · rw [if_pos h5] at h
    exact absurd h (by decide)
  rw [if_neg h5] at h
  by_cases h6 : c = Char.ofNat 0x1C80
  · rw [if_pos h6] at h
    exact absurd h (by decide)
  rw [if_neg h6] at h
  by_cases h7 : c = Char.ofNat 0x1C81
  · rw [if_pos h7] at h
    exact absurd h (by decide)
  rw [if_neg h7] at h
  by_cases h8 : c = Char.ofNat 0x1C82
  · rw [if_pos h8] at h
    exact absurd h (by decide)
  rw [if_neg h8] at h
  by_cases h9 : c = Char.ofNat 0x1C83
  · rw [if_pos h9] at h
    exact absurd h (by decide)
  rw [if_neg h9] at h
  by_cases h10 : c = Char.ofNat 0x1C84
  · rw [if_pos h10] at h
    exact absurd h (by decide)
  rw [if_neg h10] at h
  by_cases h11 : c = Char.ofNat 0x1C85
  · rw [if_pos h11] at h
    exact absurd h (by decide)
  rw [if_neg h11] at h
  by_cases h12 : c = Char.ofNat 0x1C86
  · rw [if_pos h12] at h
    exact absurd h (by decide)
  rw [if_neg h12] at h
  apply h2
  rw [h, charLe_iff, charLe_iff]
  omega

theorem mem_of_isPrefixOf {a l : List Char} (h : a.isPrefixOf l = true) : ∀ x ∈ a, x ∈ l := by
  intro x hx
  exact (List.isPrefixOf_iff_prefix.mp h).subset hx

/-- A replacement pass changes nothing when every old string has a rune that
the text does not hold. -/
theorem replaceRunes_eq_self (pairs : List (List Char × List Char)) :
    ∀ (s : List Char), (∀ p ∈ pairs, ∃ x ∈ p.1, x ∉ s) → replaceRunes pairs 0 s = s := by
  intro s
  induction s with
  | nil => intro _; rfl
  | cons c cs ih =>
    intro h
    have hfind : pairs.find? (fun p => p.1.isPrefixOf (c :: cs)) = none := by
      apply List.find?_eq_none.mpr
      intro p hp hpre
      obtain ⟨x, hx, hxs⟩ := h p hp
      exact hxs (mem_of_isPrefixOf hpre x hx)
    rw [replaceRunes, hfind]
    simp only
    rw [ih (fun p hp => by
      obtain ⟨x, hx, hxs⟩ := h p hp
      exact ⟨x, hx, fun hm => hxs (List.mem_cons_of_mem _ hm)⟩)]

theorem collapseSpaces_eq_self :
    ∀ (l : List Char) (b : Bool), (∀ x ∈ l, isReSpace x = false) → collapseSpaces b l = l := by
  intro l
  induction l with
  | nil => intro b _; rfl
  | cons x xs ih =>
    intro b h
    rw [collapseSpaces, h x (List.mem_cons_self _ _)]
    simp only [Bool.false_eq_true, if_false]
    rw [ih false (fun y hy => h y (List.mem_cons_of_mem _ hy))]

theorem collapseSpaces_one_space (v : List Char) (hv : ∀ x ∈ v, isReSpace x = false) :
    ∀ (u : List Char) (b : Bool), (∀ x ∈ u, isReSpace x = false) → (u ≠ [] ∨ b = false) →
      collapseSpaces b (u ++ ' ' :: v) = u ++ ' ' :: v := by
  intro u
  induction u with
  | nil =>
    intro b _ hb
    have hbf : b = false := by
      rcases hb with hb | hb
      · exact absurd rfl hb
      · exact hb
    subst hbf
    have hsp : isReSpace ' ' = true := by decide
    rw [List.nil_append, collapseSpaces, hsp]
    simp only [if_true, Bool.false_eq_true, if_false]
    rw [collapseSpaces_eq_self v true hv]
  | cons x xs ih =>
    intro b h _
    rw [List.cons_append, collapseSpaces, h x (List.mem_cons_self _ _)]
    simp only [Bool.false_eq_true, if_false]
    rw [ih false (fun y hy => h y (List.mem_cons_of_mem _ hy)) (Or.inr rfl)]

/-- C24 (amended): for all non-empty `u` and `v` made of uppercase Latin
letters and digits and every character `c` whose upper case is a quotation
mark or lies outside the allowed set, and is none of `Ё`, `×`, `*`, `²` (which
the replacers rewrite), `NormalizeHeader(u + c + v)` is `u`, one space, `v`:
the character is replaced by a space, not deleted. -/
theorem normalizeHeader_blanks_rune (u v : List Char) (c : Char) (hu : u ≠ []) (hv : v ≠ [])
    (hua : ∀ x ∈ u, isUpperLatinOrDigit x = true) (hva : ∀ x ∈ v, isUpperLatinOrDigit x = true)
    (hc : isQuote (toUpperRune c) = true ∨ isAllowed (toUpperRune c) = false)
    (hkeys : toUpperRune c ≠ 'Ё' ∧ toUpperRune c ≠ '×' ∧ toUpperRune c ≠ '*' ∧
      toUpperRune c ≠ '²') :
    NormalizeHeader (String.mk (u ++ [c] ++ v)) = String.mk (u ++ [' '] ++ v) := by
  obtain ⟨k1, k2, k3, k4⟩ := hkeys
  have k5 := toUpperRune_ne_lower_ha c
  have hmapfix : ∀ l : List Char, (∀ x ∈ l, isUpperLatinOrDigit x = true) →
      l.map toUpperRune = l := fun l hl =>
    map_eq_self_of_forall _ l (fun x hx => toUpperRune_upperLatinOrDigit x (hl x hx))
  -- a rune outside the letters and digits, and different from the upper-cased `c`, is
  -- not in the text
  have hnotin : ∀ y : Char, isUpperLatinOrDigit y = false → toUpperRune c ≠ y →
      y ∉ u ++ toUpperRune c :: v := by
    intro y hy hcy hm
    simp only [List.mem_append, List.mem_cons] at hm
    rcases hm with hm | hm | hm
    · exact upperLatinOrDigit_ne y y (hua y hm) hy rfl
    · exact hcy hm.symm
    · exact upperLatinOrDigit_ne y y (hva y hm) hy rfl
  have hcyr : ∀ y : Char, isQuote y = false → isAllowed y = true → toUpperRune c ≠ y := by
    intro y h1 h2 e
    rw [e] at hc
    rcases hc with hc | hc
    · rw [h1] at hc; exact absurd hc (by simp)
    · rw [h2] at hc; exact absurd hc (by simp)
  have hs1 : (u ++ [c] ++ v).map toUpperRune = u ++ toUpperRune c :: v := by
    rw [List.map_append, List.map_append, hmapfix u hua, hmapfix v hva]
    simp
  have hs2 : replaceRunes [("Ё".data, "Е".data)] 0 (u ++ toUpperRune c :: v)
      = u ++ toUpperRune c :: v := by
    apply replaceRunes_eq_self
    intro p hp
    simp only [List.mem_singleton] at hp
    subst hp
    exact ⟨'Ё', by decide, hnotin 'Ё' (by decide) k1⟩
  have hs3 : replaceRunes headerReplacements 0 (u ++ toUpperRune c :: v)
      = u ++ toUpperRune c :: v := by
    apply replaceRunes_eq_self
    intro p hp
    simp only [headerReplacements, List.mem_cons, List.mem_singleton, List.not_mem_nil,
      or_false] at hp
    rcases hp with rfl | rfl | rfl | rfl | rfl | rfl | rfl | rfl
    · exact ⟨'×', by decide, hnotin '×' (by decide) k2⟩
    · exact ⟨'Х', by decide, hnotin 'Х' (by decide) (hcyr 'Х' (by decide) (by decide))⟩
    · exact ⟨'х', by decide, hnotin 'х' (by decide) k5⟩
    · exact ⟨'*', by decide, hnotin '*' (by decide) k3⟩
    · exact ⟨'²', by decide, hnotin '²' (by decide) k4⟩
    · exact ⟨'К', by decide, hnotin 'К' (by decide) (hcyr 'К' (by decide) (by decide))⟩
    · exact ⟨'К', by decide, hnotin 'К' (by decide) (hcyr 'К' (by decide) (by decide))⟩
    · exact ⟨'²', by decide, hnotin '²' (by decide) k4⟩
  have hq : ∀ l : List Char, (∀ x ∈ l, isUpperLatinOrDigit x = true) →
      l.map (fun c => if isQuote c then ' ' else c) = l := fun l hl =>
    map_eq_self_of_forall _ l (fun x hx => by
      simp [(upperLatinOrDigit_classes x (hl x hx)).1])
  have ha : ∀ l : List Char, (∀ x ∈ l, isUpperLatinOrDigit x = true) →
      l.map (fun c => if isAllowed c then c else ' ') = l := fun l hl =>
    map_eq_self_of_forall _ l (fun x hx => by
      simp [(upperLatinOrDigit_classes x (hl x hx)).2.1])
  have hs4 : ((u ++ toUpperRune c :: v).map (fun c => if isQuote c then ' ' else c)).map
      (fun c => if isAllowed c then c else ' ') = u ++ ' ' :: v := by
    rw [List.map_append, List.map_append, List.map_cons, List.map_cons, hq u hua, hq v hva,
      ha u hua, ha v hva]
    congr 2
    by_cases hquote : isQuote (toUpperRune c) = true
    · simp only [hquote, if_true]
      have : isAllowed ' ' = true := by decide
      simp [this]
    · have hna : isAllowed (toUpperRune c) = false := by
        rcases hc with hc | hc
        · exact absurd hc hquote
        · exact hc
      simp [hquote, hna]
  have hs5 : collapseSpaces false (u ++ ' ' :: v) = u ++ ' ' :: v :=
    collapseSpaces_one_space v (fun x hx => (upperLatinOrDigit_classes x (hva x hx)).2.2.1) u
      false (fun x hx => (upperLatinOrDigit_classes x (hua x hx)).2.2.1) (Or.inl hu)
  have hs6 : trimSpaceRunes (u ++ ' ' :: v) = u ++ ' ' :: v := by
    cases u with
    | nil => exact absurd rfl hu
    | cons d u1 =>
      have hsplit := (List.dropLast_append_getLast hv).symm
      refine trimSpaceRunes_of_ends _ (u1 ++ ' ' :: v) ((d :: u1) ++ ' ' :: v.dropLast)
        d (v.getLast hv) rfl ?_
        (upperLatinOrDigit_classes d (hua d (List.mem_cons_self _ _))).2.2.2
        (upperLatinOrDigit_classes _ (hva _ (List.getLast_mem hv))).2.2.2
      conv_lhs => rw [hsplit]
      simp
  show String.mk (normalizeHeaderRunes (u ++ [c] ++ v)) = _
  unfold normalizeHeaderRunes
  simp only [hs1, hs2, hs3, hs4, hs5, hs6]
  simp

/-- Witness of C24: a parenthesis, an exclamation mark and a quotation mark
between letters and digits each leave one space. -/
theorem normalizeHeader_blanks_rune_witness :
    NormalizeHeader "AB1(C2" = "AB1 C2" ∧ NormalizeHeader "AB1!C2" = "AB1 C2" ∧
    NormalizeHeader "AB1\"C2" = "AB1 C2" :=
  ⟨normalizeHeader_blanks_rune "AB1".data "C2".data '(' (by decide) (by decide) (by decide)
      (by decide) (by decide) (by decide),
    normalizeHeader_blanks_rune "AB1".data "C2".data '!' (by decide) (by decide) (by decide)
      (by decide) (by decide) (by decide),
    normalizeHeader_blanks_rune "AB1".data "C2".data '"' (by decide) (by decide) (by decide)
      (by decide) (by decide) (by decide)⟩

/-- Counterexample to C24 as stated: with `u = AB1`, `v = C2` and `c` a
quotation mark, a parenthesis or an exclamation mark, the result is `AB1 C2`,
not `AB1C2`; and the lowercase letter `a` and the old Cyrillic letter U+1C80,
which lie outside the allowed set, are kept as their capitals `A` and `В`. -/
theorem normalizeHeader_blanks_rune_counterexample :
    NormalizeHeader "AB1\"C2" = "AB1 C2" ∧ NormalizeHeader "AB1\"C2" ≠ "AB1C2" ∧
    NormalizeHeader "AB1(C2" ≠ "AB1C2" ∧ NormalizeHeader "AB1!C2" ≠ "AB1C2" ∧
    isAllowed 'a' = false ∧ NormalizeHeader "AB1aC2" = "AB1AC2" ∧
    isAllowed (Char.ofNat 0x1C80) = false ∧
    NormalizeHeader (String.mk ("AB1".data ++ [Char.ofNat 0x1C80] ++ "C2".data)) = "AB1ВC2" := by
  refine ⟨by decide, by decide, by decide, by decide, by decide, by decide, by decide,
    by decide⟩

/-! ## Lines without a digit -/

/-- What a successful attempt of `numberPattern` has read. -/
theorem matchHere_numberPattern_inv {b : Bool} {text : List Char} {r : ReState}
    (h : matchHere numberPattern b text = some r) :
    ∃ (gd w : List Char),
      ((gd = [] ∧ b = true) ∨ ∃ g, gd = [g] ∧ isNotNumeric g = true) ∧
      NumberText w ∧ text = gd ++ (w ++ r.rest) ∧ capture r.caps 1 = w := by
  unfold matchHere at h
  obtain ⟨s1, hsteps, hk⟩ := matchRe_sound _ _ _ _ h
  cases hk
  unfold numberPattern at hsteps
  obtain ⟨sa, hga, hnum⟩ := steps_seq_inv hsteps
  obtain ⟨sb0, hnum0, hrrest, hrcaps⟩ := steps_group_inv hnum
  obtain ⟨w, hw, hwe⟩ := steps_number hnum0
  have hcaps_a : sa.caps = [] := steps_groupFree hga reNumberGuard_groupFree
  have hcaps_b0 : sb0.caps = sa.caps := steps_groupFree hnum0 reNumber_groupFree
  have htake : sa.rest.take (sa.rest.length - sb0.rest.length) = w := by
    rw [hwe]
    simp
  have hcap : capture r.caps 1 = w := by
    rw [hrcaps, hcaps_b0, hcaps_a, htake]
    simp [capture, mapGet_mapSet]
  have hgd : ∃ gd, ((gd = [] ∧ b = true) ∨ ∃ g, gd = [g] ∧ isNotNumeric g = true) ∧
      text = gd ++ sa.rest := by
    rcases steps_alt_inv hga with hbol | hrune
    · obtain ⟨e, hb⟩ := steps_bol_inv hbol
      exact ⟨[], Or.inl ⟨rfl, hb⟩, by rw [e]; rfl⟩
    · obtain ⟨g, hg, e⟩ := steps_rune_inv hrune
      exact ⟨[g], Or.inr ⟨g, rfl, hg⟩, by simpa using e⟩
  obtain ⟨gd, hgd1, hgd2⟩ := hgd
  exact ⟨gd, w, hgd1, hw, by rw [hgd2, hwe, hrrest], hcap⟩

theorem matchHere_numberPattern_nodigit (b : Bool) (text : List Char)
    (h : ∀ c ∈ text, isDigitRune c = false) : matchHere numberPattern b text = none := by
  cases hm : matchHere numberPattern b text with
  | none => rfl
  | some r =>
    exfalso
    obtain ⟨gd, w, _, hw, htext, _⟩ := matchHere_numberPattern_inv hm
    obtain ⟨d, t, hd, hdd⟩ := numberText_head hw
    rw [h d (by rw [htext, hd]; simp)] at hdd
    exact absurd hdd (by simp)

/-- A pattern that matches nowhere in a text has no match in it. -/
theorem findAllSubmatch_eq_nil (re : Re) (P : List Char → Prop)
    (htail : ∀ c t, P (c :: t) → P t)
    (hnone : ∀ b t, P t → matchHere re b t = none) :
    ∀ (text : List Char), P text → ∀ (skip : Nat) (b : Bool),
      findAllSubmatch re skip b text = [] := by
  intro text
  induction text with
  | nil =>
    intro h skip b
    rw [findAllSubmatch_nil, findAllSubmatch]
    simp only [hnone b [] h]
  | cons c t ih =>
    intro h skip b
    cases skip with
    | zero =>
      rw [findAllSubmatch_of_none re (hnone b (c :: t) h)]
      exact ih (htail c t h) 0 false
    | succ n =>
      rw [findAllSubmatch]
      exact ih (htail c t h) n false

theorem findAllSubmatch_numberPattern_nodigit (text : List Char)
    (h : ∀ c ∈ text, isDigitRune c = false) (skip : Nat) (b : Bool) :
    findAllSubmatch numberPattern skip b text = [] :=
  findAllSubmatch_eq_nil numberPattern (fun t => ∀ c ∈ t, isDigitRune c = false)
    (fun _ _ ht x hx => ht x (List.mem_cons_of_mem _ hx))
    (fun b t ht => matchHere_numberPattern_nodigit b t ht) text h skip b

/-- C22: for every line without a digit `ParseQty` returns a result with no
quantity and no raw matched substring. -/
theorem parseQty_no_digit (input : String) (h : ∀ c ∈ input.data, isDigitRune c = false) :
    (ParseQty input).Qty = none ∧ (ParseQty input).QtyRaw = none := by
  have hline := nodigit_map_nbsp input.data h
  have h1 := findAllSubmatch_withUnit_nodigit _ hline 0 true
  have h2 := findAllSubmatch_numberPattern_nodigit _ hline 0 true
  unfold ParseQty
  simp only [show " ".data = [' '] from rfl, replaceRunes_single, h1, h2, List.getLast?_nil]
  simp

/-- Witness of C22: a line with a name and a unit but no digit. -/
theorem parseQty_no_digit_witness :
    (ParseQty "Кабель медный, шт").Qty = none ∧ (ParseQty "Кабель медный, шт").QtyRaw = none :=
  parseQty_no_digit "Кабель медный, шт" (by decide)

/-! ## The unit of the result -/

/-- C21: in the line `Провод медный 5 шт` the selected number is `5` with the
unit `шт` (the raw match is `5 шт`), but the unit of the result is `м`, the
first unit token anywhere in the line (the first letter of `медный`); where no
such text precedes the number, as in the lines of the specification, the unit
is the one behind the number. -/
theorem parseQty_unit_from_line_start :
    (ParseQty "Провод медный 5 шт").Qty = some 5 ∧
    (ParseQty "Провод медный 5 шт").QtyRaw = some "5 шт" ∧
    (ParseQty "Провод медный 5 шт").Unit = some "м" ∧
    (ParseQty "Кабель 1 000 шт").Unit = some "шт" ∧
    (ParseQty "Провод 1,5 м").Unit = some "м" := by
  refine ⟨by decide!, by decide!, by decide!, by decide!, by decide!⟩

/-! ## The last number with a unit -/

theorem reUnit_allRunes_letters : Re.allRunes (fun c => c ∈ unitLetters ∨ c = '.') reUnit := by
  have horb : ∀ p, p ∈ "штукpcsмерkgгпол".data →
      ∀ c, decide (c ∈ foldOrbit p) = true → c ∈ unitLetters ∨ c = '.' :=
    fun p hp c hc => Or.inl (orbit_unitLetters p hp c hc)
  have hdot : ∀ c : Char, decide (c = '.') = true → c ∈ unitLetters ∨ c = '.' := by
    intro c hc
    exact Or.inr (by simpa using hc)
  simp only [reUnit, Re.allRunes, Re.foldLit, Re.opt, and_true]
  refine ⟨?_, ⟨?_, ?_, ?_, ?_⟩, ⟨?_, ?_, ?_⟩, ⟨?_, ?_⟩, ⟨?_, ?_⟩, ⟨?_, ?_, ?_, ?_⟩, ⟨?_, ?_⟩,
    ⟨?_, ?_⟩, ⟨⟨?_, ?_⟩, ?_⟩, ⟨?_, ?_, ?_, ?_, ?_⟩, ?_⟩ <;>
    first
      | exact hdot
      | exact horb _ (by decide)
      | exact ⟨horb _ (by decide), horb _ (by decide)⟩

/-! ## The raw match -/

/-- C23: for the line `Кабель 5шт` the raw match of `ParseQty` is `5 шт`, with
a space that the line does not have, so it is not a substring of the line and
the removal of the quantity in `lineToExtractionItem` leaves the line as it is;
for `Кабель 5 шт` the raw match is in the line and is removed, and for a number
without a unit (`Кабель 5`) the raw match is the matched text itself. -/
theorem parseQty_qtyRaw_not_in_line :
    (ParseQty "Кабель 5шт").QtyRaw = some "5 шт" ∧
    ¬ ("5 шт".data <:+: "Кабель 5шт".data) ∧
    stripQtyRaw "Кабель 5шт" = "Кабель 5шт" ∧
    (ParseQty "Кабель 5 шт").QtyRaw = some "5 шт" ∧
    stripQtyRaw "Кабель 5 шт" = "Кабель  " ∧
    (ParseQty "Кабель 5").QtyRaw = some "5" ∧
    stripQtyRaw "Кабель 5" = "Кабель  " := by
  refine ⟨by decide!, by decide, by decide!, by decide!, by decide!, by decide!, by decide!⟩

/-! ## The range of float64 in `ParseQty` -/

/-- The range of float64 in `parseFloat`: a numeral of 309 digits that starts
with 2 is beyond the range and is an error, the numeral 1 followed by 308
zeros is read as the float64 nearest to it, and a positive numeral below half
of the smallest float64 is read as 0. -/
theorem parseFloat_range :
    parseFloat ('2' :: List.replicate 308 '0') = none ∧
    parseFloat ('1' :: List.replicate 308 '0') = some (roundFloat64 (10 ^ 308)) ∧
    parseFloat ("0.".data ++ List.replicate 400 '0' ++ ['1']) = some 0 := by
  refine ⟨by decide!, by decide!, by decide!⟩

/-- A quantity beyond the range of float64: the number is matched, the raw
match is returned, and there is no quantity. -/
theorem parseQty_out_of_range :
    (ParseQty (String.mk ("Кабель 2".data ++ List.replicate 308 '0' ++ " шт".data))).Qty
      = none ∧
    (ParseQty (String.mk ("Кабель 2".data ++ List.replicate 308 '0' ++ " шт".data))).QtyRaw
      = some (String.mk ('2' :: List.replicate 308 '0' ++ " шт".data)) := by
  refine ⟨by decide!, by decide!⟩

/-! ## What the unit pattern reads -/

theorem foldEq_length : ∀ (pat u : List Char), foldEq pat u = true → u.length = pat.length := by
  intro pat
  induction pat with
  | nil =>
    intro u h
    cases u with
    | nil => rfl
    | cons c cs => simp [foldEq] at h
  | cons p ps ih =>
    intro u h
    cases u with
    | nil => simp [foldEq] at h
    | cons c cs =>
      simp only [foldEq, Bool.and_eq_true] at h
      simp [ih cs h.2]

theorem foldEq_append : ∀ (pat u q v : List Char), foldEq pat u = true → foldEq q v = true →
    foldEq (pat ++ q) (u ++ v) = true := by
  intro pat
  induction pat with
  | nil =>
    intro u q v h hq
    cases u with
    | nil => exact hq
    | cons c cs => simp [foldEq] at h
  | cons p ps ih =>
    intro u q v h hq
    cases u with
    | nil => simp [foldEq] at h
    | cons c cs =>
      simp only [foldEq, Bool.and_eq_true] at h
      simp only [List.cons_append, foldEq, Bool.and_eq_true]
      exact ⟨h.1, ih cs q v h.2 hq⟩

/-- What a case-insensitive literal reads spells the literal. -/
theorem steps_foldLit_inv : ∀ (pat : List Char), pat ≠ [] → ∀ {s s1 : ReState},
    Steps (Re.foldLit pat) s s1 → ∃ x, foldEq pat x = true ∧ s.rest = x ++ s1.rest := by
  intro pat
  induction pat with
  | nil => intro h; exact absurd rfl h
  | cons p ps ih =>
    intro _ s s1 h
    cases ps with
    | nil =>
      obtain ⟨c, hc, e⟩ := steps_rune_inv h
      exact ⟨[c], by simpa [foldEq] using hc, by simpa using e⟩
    | cons q qs =>
      obtain ⟨s0, h1, h2⟩ := steps_seq_inv h
      obtain ⟨c, hc, e⟩ := steps_rune_inv h1
      obtain ⟨x, hx, e2⟩ := ih (by simp) h2
      refine ⟨c :: x, ?_, by rw [e, e2]; rfl⟩
      simp only [foldEq, Bool.and_eq_true]
      exact ⟨by simpa using hc, hx⟩

/-- What the unit pattern reads is a recognised unit token. -/
theorem steps_reUnit_inv {s s1 : ReState} (h : Steps reUnit s s1) :
    ∃ U, spellsUnit U = true ∧ s.rest = U ++ s1.rest := by
  have hmem : ∀ (pat x : List Char), pat ∈ unitSpellings → foldEq pat x = true →
      spellsUnit x = true := by
    intro pat x hp hx
    unfold spellsUnit
    exact List.any_eq_true.mpr ⟨pat, hp, hx⟩
  have hplain : ∀ (pat : List Char), pat ≠ [] → pat ∈ unitSpellings →
      Steps (Re.foldLit pat) s s1 → ∃ U, spellsUnit U = true ∧ s.rest = U ++ s1.rest := by
    intro pat hne hp hs
    obtain ⟨x, hx, e⟩ := steps_foldLit_inv pat hne hs
    exact ⟨x, hmem pat x hp hx, e⟩
  have hdot : ∀ (pat : List Char), pat ≠ [] → pat ∈ unitSpellings →
      pat ++ ['.'] ∈ unitSpellings →
      Steps (.seq (Re.foldLit pat) (Re.opt (.rune (fun c => c = '.')))) s s1 →
      ∃ U, spellsUnit U = true ∧ s.rest = U ++ s1.rest := by
    intro pat hne hp hpd hs
    obtain ⟨s0, h1, h2⟩ := steps_seq_inv hs
    obtain ⟨x, hx, e⟩ := steps_foldLit_inv pat hne h1
    rcases steps_opt_inv h2 with h3 | h3
    · obtain ⟨c, hc, e2⟩ := steps_rune_inv h3
      have hc1 : c = '.' := by simpa using hc
      subst hc1
      refine ⟨x ++ ['.'], hmem _ _ hpd (foldEq_append pat x ['.'] ['.'] hx (by decide)), ?_⟩
      rw [e, e2]
      simp
    · subst h3
      exact ⟨x, hmem pat x hp hx, e⟩
  unfold reUnit at h
  rcases steps_alt_inv h with h | h
  · exact hplain _ (by decide) (by decide) h
  rcases steps_alt_inv h with h | h
  · exact hplain _ (by decide) (by decide) h
  rcases steps_alt_inv h with h | h
  · exact hplain _ (by decide) (by decide) h
  rcases steps_alt_inv h with h | h
  · exact hplain _ (by decide) (by decide) h
  rcases steps_alt_inv h with h | h
  · exact hdot _ (by decide) (by decide) (by decide) h
  rcases steps_alt_inv h with h | h
  · exact hplain _ (by decide) (by decide) h
  rcases steps_alt_inv h with h | h
  · exact hplain _ (by decide) (by decide) h
  rcases steps_alt_inv h with h | h
  · exact hplain _ (by decide) (by decide) h
  rcases steps_alt_inv h with h | h
  · exact hdot _ (by decide) (by decide) (by decide) h
  · exact hdot _ (by decide) (by decide) (by decide) h

/-- A text that begins with a recognised unit token starts with a unit. -/
theorem startsWithUnit_of_spells (U rest : List Char) (h : spellsUnit U = true) :
    startsWithUnit (U ++ rest) = true := by
  unfold spellsUnit at h
  obtain ⟨pat, hp, hx⟩ := List.any_eq_true.mp h
  unfold startsWithUnit
  refine List.any_eq_true.mpr ⟨pat, hp, ?_⟩
  have hlen := foldEq_length pat U hx
  rw [← hlen, List.take_left']
  · exact hx
  · rfl

/-! ## A match of `withUnit` in parts -/

theorem isGroupSep_not_digit (x : Char) (hx : isGroupSep x = true) : isDigitRune x = false := by
  cases hd : isDigitRune x with
  | false => rfl
  | true =>
    exfalso
    simp only [isGroupSep, Bool.or_eq_true, decide_eq_true_eq] at hx
    rcases hx with (hx | rfl) | rfl
    · rw [(isDigitRune_facts x hd).2] at hx; exact absurd hx (by simp)
    · exact absurd hd (by decide)
    · exact absurd hd (by decide)

theorem groupTail_of_groupRun {more : List Char} (h : GroupRun isGroupSep more) :
    groupTail more = true := by
  induction h with
  | nil => rfl
  | cons sp d1 d2 d3 more hsp h1 h2 h3 _ ih => simp [groupTail, hsp, h1, h2, h3, ih]

/-- A number text that holds a whitespace rune is a thousands-grouped number. -/
theorem isGroupedNumber_of_space {w : List Char} (h : NumberText w) (c : Char) (hc : c ∈ w)
    (hs : isReSpace c = true) : isGroupedNumber w = true := by
  have hcd := (isReSpace_facts c hs).2
  cases h with
  | whole ip hne hip =>
    exfalso
    have := hip c hc
    rw [hcd] at this
    exact absurd this (by simp)
  | decimal ip sp fp hne hip hsp hfne hfp =>
    exfalso
    simp only [List.mem_append, List.mem_cons] at hc
    rcases hc with hm | rfl | hm
    · have := hip c hm
      rw [hcd] at this
      exact absurd this (by simp)
    · simp only [isDecimalSep, Bool.or_eq_true, decide_eq_true_eq] at hsp
      rcases hsp with rfl | rfl <;> exact absurd hs (by decide)
    · have := hfp c hm
      rw [hcd] at this
      exact absurd this (by simp)
  | grouped first sp d1 d2 d3 more hne hlen hfirst hsp h1 h2 h3 hmore =>
    have hspd := isGroupSep_not_digit sp hsp
    have htw : (first ++ sp :: d1 :: d2 :: d3 :: more).takeWhile isDigitRune = first := by
      rw [takeWhile_append_all isDigitRune first _ hfirst, List.takeWhile_cons, hspd]
      simp
    have hdw : (first ++ sp :: d1 :: d2 :: d3 :: more).dropWhile isDigitRune
        = sp :: d1 :: d2 :: d3 :: more := by
      rw [dropWhile_append_all isDigitRune first _ hfirst, List.dropWhile_cons, hspd]
      simp
    have hpos : 1 ≤ first.length := by
      cases first with
      | nil => exact absurd rfl hne
      | cons a l => simp
    unfold isGroupedNumber
    rw [htw, hdw]
    simp [groupTail, hsp, h1, h2, h3, groupTail_of_groupRun hmore, hpos, hlen]

/-- What a successful attempt of `withUnit` has read: a rune in front of the
number or nothing at the start of the line, a number, whitespace and a
recognised unit token. -/
theorem matchHere_withUnit_parts {b : Bool} {text : List Char} {r : ReState}
    (h : matchHere withUnit b text = some r) :
    ∃ (gd w v U : List Char),
      ((gd = [] ∧ b = true) ∨ ∃ g, gd = [g] ∧ isNotNumeric g = true) ∧
      NumberText w ∧ (∀ x ∈ v, isReSpace x = true) ∧ spellsUnit U = true ∧
      text = gd ++ (w ++ (v ++ (U ++ r.rest))) ∧ capture r.caps 1 = w := by
  unfold matchHere at h
  obtain ⟨s1, hsteps, hk⟩ := matchRe_sound _ _ _ _ h
  cases hk
  unfold withUnit at hsteps
  obtain ⟨sa, hga, h2⟩ := steps_seq_inv hsteps
  obtain ⟨sb, hnum, h3⟩ := steps_seq_inv h2
  obtain ⟨sc, hws, hunit⟩ := steps_seq_inv h3
  obtain ⟨sb0, hnum0, hsbrest, hsbcaps⟩ := steps_group_inv hnum
  obtain ⟨w, hw, hwe⟩ := steps_number hnum0
  obtain ⟨v, hv, hve⟩ := steps_allRunes (fun c => isReSpace c = true) hws
    (by simp [Re.allRunes])
  obtain ⟨sc0, hu0, hrrest, hrcaps⟩ := steps_group_inv hunit
  obtain ⟨U, hU, hUe⟩ := steps_reUnit_inv hu0
  have hcaps_a : sa.caps = [] := steps_groupFree hga reNumberGuard_groupFree
  have hcaps_b0 : sb0.caps = sa.caps := steps_groupFree hnum0 reNumber_groupFree
  have hcaps_c : sc.caps = sb.caps := steps_groupFree hws (by simp [Re.groupFree])
  have hcaps_c0 : sc0.caps = sc.caps := steps_groupFree hu0 reUnit_groupFree
  have htake : sa.rest.take (sa.rest.length - sb0.rest.length) = w := by
    rw [hwe]
    simp
  have hcap : capture r.caps 1 = w := by
    rw [hrcaps, hcaps_c0, hcaps_c, hsbcaps, hcaps_b0, hcaps_a, htake]
    simp [capture, mapGet_mapSet]
  have hrest : sa.rest = w ++ (v ++ (U ++ r.rest)) := by
    rw [hwe, ← hsbrest, hve, hUe, hrrest]
  have hgd : ∃ gd, ((gd = [] ∧ b = true) ∨ ∃ g, gd = [g] ∧ isNotNumeric g = true) ∧
      text = gd ++ sa.rest := by
    rcases steps_alt_inv hga with hbol | hrune
    · obtain ⟨e, hb⟩ := steps_bol_inv hbol
      exact ⟨[], Or.inl ⟨rfl, hb⟩, by rw [e]; rfl⟩
    · obtain ⟨g, hg, e⟩ := steps_rune_inv hrune
      exact ⟨[g], Or.inr ⟨g, rfl, hg⟩, by simpa using e⟩
  obtain ⟨gd, hgd1, hgd2⟩ := hgd
  exact ⟨gd, w, v, U, hgd1, hw, hv, hU, by rw [hgd2, hrest], hcap⟩

/-- A recognised unit token starts with a letter of a unit token. -/
theorem spellsUnit_head (u : List Char) (hu : spellsUnit u = true) :
    ∃ c0 u0, u = c0 :: u0 ∧ c0 ∈ unitLetters := by
  have hs := steps_reUnit u hu false [] []
  obtain ⟨c, w, hc, e⟩ := steps_firstRune_suffix _ hs reUnit_firstRune
  simp only [List.append_nil] at e
  exact ⟨c, w, e, hc⟩

/-- A number text in front of whitespace and a unit letter ends where the
digits end: no longer text that starts at the same place is followed in the
same way. -/
theorem numberText_end_unique {small big a ws R0 v R : List Char} {c c0 : Char}
    (hbig : NumberText big) (hv : ∀ x ∈ v, isReSpace x = true) (hc : c ∈ unitLetters)
    (ha : big = small ++ a) (hb : v ++ c :: R = a ++ (ws ++ c0 :: R0)) : a = [] := by
  by_contra hnil
  obtain ⟨t, d, htd, hd⟩ := numberText_last hbig
  have hda : d ∈ a := mem_of_append_eq_snoc (ha.symm.trans htd) hnil
  obtain ⟨y, rest, hy, hpy, hdrop⟩ := dropWhile_append_exists isReSpace a (ws ++ c0 :: R0)
    ⟨d, hda, (isDigitRune_facts d hd).2⟩
  have hleft : (v ++ c :: R).dropWhile isReSpace = c :: R := by
    rw [dropWhile_append_all isReSpace v _ hv, List.dropWhile_cons,
      (unitLetters_facts c hc).2.1]
    simp
  rw [hb, hdrop] at hleft
  have hyc : y = c := (List.cons.inj hleft).1
  subst hyc
  have hytok : y ∈ big := by rw [ha]; exact List.mem_append_right _ hy
  obtain ⟨hnn, _, hnd, _⟩ := unitLetters_facts y hc
  obtain ⟨_, hdot, hcomma⟩ := isNotNumeric_facts y hnn
  rcases numberText_runes hbig y hytok with h | h
  · rw [hnd] at h; exact absurd h (by simp)
  · simp only [isGroupSep, Bool.or_eq_true, decide_eq_true_eq] at h
    rcases h with (h | h) | h
    · rw [hpy] at h; exact absurd h (by simp)
    · exact hdot h
    · exact hcomma h

/-- A number in front of whitespace and a unit is read in one way only, whatever
follows the unit. -/
theorem numberText_unique_unit {w tok ws R0 v R : List Char} {c c0 : Char}
    (hw : NumberText w) (htok : NumberText tok) (hws : ∀ x ∈ ws, isReSpace x = true)
    (hc0 : c0 ∈ unitLetters) (hv : ∀ x ∈ v, isReSpace x = true) (hc : c ∈ unitLetters)
    (e : w ++ (v ++ c :: R) = tok ++ (ws ++ c0 :: R0)) : w = tok := by
  rcases List.append_eq_append_iff.mp e with ⟨a, ha, hb⟩ | ⟨a, ha, hb⟩
  · have := numberText_end_unique htok hv hc ha hb
    rw [this, List.append_nil] at ha
    exact ha.symm
  · have := numberText_end_unique hw hws hc0 ha hb
    rw [this, List.append_nil] at ha
    exact ha

/-- An attempt of `withUnit` right in front of a number that is followed by a
unit succeeds, and its first group is the number. -/
theorem matchHere_withUnit_any {b : Bool} {gd tok ws u post : List Char}
    (hg : (gd = [] ∧ b = true) ∨ ∃ g, gd = [g] ∧ isNotNumeric g = true)
    (htok : NumberText tok) (hws : ∀ c ∈ ws, isReSpace c = true) (hu : spellsUnit u = true) :
    ∃ r z, matchHere withUnit b (gd ++ (tok ++ (ws ++ (u ++ post)))) = some r ∧
      capture r.caps 1 = tok ∧ ws ++ (u ++ post) = z ++ r.rest := by
  obtain ⟨c0, u0, hu0, hc0⟩ := spellsUnit_head u hu
  have hsteps : ∃ s1, Steps withUnit ⟨b, gd ++ (tok ++ (ws ++ (u ++ post))), []⟩ s1 := by
    have hguard : ∃ b1, Steps reNumberGuard ⟨b, gd ++ (tok ++ (ws ++ (u ++ post))), []⟩
        ⟨b1, tok ++ (ws ++ (u ++ post)), []⟩ := by
      rcases hg with ⟨rfl, rfl⟩ | ⟨g, rfl, hgn⟩
      · exact ⟨true, Steps.altLeft (Steps.bol _ rfl)⟩
      · exact ⟨false, Steps.altRight (Steps.rune isNotNumeric _ g _ rfl hgn)⟩
    obtain ⟨b1, h1⟩ := hguard
    obtain ⟨b2, h2⟩ := steps_number_intro tok htok b1 (ws ++ (u ++ post)) []
    have h2g := @Steps.group 1 _ _ _ h2
    obtain ⟨b3, h3⟩ := steps_star_rune_intro isReSpace ws hws b2 (u ++ post)
      (mapSet [] 1 ((tok ++ (ws ++ (u ++ post))).take
        ((tok ++ (ws ++ (u ++ post))).length - (ws ++ (u ++ post)).length)))
    have h4 := @Steps.group 2 _ _ _ (steps_reUnit u hu b3 post
      (mapSet [] 1 ((tok ++ (ws ++ (u ++ post))).take
        ((tok ++ (ws ++ (u ++ post))).length - (ws ++ (u ++ post)).length))))
    exact ⟨_, Steps.seq h1 (Steps.seq h2g (Steps.seq h3 h4))⟩
  obtain ⟨s1, hs1⟩ := hsteps
  have hsome := matchRe_complete withUnit withUnit_starsProgress _ s1 (fun s => some s) hs1 rfl
  obtain ⟨r, hr⟩ := Option.isSome_iff_exists.mp hsome
  have hr1 : matchHere withUnit b (gd ++ (tok ++ (ws ++ (u ++ post)))) = some r := hr
  obtain ⟨gd1, w, v, U, hgd1, hw, hv, hU, htext, hcap⟩ := matchHere_withUnit_parts hr1
  obtain ⟨c, u1, hU1, hc⟩ := spellsUnit_head U hU
  subst hU1
  obtain ⟨d, t, hd, hdd⟩ := numberText_head htok
  obtain ⟨d1, t1, hd1, hdd1⟩ := numberText_head hw
  have hsame : gd1 = gd := by
    rcases hg with ⟨rfl, rfl⟩ | ⟨g, rfl, hgn⟩
    · rcases hgd1 with ⟨rfl, _⟩ | ⟨g1, rfl, hgn1⟩
      · rfl
      · exfalso
        rw [hd] at htext
        simp only [List.nil_append, List.cons_append, List.singleton_append] at htext
        have : d = g1 := (List.cons.inj htext).1
        subst this
        rw [(isDigitRune_facts d hdd).1] at hgn1
        exact absurd hgn1 (by simp)
    · rcases hgd1 with ⟨rfl, _⟩ | ⟨g1, rfl, hgn1⟩
      · exfalso
        rw [hd1] at htext
        simp only [List.nil_append, List.cons_append, List.singleton_append] at htext
        have : g = d1 := (List.cons.inj htext).1
        subst this
        rw [(isDigitRune_facts g hdd1).1] at hgn
        exact absurd hgn (by simp)
      · simp only [List.singleton_append] at htext
        rw [(List.cons.inj htext).1]
  subst hsame
  have hbody : w ++ (v ++ c :: (u1 ++ r.rest)) = tok ++ (ws ++ c0 :: (u0 ++ post)) := by
    have := List.append_cancel_left htext
    rw [hu0] at this
    simpa using this.symm
  have hwt : w = tok := numberText_unique_unit hw htok hws hc0 hv hc hbody
  subst hwt
  refine ⟨r, v ++ c :: u1, hr1, hcap, ?_⟩
  have := List.append_cancel_left hbody
  rw [hu0]
  simpa using this.symm

/-! ## Text without a number that has a unit -/

theorem hasUnitNumber_of_parts (d : Char) (v U q : List Char)
    (hd : isDigitRune d = true) (hv : ∀ x ∈ v, isReSpace x = true) (hU : spellsUnit U = true) :
    ∀ p : List Char, hasUnitNumber (p ++ d :: (v ++ (U ++ q))) = true := by
  obtain ⟨c, u1, hU1, hc⟩ := spellsUnit_head U hU
  have hstart : startsWithUnit ((v ++ (U ++ q)).dropWhile isReSpace) = true := by
    rw [dropWhile_append_all isReSpace v _ hv]
    have : (U ++ q).dropWhile isReSpace = U ++ q := by
      rw [hU1, List.cons_append, List.dropWhile_cons, (unitLetters_facts c hc).2.1]
      simp
    rw [this]
    exact startsWithUnit_of_spells U q hU
  intro p
  induction p with
  | nil => simp [hasUnitNumber, hd, hstart]
  | cons x p ih =>
    rw [List.cons_append, hasUnitNumber, ih]
    simp

theorem hasUnitNumber_tail (c : Char) (t : List Char) (h : hasUnitNumber (c :: t) = false) :
    hasUnitNumber t = false := by
  rw [hasUnitNumber] at h
  simp only [Bool.or_eq_false_iff] at h
  exact h.2

theorem hasUnitNumber_suffix (z t : List Char) (h : hasUnitNumber (z ++ t) = false) :
    hasUnitNumber t = false := by
  induction z with
  | nil => exact h
  | cons x z ih => exact ih (hasUnitNumber_tail x _ h)

theorem hasUnitNumber_append_nodigit (a b : List Char) (ha : ∀ x ∈ a, isDigitRune x = false) :
    hasUnitNumber (a ++ b) = hasUnitNumber b := by
  induction a with
  | nil => rfl
  | cons x a ih =>
    rw [List.cons_append, hasUnitNumber, ha x (List.mem_cons_self _ _),
      ih (fun y hy => ha y (List.mem_cons_of_mem _ hy))]
    simp

theorem matchHere_withUnit_free (b : Bool) (t : List Char) (h : hasUnitNumber t = false) :
    matchHere withUnit b t = none := by
  cases hm : matchHere withUnit b t with
  | none => rfl
  | some r =>
    exfalso
    obtain ⟨gd, w, v, U, _, hw, hv, hU, htext, _⟩ := matchHere_withUnit_parts hm
    obtain ⟨w0, d, hwd, hd⟩ := numberText_last hw
    have := hasUnitNumber_of_parts d v U r.rest hd hv hU (gd ++ w0)
    have e : t = (gd ++ w0) ++ d :: (v ++ (U ++ r.rest)) := by
      rw [htext, hwd]
      simp
    rw [← e, h] at this
    exact absurd this (by simp)

/-- A text in which no digit is followed by a unit has no match of `withUnit`. -/
theorem findAllSubmatch_withUnit_free (t : List Char) (h : hasUnitNumber t = false)
    (skip : Nat) (b : Bool) : findAllSubmatch withUnit skip b t = [] :=
  findAllSubmatch_eq_nil withUnit (fun t => hasUnitNumber t = false)
    (fun c t h => hasUnitNumber_tail c t h)
    (fun b t h => matchHere_withUnit_free b t h) t h skip b

/-- The scan at a number that is followed by a unit, in a line that holds no
further number with a unit, finds exactly one more match, whose first group is
the number. -/
theorem findAllSubmatch_withUnit_final {b : Bool} {gd tok ws u post : List Char}
    (hg : (gd = [] ∧ b = true) ∨ ∃ g, gd = [g] ∧ isNotNumeric g = true)
    (htok : NumberText tok) (hws : ∀ c ∈ ws, isReSpace c = true) (hu : spellsUnit u = true)
    (hpost : hasUnitNumber post = false) :
    ∃ caps, findAllSubmatch withUnit 0 b (gd ++ (tok ++ (ws ++ (u ++ post)))) = [caps] ∧
      capture caps 1 = tok := by
  obtain ⟨r, z, hr, hcap, hz⟩ := @matchHere_withUnit_any b gd tok ws u post hg htok hws hu
  refine ⟨r.caps, ?_, hcap⟩
  obtain ⟨d, t, hd, _⟩ := numberText_head htok
  have htail : hasUnitNumber (ws ++ (u ++ post)) = false := by
    rw [hasUnitNumber_append_nodigit ws _ (fun x hx => (isReSpace_facts x (hws x hx)).2),
      hasUnitNumber_append_nodigit u _ (fun x hx => (spellsUnit_runes u hu x hx).2.1)]
    exact hpost
  have hrest : hasUnitNumber r.rest = false := by
    rw [hz] at htail
    exact hasUnitNumber_suffix z _ htail
  rw [findAllSubmatch_of_match withUnit hr (show _ = (gd ++ (tok ++ z)) ++ r.rest by
    rw [hz]; simp) (by rw [hd]; simp)]
  rw [findAllSubmatch_withUnit_free r.rest hrest 0 false]

/-! ## The scan up to the last number with a unit -/

theorem joinsAux_head (tok : List Char) (L : List Char) (hL : L ≠ [])
    (h : joinsAux tok true L = false) : isGroupedNumber (L ++ tok) = false := by
  cases L with
  | nil => exact absurd rfl hL
  | cons c rest =>
    rw [joinsAux] at h
    simp only [Bool.true_and, Bool.or_eq_false_iff] at h
    exact h.1

theorem joinsAux_tail (tok : List Char) (ok : Bool) (c : Char) (rest : List Char)
    (h : joinsAux tok ok (c :: rest) = false) : joinsAux tok (isNotNumeric c) rest = false := by
  rw [joinsAux] at h
  simp only [Bool.or_eq_false_iff] at h
  exact h.2

theorem joinsAux_weaken (tok : List Char) (ok : Bool) (L : List Char)
    (h : joinsAux tok ok L = false) : joinsAux tok false L = false := by
  cases L with
  | nil => rfl
  | cons c rest =>
    rw [joinsAux]
    simp only [Bool.false_and, Bool.false_or]
    exact joinsAux_tail tok ok c rest h

/-- A match that starts in front of the rune `g`, which stands in front of a
number with a unit, ends in front of `g`: `g` neither closes the unit of an
earlier number nor joins the number behind it to an earlier thousands-grouped
number. -/
theorem matchHere_withUnit_stops {b : Bool} {pre : List Char} {g : Char}
    {tok ws u post : List Char} {r : ReState} (hne : pre ≠ []) (hg : isNotNumeric g = true)
    (htok : NumberText tok) (hws : ∀ c ∈ ws, isReSpace c = true) (hu : spellsUnit u = true)
    (hunit : ∀ G dg v U, pre ++ [g] = G ++ dg :: (v ++ U) → isDigitRune dg = true →
      (∀ x ∈ v, isReSpace x = true) → spellsUnit U = true → False)
    (hjoin : joinsAux tok b (pre ++ [g]) = false)
    (h : matchHere withUnit b (pre ++ g :: (tok ++ (ws ++ (u ++ post)))) = some r) :
    ∃ consumed z, pre = consumed ++ z ∧ r.rest = z ++ g :: (tok ++ (ws ++ (u ++ post))) := by
  obtain ⟨gd, w, v, U, hgd, hw, hv, hU, htext, _⟩ := matchHere_withUnit_parts h
  obtain ⟨c1, u1, hU1, hc1⟩ := spellsUnit_head U hU
  obtain ⟨c0, u0, hu0, hc0⟩ := spellsUnit_head u hu
  obtain ⟨d, t, hd, hdd⟩ := numberText_head htok
  obtain ⟨hgnd, hgdot, hgcomma⟩ := isNotNumeric_facts g hg
  -- the guard
  rcases append_eq_append_barrier htext.symm with ⟨p1, hp1, e1⟩ | ⟨x, a, hx, _⟩
  swap
  · exfalso
    rcases hgd with ⟨rfl, _⟩ | ⟨g0, rfl, _⟩
    · simp at hx
    · cases pre with
      | nil => exact hne rfl
      | cons y pre => simp at hx
  -- the number
  rcases append_eq_append_barrier e1 with ⟨p2, hp2, e2⟩ | ⟨x, a, hx, hB⟩
  swap
  · exfalso
    have hxc : g = x := (List.cons.inj hB).1
    subst hxc
    have hB2 : tok ++ (ws ++ (u ++ post)) = a ++ (v ++ (U ++ r.rest)) := (List.cons.inj hB).2
    have hgs : isReSpace g = true := by
      rcases numberText_runes hw g (by rw [hx]; simp) with hdg | hsep
      · rw [hgnd] at hdg; exact absurd hdg (by simp)
      · simp only [isGroupSep, Bool.or_eq_true, decide_eq_true_eq] at hsep
        rcases hsep with (hs | hs) | hs
        · exact hs
        · exact absurd hs hgdot
        · exact absurd hs hgcomma
    have hB3 : tok ++ (ws ++ c0 :: (u0 ++ post)) = a ++ (v ++ c1 :: (u1 ++ r.rest)) := by
      rw [hu0, hU1] at hB2
      simpa using hB2
    have hat : a = tok := by
      rcases List.append_eq_append_iff.mp hB3 with ⟨a1, ha, hb⟩ | ⟨a1, ha, hb⟩
      · have hwbig : w = (p1 ++ g :: tok) ++ a1 := by rw [hx, ha]; simp
        have := numberText_end_unique hw hws hc0 hwbig hb
        rw [this, List.append_nil] at ha
        exact ha
      · have := numberText_end_unique htok hv hc1 ha hb
        rw [this, List.append_nil] at ha
        exact ha.symm
    subst hat
    have hgrp : isGroupedNumber (p1 ++ g :: a) = true := by
      rw [← hx]
      exact isGroupedNumber_of_space hw g (by rw [hx]; simp) hgs
    rcases hgd with ⟨rfl, hb⟩ | ⟨g0, rfl, hg0⟩
    · rw [hb] at hjoin
      have := joinsAux_head a (pre ++ [g]) (by simp) hjoin
      rw [hp1] at this
      simp only [List.nil_append, List.append_assoc, List.singleton_append] at this
      rw [this] at hgrp
      exact absurd hgrp (by simp)
    · rw [hp1] at hjoin
      simp only [List.singleton_append, List.cons_append] at hjoin
      have h1 := joinsAux_tail a b g0 (p1 ++ [g]) hjoin
      rw [hg0] at h1
      have := joinsAux_head a (p1 ++ [g]) (by simp) h1
      simp only [List.append_assoc, List.singleton_append] at this
      rw [this] at hgrp
      exact absurd hgrp (by simp)
  -- the whitespace
  rcases append_eq_append_barrier e2 with ⟨p3, hp3, e3⟩ | ⟨x, a, hx, hB⟩
  swap
  · exfalso
    have hB2 : tok ++ (ws ++ (u ++ post)) = a ++ (U ++ r.rest) := (List.cons.inj hB).2
    rw [hd, hU1] at hB2
    cases a with
    | nil =>
      simp only [List.nil_append, List.cons_append] at hB2
      have := (unitLetters_facts c1 hc1).2.2.1
      rw [← (List.cons.inj hB2).1, hdd] at this
      exact absurd this (by simp)
    | cons y a =>
      simp only [List.cons_append] at hB2
      have hyv : y ∈ v := by rw [hx]; simp
      have := hv y hyv
      rw [← (List.cons.inj hB2).1, (isDigitRune_facts d hdd).2] at this
      exact absurd this (by simp)
  -- the unit
  rcases append_eq_append_barrier e3 with ⟨p4, hp4, e4⟩ | ⟨x, a, hx, hB⟩
  swap
  · exfalso
    have hxc : g = x := (List.cons.inj hB).1
    subst hxc
    have hB2 : tok ++ (ws ++ (u ++ post)) = a ++ r.rest := (List.cons.inj hB).2
    have ha : a = [] := by
      cases a with
      | nil => rfl
      | cons y a =>
        exfalso
        rw [hd] at hB2
        simp only [List.cons_append] at hB2
        have hyU : y ∈ U := by rw [hx]; simp
        have := (spellsUnit_runes U hU y hyU).2.1
        rw [← (List.cons.inj hB2).1, hdd] at this
        exact absurd this (by simp)
    subst ha
    obtain ⟨w0, dg, hwd, hdg⟩ := numberText_last hw
    refine hunit (gd ++ w0) dg v U ?_ hdg hv hU
    rw [hp1, hp2, hp3, hwd, hx]
    simp
  exact ⟨gd ++ (w ++ (v ++ U)), p4, by rw [hp1, hp2, hp3, hp4]; simp, e4⟩

/-- Scanning the text in front of such a rune leaves the scan at that rune,
whatever was matched before. -/
theorem findAllSubmatch_withUnit_upto (g : Char) (tok ws u post : List Char)
    (hg : isNotNumeric g = true) (htok : NumberText tok)
    (hws : ∀ c ∈ ws, isReSpace c = true) (hu : spellsUnit u = true) :
    ∀ (pre : List Char),
      (∀ G dg v U, pre ++ [g] = G ++ dg :: (v ++ U) → isDigitRune dg = true →
        (∀ x ∈ v, isReSpace x = true) → spellsUnit U = true → False) →
      ∀ (skip : Nat) (b : Bool), joinsAux tok b (pre ++ [g]) = false → skip ≤ pre.length →
        ∃ earlier b1, findAllSubmatch withUnit skip b (pre ++ g :: (tok ++ (ws ++ (u ++ post))))
          = earlier ++ findAllSubmatch withUnit 0 b1 (g :: (tok ++ (ws ++ (u ++ post)))) := by
  intro pre
  induction pre with
  | nil =>
    intro _ skip b _ hskip
    have : skip = 0 := by simpa using hskip
    subst this
    exact ⟨[], b, rfl⟩
  | cons x pre ih =>
    intro hunit skip b hjoin hskip
    have hunit1 : ∀ G dg v U, pre ++ [g] = G ++ dg :: (v ++ U) → isDigitRune dg = true →
        (∀ y ∈ v, isReSpace y = true) → spellsUnit U = true → False :=
      fun G dg v U e => hunit (x :: G) dg v U (by rw [List.cons_append, e]; rfl)
    have hjoin1 : joinsAux tok false (pre ++ [g]) = false :=
      joinsAux_weaken tok _ _ (joinsAux_tail tok b x (pre ++ [g]) hjoin)
    cases skip with
    | succ n =>
      rw [List.cons_append, findAllSubmatch]
      exact ih hunit1 n false hjoin1 (by simpa using hskip)
    | zero =>
      cases hm : matchHere withUnit b ((x :: pre) ++ g :: (tok ++ (ws ++ (u ++ post)))) with
      | none =>
        rw [List.cons_append] at hm ⊢
        rw [findAllSubmatch_of_none withUnit hm]
        exact ih hunit1 0 false hjoin1 (Nat.zero_le _)
      | some r =>
        obtain ⟨consumed, z, hsplit, hrest⟩ :=
          matchHere_withUnit_stops (by simp) hg htok hws hu hunit hjoin hm
        rw [List.cons_append] at hm ⊢
        rw [findAllSubmatch]
        simp only [hm]
        have hlen : (x :: (pre ++ g :: (tok ++ (ws ++ (u ++ post))))).length - r.rest.length - 1
            ≤ pre.length := by
          have h1 : (x :: pre).length = consumed.length + z.length := by
            rw [hsplit, List.length_append]
          rw [hrest]
          simp only [List.length_cons, List.length_append] at h1 ⊢
          omega
        obtain ⟨earlier, b1, e⟩ := ih hunit1 _ false hjoin1 hlen
        exact ⟨r.caps :: earlier, b1, by rw [e]; rfl⟩

theorem endsInUnitNumber_false (t : List Char) (h : endsInUnitNumber t = false) :
    ∀ G dg v U, t = G ++ dg :: (v ++ U) → isDigitRune dg = true →
      (∀ x ∈ v, isReSpace x = true) → spellsUnit U = true → False := by
  intro G dg v U e hdg hv hU
  obtain ⟨c, u1, hU1, _⟩ := spellsUnit_head U hU
  have e1 : t = (G ++ dg :: v) ++ U := by rw [e]; simp
  have hlt : (G ++ dg :: v).length < t.length := by
    rw [e1, hU1]
    simp
  have hnum : endsInNumber (G ++ dg :: v) = true := by
    unfold endsInNumber
    have hrev : (G ++ dg :: v).reverse = v.reverse ++ dg :: G.reverse := by simp
    rw [hrev, dropWhile_append_all isReSpace v.reverse _
      (fun y hy => hv y (List.mem_reverse.mp hy)), List.dropWhile_cons,
      (isDigitRune_facts dg hdg).2]
    simpa using hdg
  unfold endsInUnitNumber at h
  have hall := List.any_eq_false.mp h (G ++ dg :: v).length (List.mem_range.mpr hlt)
  have htake : t.take (G ++ dg :: v).length = G ++ dg :: v := by
    rw [e1]
    exact List.take_left' rfl
  have hdrop : t.drop (G ++ dg :: v).length = U := by
    rw [e1]
    exact List.drop_left' rfl
  rw [htake, hdrop, hnum, hU] at hall
  exact absurd hall (by simp)

/-- The scan of a line up to its last number with a unit: the last match is at
that number. -/
theorem findAllSubmatch_withUnit_last (pre tok ws u post : List Char)
    (htok : NumberText tok) (hws : ∀ c ∈ ws, isReSpace c = true) (hu : spellsUnit u = true)
    (hpost : hasUnitNumber post = false)
    (hguard : ∀ g ∈ pre.getLast?, isNotNumeric g = true)
    (hunit : endsInUnitNumber pre = false) (hjoin : joinsEarlierNumber pre tok = false) :
    ∃ caps, (findAllSubmatch withUnit 0 true (pre ++ (tok ++ (ws ++ (u ++ post))))).getLast?
      = some caps ∧ capture caps 1 = tok := by
  by_cases hnil : pre = []
  · subst hnil
    obtain ⟨caps, hc, hcap⟩ :=
      @findAllSubmatch_withUnit_final true [] tok ws u post (Or.inl ⟨rfl, rfl⟩) htok hws hu hpost
    exact ⟨caps, by rw [hc]; rfl, hcap⟩
  · have hsplit := (List.dropLast_append_getLast hnil).symm
    have hg : isNotNumeric (pre.getLast hnil) = true :=
      hguard _ (by rw [List.getLast?_eq_getLast _ hnil]; rfl)
    obtain ⟨earlier, b1, e⟩ := findAllSubmatch_withUnit_upto (pre.getLast hnil) tok ws u post
      hg htok hws hu pre.dropLast
      (by rw [← hsplit]; exact endsInUnitNumber_false pre hunit) 0 true
      (by rw [← hsplit]; exact hjoin) (Nat.zero_le _)
    obtain ⟨caps, hc, hcap⟩ :=
      @findAllSubmatch_withUnit_final b1 [pre.getLast hnil] tok ws u post
        (Or.inr ⟨_, rfl, hg⟩) htok hws hu hpost
    refine ⟨caps, ?_, hcap⟩
    have e2 : pre ++ (tok ++ (ws ++ (u ++ post)))
        = pre.dropLast ++ pre.getLast hnil :: (tok ++ (ws ++ (u ++ post))) := by
      conv_lhs => rw [hsplit]
      simp
    have hc1 : findAllSubmatch withUnit 0 b1 (pre.getLast hnil :: (tok ++ (ws ++ (u ++ post))))
        = [caps] := hc
    rw [e2, e, hc1]
    simp

/-! ## The rightmost number with a unit -/

/-- C20 (amended): in the line with its no-break spaces replaced by spaces, let
a number (thousands-grouped, decimal or plain digits) be followed, after
optional whitespace, by a recognised unit token, with no digit further on that
is followed, after optional whitespace, by a unit token. Let the number stand
at the start of the line or right behind a character that is not a digit, a
dot or a comma; let the text in front of the number not end in a digit,
optional whitespace and a unit token (the character in front of the number
does not close the unit of an earlier number); and let the number not be the
end of a longer thousands-grouped number that starts earlier in the line, at
its start or behind a character that is not a digit, a dot or a comma. Then
`ParseQty` takes the quantity from that number alone, whatever numbers stand
earlier in the line: it is what `strconv.ParseFloat` makes of the normalized
number, for a run of digits the float64 nearest to its value. -/
theorem parseQty_rightmost (input : String) (pre tok ws unit post : List Char)
    (hline : qtyLine input = pre ++ tok ++ ws ++ unit ++ post)
    (htok : NumberText tok) (hws : ∀ c ∈ ws, isReSpace c = true)
    (hunit : spellsUnit unit = true) (hpost : hasUnitNumber post = false)
    (hguard : ∀ g ∈ pre.getLast?, isNotNumeric g = true)
    (hclose : endsInUnitNumber pre = false)
    (hjoin : joinsEarlierNumber pre tok = false) :
    (ParseQty input).Qty = parseFloat (normalizeNumericToken tok) ∧
    ((∀ d ∈ tok, isDigitRune d = true) →
      (ParseQty input).Qty = roundToFloat64 ((digitsValue tok : ℕ) : ℚ)) := by
  have hq : input.data.map (fun c => if c = Char.ofNat 0xA0 then ' ' else c)
      = pre ++ (tok ++ (ws ++ (unit ++ post))) := by
    have : qtyLine input
        = input.data.map (fun c => if c = Char.ofNat 0xA0 then ' ' else c) := by
      unfold qtyLine
      rw [show " ".data = [' '] from rfl, replaceRunes_single]
    rw [← this, hline]
    simp only [List.append_assoc]
  obtain ⟨caps, hlast, hcap⟩ := findAllSubmatch_withUnit_last pre tok ws unit post htok hws
    hunit hpost hguard hclose hjoin
  have hqty := parseQty_qty_of_last input caps tok (by rw [hq]; exact hlast) hcap htok
  refine ⟨hqty, fun hdigits => ?_⟩
  obtain ⟨d, t, hd, _⟩ := numberText_head htok
  have hne : tok ≠ [] := by rw [hd]; simp
  have hplain : normalizeNumericToken tok = tok := by
    rw [normalizeNumericToken_plain tok (fun x hx => by
      constructor <;> (intro e; have := hdigits x hx; rw [e] at this; exact absurd this (by decide)))]
    apply List.filter_eq_self.mpr
    intro x hx
    have : x ≠ ' ' := by
      intro e
      have := hdigits x hx
      rw [e] at this
      exact absurd this (by decide)
    simpa using this
  rw [hqty, hplain]
  exact parseFloat_digits tok hne hdigits

/-- Witness of C20: the line `ВВГнг 3х2.5 100 шт` of the specification gives
100; so do a line with an earlier number that has its own unit, a line whose
number stands in brackets, a line with a five-digit number in front and a
number without a unit behind, and a line written with no-break spaces; a
grouped number is read as a whole. -/
theorem parseQty_rightmost_witness :
    (ParseQty "ВВГнг 3х2.5 100 шт").Qty = some 100 ∧
    (ParseQty "Труба 2 м, 100 шт").Qty = some 100 ∧
    (ParseQty "Кабель ВВГ 3х2.5 (100 шт)").Qty = some 100 ∧
    (ParseQty "ГОСТ 31996 100 шт (2 катушки)").Qty = some 100 ∧
    (ParseQty (String.mk ("Кабель 3х2.5".data ++ [Char.ofNat 0xA0] ++ "100".data ++
      [Char.ofNat 0xA0] ++ "шт".data))).Qty = some 100 ∧
    (ParseQty "Провод ПВС 2х1.5 1 250 м").Qty
      = parseFloat (normalizeNumericToken "1 250".data) ∧
    parseFloat (normalizeNumericToken "1 250".data) = some 1250 ∧
    roundToFloat64 ((digitsValue "100".data : ℕ) : ℚ) = some 100 :=
  have h100 : roundToFloat64 ((digitsValue "100".data : ℕ) : ℚ) = some 100 := by decide!
  have hnum : NumberText "100".data := NumberText.whole _ (by decide) (by decide)
  have hgrp : NumberText "1 250".data :=
    NumberText.grouped ['1'] ' ' '2' '5' '0' [] (by decide) (by decide) (by decide) (by decide)
      (by decide) (by decide) (by decide) GroupRun.nil
  ⟨((parseQty_rightmost "ВВГнг 3х2.5 100 шт" "ВВГнг 3х2.5 ".data "100".data [' '] "шт".data []
      (by decide) hnum (by decide) (by decide) (by decide) (by decide) (by decide)
      (by decide)).2 (by decide)).trans h100,
    ((parseQty_rightmost "Труба 2 м, 100 шт" "Труба 2 м, ".data "100".data [' '] "шт".data []
      (by decide) hnum (by decide) (by decide) (by decide) (by decide) (by decide)
      (by decide)).2 (by decide)).trans h100,
    ((parseQty_rightmost "Кабель ВВГ 3х2.5 (100 шт)" "Кабель ВВГ 3х2.5 (".data "100".data [' ']
      "шт".data ")".data
      (by decide) hnum (by decide) (by decide) (by decide) (by decide) (by decide)
      (by decide)).2 (by decide)).trans h100,
    ((parseQty_rightmost "ГОСТ 31996 100 шт (2 катушки)" "ГОСТ 31996 ".data "100".data [' ']
      "шт".data " (2 катушки)".data
      (by decide) hnum (by decide) (by decide) (by decide) (by decide) (by decide)
      (by decide)).2 (by decide)).trans h100,
    ((parseQty_rightmost (String.mk ("Кабель 3х2.5".data ++ [Char.ofNat 0xA0] ++ "100".data ++
        [Char.ofNat 0xA0] ++ "шт".data)) "Кабель 3х2.5 ".data "100".data [' '] "шт".data []
      (by decide) hnum (by decide) (by decide) (by decide) (by decide) (by decide)
      (by decide)).2 (by decide)).trans h100,
    (parseQty_rightmost "Провод ПВС 2х1.5 1 250 м" "Провод ПВС 2х1.5 ".data "1 250".data [' ']
      "м".data []
      (by decide) hgrp (by decide) (by decide) (by decide) (by decide) (by decide)
      (by decide)).1,
    by decide!,
    h100⟩

/-- Counterexample to C20 as stated: in `Труба 2м,3 шт` the rightmost number
with a unit is `3 шт`, and the quantity is 2 (the number stands behind a
comma); in `ВВГнг 3х2 100 шт` it is `100 шт`, and the quantity is 2100 (the
space joins `2` and `100` to one thousands-grouped number); in `Труба 2м5 шт`
it is `5 шт`, and the quantity is 2 (the letter in front of `5` closes the
unit of `2м`). Each line breaks one condition of the amended statement and
keeps the other two. -/
theorem parseQty_rightmost_counterexample :
    (ParseQty "Труба 2м,3 шт").Qty = some 2 ∧ (ParseQty "ВВГнг 3х2 100 шт").Qty = some 2100 ∧
    (ParseQty "Труба 2м5 шт").Qty = some 2 ∧
    (isNotNumeric ',' = false ∧ endsInUnitNumber "Труба 2м,".data = false ∧
      joinsEarlierNumber "Труба 2м,".data "3".data = false) ∧
    (isNotNumeric ' ' = true ∧ endsInUnitNumber "ВВГнг 3х2 ".data = false ∧
      joinsEarlierNumber "ВВГнг 3х2 ".data "100".data = true) ∧
    (isNotNumeric 'м' = true ∧ endsInUnitNumber "Труба 2м".data = true ∧
      joinsEarlierNumber "Труба 2м".data "5".data = false) := by
  refine ⟨by decide!, by decide!, by decide!, by decide, by decide, by decide⟩

end Elcom
